import Mathlib

/-! # davnext: a verification development

A shallow embedding of `davnext.go` (a WebDAV gateway in front of a local
directory and an optional next-hop WebDAV server) together with theorems about
the multistatus merger `Propfind`, the read-only guard `Dir`, the fallthrough
sink `InterceptWriter`, the capture sink `CacheWriter` and the dispatcher
`Handler.ServeHTTP`.

Conventions of the embedding
* a Go `string` is a `Str`, a list of characters (documents are UTF-8 text), and
  a Go `[]byte` is a `Bytes`, a list of bytes; `toBytes` is the UTF-8 encoding;
  the strings that `ServeHTTP` makes of the bodies written by the backends need
  not be UTF-8, so the merger that it runs is given on the bytes of the strings
  (namespace `Raw`); on the bytes of a text it stores the bytes of what the
  merger on the texts stores (`appendAll_toBytes`);
* a Go `map[string]string` is an association list with distinct keys, new
  keys being added at the end; the order in which `range` visits the entries
  is not specified by Go and is supplied by a `MapRange`;
* the two regular expressions compiled by `NewPropfind` have the shape
  `(?Us)L.*R` and are represented by the pair of literals `L`, `R`;
* an `http.ResponseWriter` is a `ResponseWriter ω` over a state `ω`; the one
  that records the calls it receives, `Recorder`, stands for the client's
  writer; a handler (the local engine, the reverse proxy) is given by the
  `Script` of calls it makes on the writer it is handed.
-/

namespace Davnext

/-! ## Strings -/

/-- A Go `string`, as the list of its characters. -/
abbrev Str := List Char

/-- A Go `[]byte`. -/
abbrev Bytes := List UInt8

/-- The bytes of a string, `[]byte(s)`: its UTF-8 encoding. -/
def toBytes (s : Str) : Bytes := s.flatMap String.utf8EncodeChar

/-- The function `strings.HasPrefix`. -/
def HasPrefix (s pre : Str) : Bool := pre.isPrefixOf s

/-- The function `strings.HasSuffix`. -/
def HasSuffix (s suf : Str) : Bool := suf.isSuffixOf s

/-- The function `strings.TrimPrefix`: `s` without the leading `pre`, or `s`
itself when it does not start with `pre`. -/
def TrimPrefix (s pre : Str) : Str :=
  if HasPrefix s pre then s.drop pre.length else s

/-- The function `strings.TrimSuffix`: `s` without the trailing `suf`, or `s`
itself when it does not end with `suf`. -/
def TrimSuffix (s suf : Str) : Str :=
  if HasSuffix s suf then s.take (s.length - suf.length) else s

/-- The predicate `unicode.IsSpace`: the characters with the Unicode
White_Space property. -/
def isSpace (c : Char) : Bool :=
  let n := c.toNat
  (0x09 ≤ n && n ≤ 0x0D) || n == 0x20 || n == 0x85 || n == 0xA0 || n == 0x1680 ||
  (0x2000 ≤ n && n ≤ 0x200A) || n == 0x2028 || n == 0x2029 || n == 0x202F ||
  n == 0x205F || n == 0x3000

/-- The function `strings.TrimSpace`: all leading and trailing white space
removed. -/
def TrimSpace (s : Str) : Str :=
  ((s.dropWhile isSpace).reverse.dropWhile isSpace).reverse

/-- Cut `s` at the first occurrence of `pat`: the text before the occurrence and
the text after it, or `none` when `pat` does not occur in `s`. -/
def splitAtFirst (pat : Str) : Str → Option (Str × Str)
  | [] => if pat = [] then some ([], []) else none
  | c :: cs =>
    if pat.isPrefixOf (c :: cs) then some ([], (c :: cs).drop pat.length)
    else
      match splitAtFirst pat cs with
      | some (before, after) => some (c :: before, after)
      | none => none

/-! ## Regular expressions of the shape `(?Us)L.*R` -/

/-- A compiled pattern `(?Us)L.*R`: the literal `left`, then as few characters as
possible (flag `U`), newlines included (flag `s`), then the literal `right`. -/
structure Regexp where
  left : Str
  right : Str
deriving DecidableEq, Repr

/-- The leftmost match of the pattern in `s`, as the text before the match, the
match itself and the text after it. The match starts at the first occurrence of
`left` and ends with the first occurrence of `right` that follows it. -/
def Regexp.find (re : Regexp) (s : Str) : Option (Str × Str × Str) :=
  match splitAtFirst re.left s with
  | none => none
  | some (before, afterLeft) =>
    match splitAtFirst re.right afterLeft with
    | none => none
    | some (body, after) => some (before, re.left ++ body ++ re.right, after)

/-- The method `Regexp.FindString`: the text of the leftmost match, or the empty
string when there is none. -/
def Regexp.FindString (re : Regexp) (s : Str) : Str :=
  match re.find s with
  | some (_, m, _) => m
  | none => []

/-- The successive non-overlapping matches in `s`, each search starting where the
previous match ended; `fuel` bounds the number of matches. -/
def Regexp.allMatches (re : Regexp) : Nat → Str → List Str
  | 0, _ => []
  | fuel + 1, s =>
    match re.find s with
    | none => []
    | some (_, m, after) => m :: re.allMatches fuel after

/-- The successive non-overlapping matches in `s`, in order (the method
`Regexp.FindAllString` with no limit). A match of the patterns used here is never
empty, so `s.length` matches are never exceeded. -/
def Regexp.FindAllString (re : Regexp) (s : Str) : List Str :=
  re.allMatches s.length s

/-- The loop of `Regexp.ReplaceAllStringFunc`: the text before each match is copied,
the match is replaced by what the callback `repl` returns for it, and the search
goes on where the match ended. The callback is a Go closure; the variables it
captures are the state `σ` that is passed along. `fuel` bounds the number of
matches. -/
def Regexp.replaceAll (re : Regexp) (repl : σ → Str → σ × Str) : Nat → Str → σ → σ × Str
  | 0, s, st => (st, s)
  | fuel + 1, s, st =>
    match re.find s with
    | none => (st, s)
    | some (before, m, after) =>
      let r := repl st m
      let rest := re.replaceAll repl fuel after r.1
      (rest.1, before ++ r.2 ++ rest.2)

/-- The method `Regexp.ReplaceAllStringFunc`: the state of the callback after the
last match, and the text with every match replaced. -/
def Regexp.ReplaceAllStringFunc (re : Regexp) (src : Str) (repl : σ → Str → σ × Str)
    (st : σ) : σ × Str :=
  re.replaceAll repl src.length src st

/-! ## The multistatus merger -/

/-- The literal `<D:response>`. -/
def responseOpen : Str := "<D:response>".toList
/-- The literal `</D:response>`. -/
def responseClose : Str := "</D:response>".toList
/-- The literal `<D:href>`. -/
def hrefOpen : Str := "<D:href>".toList
/-- The literal `</D:href>`. -/
def hrefClose : Str := "</D:href>".toList

/-- The struct `Propfind`. `items` is the Go map from href to fragment, kept as an
association list in which a new key goes to the end. -/
structure Propfind where
  items : List (Str × Str)
  response : Regexp
  href : Regexp
deriving DecidableEq, Repr

/-- The constructor `NewPropfind`. -/
def NewPropfind : Propfind where
  items := []
  response := ⟨responseOpen, responseClose⟩
  href := ⟨hrefOpen, hrefClose⟩

/-- The key computed by the callback of `Append` for the fragment `s`. -/
def Propfind.hrefOf (p : Propfind) (s : Str) : Str :=
  let href := p.href.FindString s
  let href := TrimPrefix href hrefOpen
  let href := TrimSuffix href hrefClose
  TrimSpace href

/-- The callback of `Append`, run on one matched fragment `s`: the fragment is
stored under its key unless the key is already present. -/
def Propfind.store (p : Propfind) (s : Str) : Propfind :=
  let href := p.hrefOf s
  if (p.items.lookup href).isSome then p
  else { p with items := p.items ++ [(href, s)] }

/-- The method `Propfind.Append`: `ReplaceAllStringFunc` runs the callback, which
stores the match and returns the empty string, on every match of `p.response`
in `data`; the text it returns is thrown away. -/
def Propfind.Append (p : Propfind) (data : Str) : Propfind :=
  (p.response.ReplaceAllStringFunc data (fun q s => (q.store s, [])) p).1

/-- Go's `range` over a map: every entry is visited exactly once, in an order that
the language leaves unspecified. `visit m` is the order in which the run-time
visits the entries `m`. -/
structure MapRange (α : Type) where
  visit : List α → List α
  perm : ∀ m, (visit m).Perm m

/-- A run-time that happens to visit the entries in the order of insertion. -/
def MapRange.inOrder (α : Type) : MapRange α := ⟨id, fun m => List.Perm.refl m⟩

/-- A run-time that happens to visit the entries latest first. -/
def MapRange.latestFirst (α : Type) : MapRange α := ⟨List.reverse, fun m => List.reverse_perm m⟩

/-- Go `error` values. -/
inductive Error where
  | ErrPermission
  | other (msg : String)
deriving DecidableEq, Repr

/-- An `io.Writer` over the state `ω`: `Write b` gives the new state and the
returned byte count and error. -/
structure Writer (ω : Type) where
  Write : Bytes → ω → ω × Int × Option Error

/-- The writer of a `bytes.Buffer`: the bytes are appended, `len(b)` and no error
are returned. -/
def Buffer : Writer Bytes where
  Write b buf := (buf ++ b, b.length, none)

/-- A writer that records every slice handed to `Write` and answers as `res`
says, from the slices received before and the new one. -/
def Recording (res : List Bytes → Bytes → Int × Option Error) : Writer (List Bytes) where
  Write b log := (log ++ [b], res log b)

/-- One `fmt.Fprintf(w, ...)` whose formatted text is `s`: a single `Write` of the
bytes of `s`, the result of which is ignored by the callers here. -/
def Fprintf (W : Writer ω) (w : ω) (s : Str) : ω := (W.Write (toBytes s) w).1

/-- The text of the first `Fprintf` of `WriteTo`. -/
def xmlHeader : Str :=
  "<?xml version=\"1.0\" encoding=\"UTF-8\"?><D:multistatus xmlns:D=\"DAV:\">".toList

/-- The text of the last `Fprintf` of `WriteTo`. -/
def xmlFooter : Str := "</D:multistatus>".toList

/-- The method `Propfind.WriteTo`, with the run-time's visiting order `r`. The
named results `n` and `err` are never assigned. -/
def Propfind.WriteTo (p : Propfind) (r : MapRange (Str × Str)) (W : Writer ω) (w : ω) :
    ω × Int × Option Error :=
  let w := Fprintf W w xmlHeader
  let w := (r.visit p.items).foldl (fun w item => Fprintf W w item.2) w
  let w := Fprintf W w xmlFooter
  (w, 0, none)

/-- The serialized document: what `WriteTo` leaves in an empty `bytes.Buffer`. -/
def Propfind.serialize (p : Propfind) (r : MapRange (Str × Str)) : Bytes :=
  (p.WriteTo r Buffer []).1

/-! ## The multistatus merger on the bytes of the strings

A Go string is a sequence of bytes that need not be UTF-8, and `ServeHTTP` appends
`B.String()`, the string with the very bytes that a backend wrote. In this part
the strings of the merger are given by their bytes, so that every string has its
counterpart. The functions of Go read a string rune by rune, and a byte that is
not part of a UTF-8 encoding is a rune of its own, of width 1, which `.` matches
and which is no white space. The literals of the two patterns and of the two
trims are ASCII, and an ASCII byte is never inside the encoding of another rune,
so an occurrence of a literal in the bytes is an occurrence in the runes.

On the bytes of a text this merger does what the merger on the texts does: see
`Propfind.Append_toBytes` and `appendAll_toBytes`. -/

namespace Raw

/-- Cut `s` at the first occurrence of `pat`: the bytes before the occurrence and
the bytes after it, or `none` when `pat` does not occur in `s`. -/
def splitAtFirst (pat : Bytes) : Bytes → Option (Bytes × Bytes)
  | [] => if pat = [] then some ([], []) else none
  | c :: cs =>
    if pat.isPrefixOf (c :: cs) then some ([], (c :: cs).drop pat.length)
    else
      match splitAtFirst pat cs with
      | some (before, after) => some (c :: before, after)
      | none => none

/-- A compiled pattern `(?Us)L.*R`, the literals given by their bytes: the literal
`left`, then as few runes as possible (flag `U`), newlines included (flag `s`),
then the literal `right`. -/
structure Regexp where
  left : Bytes
  right : Bytes
deriving DecidableEq, Repr

/-- The leftmost match of the pattern in `s`, as the bytes before the match, the
match itself and the bytes after it. The match starts at the first occurrence of
`left` and ends with the first occurrence of `right` that follows it. -/
def Regexp.find (re : Regexp) (s : Bytes) : Option (Bytes × Bytes × Bytes) :=
  match splitAtFirst re.left s with
  | none => none
  | some (before, afterLeft) =>
    match splitAtFirst re.right afterLeft with
    | none => none
    | some (body, after) => some (before, re.left ++ body ++ re.right, after)

/-- The method `Regexp.FindString`: the leftmost match, or the empty string when
there is none. -/
def Regexp.FindString (re : Regexp) (s : Bytes) : Bytes :=
  match re.find s with
  | some (_, m, _) => m
  | none => []

/-- The successive non-overlapping matches in `s`, each search starting where the
previous match ended; `fuel` bounds the number of matches. -/
def Regexp.allMatches (re : Regexp) : Nat → Bytes → List Bytes
  | 0, _ => []
  | fuel + 1, s =>
    match re.find s with
    | none => []
    | some (_, m, after) => m :: re.allMatches fuel after

/-- The successive non-overlapping matches in `s`, in order (the method
`Regexp.FindAllString` with no limit). A match of the patterns used here is never
empty, so `s.length` matches are never exceeded. -/
def Regexp.FindAllString (re : Regexp) (s : Bytes) : List Bytes :=
  re.allMatches s.length s

/-- The loop of `Regexp.ReplaceAllStringFunc`: the bytes before each match are
copied, the match is replaced by what the callback `repl` returns for it, and the
search goes on where the match ended. The variables that the callback captures
are the state `σ` that is passed along. `fuel` bounds the number of matches. -/
def Regexp.replaceAll (re : Regexp) (repl : σ → Bytes → σ × Bytes) :
    Nat → Bytes → σ → σ × Bytes
  | 0, s, st => (st, s)
  | fuel + 1, s, st =>
    match re.find s with
    | none => (st, s)
    | some (before, m, after) =>
      let r := repl st m
      let rest := re.replaceAll repl fuel after r.1
      (rest.1, before ++ r.2 ++ rest.2)

/-- The method `Regexp.ReplaceAllStringFunc`: the state of the callback after the
last match, and the string with every match replaced. -/
def Regexp.ReplaceAllStringFunc (re : Regexp) (src : Bytes) (repl : σ → Bytes → σ × Bytes)
    (st : σ) : σ × Bytes :=
  re.replaceAll repl src.length src st

/-- The function `strings.TrimPrefix`. -/
def TrimPrefix (s pre : Bytes) : Bytes :=
  if pre.isPrefixOf s then s.drop pre.length else s

/-- The function `strings.TrimSuffix`. -/
def TrimSuffix (s suf : Bytes) : Bytes :=
  if suf.isSuffixOf s then s.take (s.length - suf.length) else s

/-- The runes for which `unicode.IsSpace` holds, by their code points. -/
def spaceRunes : List Nat :=
  [0x09, 0x0A, 0x0B, 0x0C, 0x0D, 0x20, 0x85, 0xA0, 0x1680, 0x2000, 0x2001, 0x2002, 0x2003,
    0x2004, 0x2005, 0x2006, 0x2007, 0x2008, 0x2009, 0x200A, 0x2028, 0x2029, 0x202F, 0x205F,
    0x3000]

/-- The UTF-8 encodings of the runes for which `unicode.IsSpace` holds. -/
def spaceEncodings : List Bytes := spaceRunes.map (fun n => String.utf8EncodeChar (Char.ofNat n))

/-- The encoding of the white space rune that `s` starts with, if it starts with
one: what `utf8.DecodeRuneInString` finds at the start of `s` when that is a rune
for which `unicode.IsSpace` holds. -/
def leadingSpace (s : Bytes) : Option Bytes := spaceEncodings.find? (fun e => e.isPrefixOf s)

/-- The encoding of the white space rune that `s` ends with, if it ends with one:
what `utf8.DecodeLastRuneInString` finds at the end of `s` when that is a rune for
which `unicode.IsSpace` holds. -/
def trailingSpace (s : Bytes) : Option Bytes := spaceEncodings.find? (fun e => e.isSuffixOf s)

/-- The leading white space runes removed, one after the other; `fuel` bounds their
number. -/
def trimLeft : Nat → Bytes → Bytes
  | 0, s => s
  | fuel + 1, s =>
    match leadingSpace s with
    | none => s
    | some e => trimLeft fuel (s.drop e.length)

/-- The trailing white space runes removed, one after the other; `fuel` bounds their
number. -/
def trimRight : Nat → Bytes → Bytes
  | 0, s => s
  | fuel + 1, s =>
    match trailingSpace s with
    | none => s
    | some e => trimRight fuel (s.take (s.length - e.length))

/-- The function `strings.TrimSpace`: the leading white space runes removed, then
the trailing ones. Every rune takes at least one byte, so `s.length` runes are
never exceeded. -/
def TrimSpace (s : Bytes) : Bytes :=
  trimRight (trimLeft s.length s).length (trimLeft s.length s)

/-- The struct `Propfind`, its strings given by their bytes. `items` is the Go map
from href to fragment, kept as an association list in which a new key goes to
the end. -/
structure Propfind where
  items : List (Bytes × Bytes)
  response : Regexp
  href : Regexp
deriving DecidableEq, Repr

/-- The constructor `NewPropfind`. -/
def NewPropfind : Propfind where
  items := []
  response := ⟨toBytes responseOpen, toBytes responseClose⟩
  href := ⟨toBytes hrefOpen, toBytes hrefClose⟩

/-- The key computed by the callback of `Append` for the fragment `s`. -/
def Propfind.hrefOf (p : Propfind) (s : Bytes) : Bytes :=
  let href := p.href.FindString s
  let href := TrimPrefix href (toBytes hrefOpen)
  let href := TrimSuffix href (toBytes hrefClose)
  TrimSpace href

/-- The callback of `Append`, run on one matched fragment `s`: the fragment is
stored under its key unless the key is already present. -/
def Propfind.store (p : Propfind) (s : Bytes) : Propfind :=
  let href := p.hrefOf s
  if (p.items.lookup href).isSome then p
  else { p with items := p.items ++ [(href, s)] }

/-- The method `Propfind.Append`: `ReplaceAllStringFunc` runs the callback, which
stores the match and returns the empty string, on every match of `p.response`
in `data`; the string it returns is thrown away. -/
def Propfind.Append (p : Propfind) (data : Bytes) : Propfind :=
  (p.response.ReplaceAllStringFunc data (fun q s => (q.store s, [])) p).1

/-- The method `Propfind.WriteTo`, with the run-time's visiting order `r`: the
header, then one `Fprintf` with the verb `%v` for every item, which writes the
bytes of the fragment as they are, then the footer. The named results `n` and
`err` are never assigned. -/
def Propfind.WriteTo (p : Propfind) (r : MapRange (Bytes × Bytes)) (W : Writer ω) (w : ω) :
    ω × Int × Option Error :=
  let w := Fprintf W w xmlHeader
  let w := (r.visit p.items).foldl (fun w item => (W.Write item.2 w).1) w
  let w := Fprintf W w xmlFooter
  (w, 0, none)

/-- The serialized document: what `WriteTo` leaves in an empty `bytes.Buffer`. -/
def Propfind.serialize (p : Propfind) (r : MapRange (Bytes × Bytes)) : Bytes :=
  (p.WriteTo r Buffer []).1

end Raw

/-! ## The read-only guard -/

/-- A `context.Context`. -/
structure Context where
  id : Nat
deriving DecidableEq, Repr

/-- A `webdav.File` handle. -/
structure File where
  name : Str
  flag : Int
deriving DecidableEq, Repr

/-- An `os.FileInfo`. -/
structure FileInfo where
  name : Str
  isDir : Bool
deriving DecidableEq, Repr

/-- The wrapped store `webdav.Dir`, as its five operations on the files `φ` of
the operating system. -/
structure WebdavDir (φ : Type) where
  Mkdir : Context → Str → Nat → φ → φ × Option Error
  OpenFile : Context → Str → Int → Nat → φ → φ × Option File × Option Error
  RemoveAll : Context → Str → φ → φ × Option Error
  Rename : Context → Str → Str → φ → φ × Option Error
  Stat : Context → Str → φ → φ × Option FileInfo × Option Error

/-- A call that reached the wrapped store. -/
inductive FsCall where
  | Mkdir (name : Str) (perm : Nat)
  | OpenFile (name : Str) (flag : Int) (perm : Nat)
  | RemoveAll (name : Str)
  | Rename (oldName newName : Str)
  | Stat (name : Str)
deriving DecidableEq, Repr

/-- The files of the operating system together with the calls that the wrapped
store has received so far. -/
structure World (φ : Type) where
  fs : φ
  calls : List FsCall
deriving DecidableEq

/-- The struct `Dir`: the embedded `webdav.Dir` (the field `webdav` here) and the
flag `Modify`. -/
structure Dir (φ : Type) where
  webdav : WebdavDir φ
  Modify : Bool

/-- The constructor `NewDir`. -/
def NewDir (base : WebdavDir φ) (modify : Bool) : Dir φ where
  webdav := base
  Modify := modify

/-- The call `d.Dir.Mkdir(ctx, name, perm)` on the wrapped store. -/
def WebdavDir.callMkdir (b : WebdavDir φ) (ctx : Context) (name : Str) (perm : Nat)
    (w : World φ) : World φ × Option Error :=
  let r := b.Mkdir ctx name perm w.fs
  (⟨r.1, w.calls ++ [FsCall.Mkdir name perm]⟩, r.2)

/-- The call `d.Dir.OpenFile(ctx, name, flag, perm)` on the wrapped store. -/
def WebdavDir.callOpenFile (b : WebdavDir φ) (ctx : Context) (name : Str) (flag : Int)
    (perm : Nat) (w : World φ) : World φ × Option File × Option Error :=
  let r := b.OpenFile ctx name flag perm w.fs
  (⟨r.1, w.calls ++ [FsCall.OpenFile name flag perm]⟩, r.2)

/-- The call `d.Dir.RemoveAll(ctx, name)` on the wrapped store. -/
def WebdavDir.callRemoveAll (b : WebdavDir φ) (ctx : Context) (name : Str)
    (w : World φ) : World φ × Option Error :=
  let r := b.RemoveAll ctx name w.fs
  (⟨r.1, w.calls ++ [FsCall.RemoveAll name]⟩, r.2)

/-- The call `d.Dir.Rename(ctx, oldName, newName)` on the wrapped store. -/
def WebdavDir.callRename (b : WebdavDir φ) (ctx : Context) (oldName newName : Str)
    (w : World φ) : World φ × Option Error :=
  let r := b.Rename ctx oldName newName w.fs
  (⟨r.1, w.calls ++ [FsCall.Rename oldName newName]⟩, r.2)

/-- The call `d.Dir.Stat(ctx, name)` on the wrapped store. -/
def WebdavDir.callStat (b : WebdavDir φ) (ctx : Context) (name : Str)
    (w : World φ) : World φ × Option FileInfo × Option Error :=
  let r := b.Stat ctx name w.fs
  (⟨r.1, w.calls ++ [FsCall.Stat name]⟩, r.2)

/-- The method `Dir.Mkdir`. -/
def Dir.Mkdir (d : Dir φ) (ctx : Context) (name : Str) (perm : Nat) (w : World φ) :
    World φ × Option Error :=
  if !d.Modify then (w, some Error.ErrPermission)
  else d.webdav.callMkdir ctx name perm w

/-- The method `Dir.RemoveAll`. -/
def Dir.RemoveAll (d : Dir φ) (ctx : Context) (name : Str) (w : World φ) :
    World φ × Option Error :=
  if !d.Modify then (w, some Error.ErrPermission)
  else d.webdav.callRemoveAll ctx name w

/-- The method `Dir.Rename`. -/
def Dir.Rename (d : Dir φ) (ctx : Context) (oldName newName : Str) (w : World φ) :
    World φ × Option Error :=
  if !d.Modify then (w, some Error.ErrPermission)
  else d.webdav.callRename ctx oldName newName w

/-- The method `OpenFile` of `Dir`: `Dir` does not declare it, so it is the method
promoted from the embedded `webdav.Dir`. -/
def Dir.OpenFile (d : Dir φ) (ctx : Context) (name : Str) (flag : Int) (perm : Nat)
    (w : World φ) : World φ × Option File × Option Error :=
  d.webdav.callOpenFile ctx name flag perm w

/-- The method `Stat` of `Dir`: `Dir` does not declare it, so it is the method
promoted from the embedded `webdav.Dir`. -/
def Dir.Stat (d : Dir φ) (ctx : Context) (name : Str) (w : World φ) :
    World φ × Option FileInfo × Option Error :=
  d.webdav.callStat ctx name w

/-- The flag `os.O_WRONLY`. -/
def O_WRONLY : Int := 0x1
/-- The flag `os.O_RDWR`. -/
def O_RDWR : Int := 0x2
/-- The flag `os.O_CREATE`. -/
def O_CREATE : Int := 0x40
/-- The flag `os.O_TRUNC`. -/
def O_TRUNC : Int := 0x200

/-- Whether the bit `bit` is set in `flag`. -/
def hasFlag (flag bit : Int) : Bool := (flag.toNat / bit.toNat) % 2 == 1

/-- A small `webdav.Dir` over the list of the paths that exist. `OpenFile` creates
a missing path when `O_CREATE` is set, as `os.OpenFile` does, and fails
otherwise; `Mkdir` adds a path, `RemoveAll` removes it, `Rename` replaces it. -/
def pathsDir : WebdavDir (List Str) where
  Mkdir _ name _ fs :=
    if name ∈ fs then (fs, some (Error.other "file exists")) else (fs ++ [name], none)
  OpenFile _ name flag _ fs :=
    if name ∈ fs then (fs, some ⟨name, flag⟩, none)
    else if hasFlag flag O_CREATE then (fs ++ [name], some ⟨name, flag⟩, none)
    else (fs, none, some (Error.other "file does not exist"))
  RemoveAll _ name fs := (fs.filter (fun n => n != name), none)
  Rename _ oldName newName fs :=
    if oldName ∈ fs then (fs.map (fun n => if n = oldName then newName else n), none)
    else (fs, some (Error.other "file does not exist"))
  Stat _ name fs :=
    if name ∈ fs then (fs, some ⟨name, false⟩, none)
    else (fs, none, some (Error.other "file does not exist"))

/-! ## The fallthrough sink -/

/-- A mutation of the `http.Header` map that `Header()` returned: a call of one of
the methods `Set`, `Add` and `Del`, or the assignment `h[key] = values`. -/
inductive HeaderMut where
  | Set (key value : Str)
  | Add (key value : Str)
  | Del (key : Str)
  | Assign (key : Str) (values : List Str)
deriving DecidableEq, Repr

/-- An `http.ResponseWriter` over the state `ω`: a mutation of its header map,
`WriteHeader` and `Write`. -/
structure ResponseWriter (ω : Type) where
  Header : HeaderMut → ω → ω
  WriteHeader : Int → ω → ω
  Write : Bytes → ω → ω × Int × Option Error

/-- What a response writer receives. -/
inductive WriterCall where
  | Header (m : HeaderMut)
  | WriteHeader (statusCode : Int)
  | Write (b : Bytes)
deriving DecidableEq, Repr

/-- The response writer that records every call it receives; its `Write` answers
as `res` says, from the calls received before and the new slice. -/
def Recorder (res : List WriterCall → Bytes → Int × Option Error) :
    ResponseWriter (List WriterCall) where
  Header m log := log ++ [WriterCall.Header m]
  WriteHeader statusCode log := log ++ [WriterCall.WriteHeader statusCode]
  Write b log := (log ++ [WriterCall.Write b], res log b)

/-- The constant `http.StatusNotFound`. -/
def StatusNotFound : Int := 404

/-- The struct `InterceptWriter`. `stdout` is not a field of the Go struct: it stands
for the standard output of the process, to which `Write` echoes every slice. -/
structure InterceptWriter (ω : Type) where
  Base : ω
  StatusCode : Int
  stdout : Bytes

/-- The sink `&InterceptWriter{Base: w}` made by `ServeHTTP`. -/
def InterceptWriter.new (base : ω) (stdout : Bytes) : InterceptWriter ω where
  Base := base
  StatusCode := 0
  stdout := stdout

/-- A mutation `m` of the map returned by the method `InterceptWriter.Header`: with
status 404 the map is a fresh `http.Header{}` that nobody else sees, otherwise it
is the header map of `Base`. -/
def InterceptWriter.Header (B : ResponseWriter ω) (i : InterceptWriter ω) (m : HeaderMut) :
    InterceptWriter ω :=
  if i.StatusCode = StatusNotFound then i
  else { i with Base := B.Header m i.Base }

/-- The method `InterceptWriter.Write`. -/
def InterceptWriter.Write (B : ResponseWriter ω) (i : InterceptWriter ω) (b : Bytes) :
    InterceptWriter ω × Int × Option Error :=
  let i := { i with stdout := i.stdout ++ b }
  if i.StatusCode = StatusNotFound then (i, b.length, none)
  else
    let r := B.Write b i.Base
    ({ i with Base := r.1 }, r.2)

/-- The method `InterceptWriter.WriteHeader`. -/
def InterceptWriter.WriteHeader (B : ResponseWriter ω) (i : InterceptWriter ω)
    (statusCode : Int) : InterceptWriter ω :=
  let i := { i with StatusCode := statusCode }
  if i.StatusCode = StatusNotFound then i
  else { i with Base := B.WriteHeader statusCode i.Base }

/-- What a handler does with the response writer it was given. -/
inductive HandlerCall where
  | Header (m : HeaderMut)
  | WriteHeader (statusCode : Int)
  | Write (b : Bytes)
deriving DecidableEq, Repr

/-- One call of a handler on an `InterceptWriter`. -/
def InterceptWriter.step (B : ResponseWriter ω) (i : InterceptWriter ω) :
    HandlerCall → InterceptWriter ω
  | HandlerCall.Header m => i.Header B m
  | HandlerCall.WriteHeader statusCode => i.WriteHeader B statusCode
  | HandlerCall.Write b => (i.Write B b).1

/-- A handler's sequence of calls on an `InterceptWriter`. -/
def InterceptWriter.run (B : ResponseWriter ω) (i : InterceptWriter ω)
    (calls : List HandlerCall) : InterceptWriter ω :=
  calls.foldl (InterceptWriter.step B) i

/-- The calls of a handler made directly on a response writer: one call. -/
def ResponseWriter.step (B : ResponseWriter ω) (w : ω) : HandlerCall → ω
  | HandlerCall.Header m => B.Header m w
  | HandlerCall.WriteHeader statusCode => B.WriteHeader statusCode w
  | HandlerCall.Write b => (B.Write b w).1

/-- A handler's sequence of calls made directly on a response writer. -/
def ResponseWriter.run (B : ResponseWriter ω) (w : ω) (calls : List HandlerCall) : ω :=
  calls.foldl B.step w

/-- What the calls `Write` of a sequence of calls return, when the calls are made
directly on a response writer. -/
def ResponseWriter.results (B : ResponseWriter ω) (w : ω) :
    List HandlerCall → List (Int × Option Error)
  | [] => []
  | HandlerCall.Write b :: calls => (B.Write b w).2 :: B.results (B.Write b w).1 calls
  | c :: calls => B.results (B.step w c) calls

/-- An `InterceptWriter` around the writer `B`, as the response writer that a handler
is given. -/
def InterceptWriter.writer (B : ResponseWriter ω) : ResponseWriter (InterceptWriter ω) where
  Header m i := i.Header B m
  WriteHeader statusCode i := i.WriteHeader B statusCode
  Write b i := i.Write B b

/-- The call of a handler as the real writer receives it when it is forwarded. -/
def HandlerCall.toWriterCall : HandlerCall → WriterCall
  | HandlerCall.Header m => WriterCall.Header m
  | HandlerCall.WriteHeader statusCode => WriterCall.WriteHeader statusCode
  | HandlerCall.Write b => WriterCall.Write b

/-! ## Header maps -/

/-- An `http.Header`, the Go map `map[string][]string`, as an association list. -/
abbrev HeaderMap := List (Str × List Str)

/-- The assignment `m[k] = v` on a Go map kept as an association list: the value of
a key that is present is replaced where it stands, a new key goes to the end. -/
def mapAssign (m : List (Str × β)) (k : Str) (v : β) : List (Str × β) :=
  if (m.lookup k).isSome then m.map (fun e => if e.1 = k then (k, v) else e)
  else m ++ [(k, v)]

/-- The statement `delete(m, k)` on a Go map kept as an association list. -/
def mapDelete (m : List (Str × β)) (k : Str) : List (Str × β) :=
  m.filter (fun e => e.1 != k)

/-- The bytes allowed in a header field name: the token characters of RFC 7230. -/
def validHeaderFieldByte (c : Char) : Bool :=
  c.isAlphanum || c ∈ "!#$%&'*+-.^_`|~".toList

/-- The loop of `textproto.CanonicalMIMEHeaderKey`: a letter is made upper case at
the start and after a hyphen, lower case elsewhere. -/
def canonicalLoop : Bool → Str → Str
  | _, [] => []
  | upper, c :: cs =>
    let c2 := if upper then c.toUpper else c.toLower
    c2 :: canonicalLoop (c2 == '-') cs

/-- The function `textproto.CanonicalMIMEHeaderKey`: a key with a space or a byte
that is not allowed in a field name is returned as it is. -/
def CanonicalMIMEHeaderKey (s : Str) : Str :=
  if s.all validHeaderFieldByte then canonicalLoop true s else s

/-- The effect of a mutation on an `http.Header`: the methods `Set`, `Add` and `Del`
use the canonical form of the key, the assignment `h[key] = values` uses the key
as it is. -/
def HeaderMut.apply : HeaderMut → HeaderMap → HeaderMap
  | HeaderMut.Set key value, h => mapAssign h (CanonicalMIMEHeaderKey key) [value]
  | HeaderMut.Add key value, h =>
    mapAssign h (CanonicalMIMEHeaderKey key)
      (((h.lookup (CanonicalMIMEHeaderKey key)).getD []) ++ [value])
  | HeaderMut.Del key, h => mapDelete h (CanonicalMIMEHeaderKey key)
  | HeaderMut.Assign key values, h => mapAssign h key values

/-! ## The capture sink -/

/-- The struct `CacheWriter`; `B` is the content of the `bytes.Buffer`. -/
structure CacheWriter where
  StatusCode : Int
  H : HeaderMap
  B : Bytes
deriving DecidableEq, Repr

/-- The constructor `NewCacheWriter`. -/
def NewCacheWriter : CacheWriter where
  StatusCode := 0
  H := []
  B := []

/-- A mutation `m` of the map returned by the method `CacheWriter.Header`, which is
the map `c.H` itself. -/
def CacheWriter.Header (c : CacheWriter) (m : HeaderMut) : CacheWriter :=
  { c with H := m.apply c.H }

/-- The method `CacheWriter.Write`: the write of the `bytes.Buffer`, which appends
the bytes and returns `len(b)` and no error. -/
def CacheWriter.Write (c : CacheWriter) (b : Bytes) : CacheWriter × Int × Option Error :=
  ({ c with B := c.B ++ b }, b.length, none)

/-- The method `CacheWriter.WriteHeader`. -/
def CacheWriter.WriteHeader (c : CacheWriter) (statusCode : Int) : CacheWriter :=
  { c with StatusCode := statusCode }

/-- A `CacheWriter` as the response writer that a handler is given. -/
def CacheWriter.writer : ResponseWriter CacheWriter where
  Header m c := c.Header m
  WriteHeader statusCode c := c.WriteHeader statusCode
  Write b c := c.Write b

/-! ## Handlers and requests -/

/-- What a handler does with the response writer it is given: its calls, each `Write`
followed by what the handler does once it knows the result of that `Write`. -/
inductive Script where
  | done
  | Header (m : HeaderMut) (next : Script)
  | WriteHeader (statusCode : Int) (next : Script)
  | Write (b : Bytes) (next : Int × Option Error → Script)

/-- The run of a handler on a response writer: the state in which it leaves the
writer. -/
def Script.run (B : ResponseWriter ω) : Script → ω → ω
  | Script.done, w => w
  | Script.Header m next, w => next.run B (B.Header m w)
  | Script.WriteHeader statusCode next, w => next.run B (B.WriteHeader statusCode w)
  | Script.Write b next, w => (next (B.Write b w).2).run B (B.Write b w).1

/-- The calls that a handler makes when it runs on a response writer. -/
def Script.calls (B : ResponseWriter ω) : Script → ω → List HandlerCall
  | Script.done, _ => []
  | Script.Header m next, w => HandlerCall.Header m :: next.calls B (B.Header m w)
  | Script.WriteHeader statusCode next, w =>
    HandlerCall.WriteHeader statusCode :: next.calls B (B.WriteHeader statusCode w)
  | Script.Write b next, w =>
    HandlerCall.Write b :: (next (B.Write b w).2).calls B (B.Write b w).1

/-- The handler that makes the given calls, whatever its writes return. -/
def Script.ofCalls : List HandlerCall → Script
  | [] => Script.done
  | HandlerCall.Header m :: calls => Script.Header m (Script.ofCalls calls)
  | HandlerCall.WriteHeader statusCode :: calls =>
    Script.WriteHeader statusCode (Script.ofCalls calls)
  | HandlerCall.Write b :: calls => Script.Write b (fun _ => Script.ofCalls calls)

/-- The next-hop `*url.URL`, as far as `ServeHTTP` reads it: its host and what
`User.Username()` and `User.Password()` return (empty when there is no user
information). -/
structure URL where
  Host : Str
  Username : Str
  Password : Str
deriving DecidableEq, Repr

/-- An `*http.Request`. `BasicAuth` is what the `Authorization` header holds, as
`r.BasicAuth()` parses it (`none` when it is missing or not Basic credentials);
`Header` holds the other headers; `Body` is what reading the body yields. -/
structure Request where
  Method : Str
  URL : Str
  Path : Str
  Host : Str
  Header : HeaderMap
  BasicAuth : Option (Str × Str)
  Body : Bytes
deriving DecidableEq, Repr

/-- The user name and the password that `r.BasicAuth()` returns: empty strings when
the request carries no Basic credentials. -/
def Request.credentials (r : Request) : Str × Str := r.BasicAuth.getD ([], [])

/-- The method `r.SetBasicAuth`. -/
def Request.SetBasicAuth (r : Request) (username password : Str) : Request :=
  { r with BasicAuth := some (username, password) }

/-- The two backends. -/
inductive Backend where
  | Dav
  | proxy
deriving DecidableEq, Repr

/-- A line written by `log.Printf`, given by its arguments. The last argument of
the two fault lines is the string `B.String()` of a capture, given by its bytes. -/
inductive LogEvent where
  | handler (method url host : Str)
  | unauthorized (path username password : Str)
  | localFault (method url : Str) (next : URL) (body : Bytes)
  | nextFault (method url : Str) (next : URL) (body : Bytes)
  | nextProcess (path : Str) (next : URL)
deriving DecidableEq, Repr

/-- The struct `Handler`. The local engine `Dav` and the reverse proxy `proxy` are
given by what they do for a request. -/
structure Handler where
  Dav : Request → Script
  Username : Str
  Password : Str
  Next : Option URL
  proxy : Request → Script

/-- The constructor `NewHandler`; `reverseProxy next` stands for
`httputil.NewSingleHostReverseProxy(next)`, whose director is wrapped so that the
host of the request becomes the host of `next`. -/
def NewHandler (dav : Request → Script) (next : Option URL)
    (reverseProxy : URL → Request → Script) : Handler where
  Dav := dav
  Username := []
  Password := []
  Next := next
  proxy :=
    match next with
    | some n => fun r => reverseProxy n { r with Host := n.Host }
    | none => fun _ => Script.done

/-- What one call of `ServeHTTP` leaves behind: the state of the client's response
writer, the backends that were invoked with the request each one got, the lines
logged and the standard output. -/
structure Outcome (ω : Type) where
  w : ω
  invoked : List (Backend × Request)
  log : List LogEvent
  stdout : Bytes

/-- The orders in which the run-time visits the maps during one call of `ServeHTTP`:
the header map of the local capture and the items of the two `WriteTo` calls. -/
structure Runtime where
  headers : MapRange (Str × List Str)
  first : MapRange (Bytes × Bytes)
  second : MapRange (Bytes × Bytes)

/-- The constant `http.StatusUnauthorized`. -/
def StatusUnauthorized : Int := 401

/-- The constant `http.StatusMultiStatus`. -/
def StatusMultiStatus : Int := 207

/-- A response writer as an `io.Writer`. -/
def ResponseWriter.toWriter (B : ResponseWriter ω) : Writer ω where
  Write := B.Write

/-- The PROPFIND branch of `Handler.ServeHTTP`: both backends are run into capture
sinks, then either the local capture is passed on or the merged document is
written. The strings `localWriter.B.String()` and `remoteWriter.B.String()` that
are appended are the strings with the bytes of the two captured bodies, whatever
these bytes are, so the merger is the one on the bytes of the strings. -/
def Handler.propfind (h : Handler) (next : URL) (rt : Runtime) (B : ResponseWriter ω)
    (w : ω) (stdout : Bytes) (log : List LogEvent) (r r1 r2 : Request) : Outcome ω :=
  let localWriter := (h.Dav r1).run CacheWriter.writer NewCacheWriter
  let remoteWriter := (h.proxy r2).run CacheWriter.writer NewCacheWriter
  let invoked := [(Backend.Dav, r1), (Backend.proxy, r2)]
  let log :=
    if localWriter.StatusCode ≠ StatusMultiStatus then
      log ++ [LogEvent.localFault r.Method r.URL next localWriter.B]
    else log
  let log :=
    if remoteWriter.StatusCode ≠ StatusMultiStatus then
      log ++ [LogEvent.nextFault r.Method r.URL next remoteWriter.B]
    else log
  if localWriter.StatusCode ≠ StatusMultiStatus ∧
      remoteWriter.StatusCode ≠ StatusMultiStatus then
    let w := (rt.headers.visit localWriter.H).foldl
      (fun w kv => B.Header (HeaderMut.Assign kv.1 kv.2) w) w
    let w := B.WriteHeader localWriter.StatusCode w
    let w := (B.Write localWriter.B w).1
    ⟨w, invoked, log, stdout⟩
  else
    let propfind := Raw.NewPropfind
    let propfind :=
      if localWriter.StatusCode = StatusMultiStatus then
        propfind.Append localWriter.B
      else propfind
    let propfind :=
      if remoteWriter.StatusCode = StatusMultiStatus then
        propfind.Append remoteWriter.B
      else propfind
    let buffer := (propfind.WriteTo rt.first Buffer []).1
    let w := B.Header (HeaderMut.Set "Content-Type".toList "text/xml; charset=utf-8".toList) w
    let w := B.Header (HeaderMut.Set "Content-Length".toList (Nat.repr buffer.length).toList) w
    let w := B.WriteHeader StatusMultiStatus w
    let w := (propfind.WriteTo rt.second B.toWriter w).1
    ⟨w, invoked, log, stdout⟩

/-- The last part of `Handler.ServeHTTP`, for the other methods: the local engine
runs on an `InterceptWriter` around the client's writer, and when the sink ends
with the status 404 the reverse proxy runs on the client's writer itself. -/
def Handler.fallthrough (h : Handler) (next : URL) (B : ResponseWriter ω) (w : ω)
    (stdout : Bytes) (log : List LogEvent) (r r1 r2 : Request) : Outcome ω :=
  let writer := (h.Dav r1).run (InterceptWriter.writer B) (InterceptWriter.new w stdout)
  if writer.StatusCode ≠ StatusNotFound then
    ⟨writer.Base, [(Backend.Dav, r1)], log, writer.stdout⟩
  else
    ⟨(h.proxy r2).run B writer.Base, [(Backend.Dav, r1), (Backend.proxy, r2)],
      log ++ [LogEvent.nextProcess r.Path next], writer.stdout⟩

/-- The method `Handler.ServeHTTP`, after the authentication: the dispatch to the
backends. -/
def Handler.dispatch (h : Handler) (rt : Runtime) (B : ResponseWriter ω) (w : ω)
    (stdout : Bytes) (log : List LogEvent) (r : Request) : Outcome ω :=
  match h.Next with
  | none => ⟨(h.Dav r).run B w, [(Backend.Dav, r)], log, stdout⟩
  | some next =>
    let r := if 0 < next.Username.length then r.SetBasicAuth next.Username next.Password else r
    let body := r.Body
    let r1 := { r with Body := body }
    let r2 := { r with
      Header := (HeaderMut.Set "Host".toList next.Host).apply r.Header, Body := body }
    if r.Method = "PROPFIND".toList then h.propfind next rt B w stdout log r r1 r2
    else h.fallthrough next B w stdout log r r1 r2

/-- The method `Handler.ServeHTTP`. -/
def Handler.ServeHTTP (h : Handler) (rt : Runtime) (B : ResponseWriter ω) (w : ω)
    (stdout : Bytes) (r : Request) : Outcome ω :=
  let log := [LogEvent.handler r.Method r.URL r.Host]
  if 0 < h.Username.length then
    if r.credentials.1 ≠ h.Username ∨ r.credentials.2 ≠ h.Password then
      let log := log ++ [LogEvent.unauthorized r.Path r.credentials.1 r.credentials.2]
      let w := B.Header
        (HeaderMut.Set "WWW-Authenticate".toList "Basic realm=Dav Server".toList) w
      let w := B.WriteHeader StatusUnauthorized w
      let w := Fprintf B.toWriter w "unauthorized".toList
      ⟨w, [], log, stdout⟩
    else h.dispatch rt B w stdout log r
  else h.dispatch rt B w stdout log r


/-! # Specification predicates -/

/-- The fragments of a document, as the callback of `Append` receives them: the
matches of the `response` pattern compiled by `NewPropfind`. -/
def fragments (d : Str) : List Str := NewPropfind.response.FindAllString d

/-- The key of a fragment, as the callback of `Append` computes it with the `href`
pattern compiled by `NewPropfind`. -/
def hrefKey (s : Str) : Str := NewPropfind.hrefOf s

/-- The first fragment of the document `d` whose key is `k`. -/
def firstWithKey (d k : Str) : Option Str := (fragments d).find? (fun f => hrefKey f == k)

/-- The keys of the stored entries. -/
def Propfind.keys (p : Propfind) : List Str := p.items.map Prod.fst

/-- A local listing: one fragment for `/a`. -/
def fragLocalA : Str := "<D:response><D:href>/a</D:href>L</D:response>".toList
/-- A remote fragment for `/a`, with another body. -/
def fragRemoteA : Str := "<D:response><D:href>/a</D:href>R</D:response>".toList
/-- A remote fragment for `/b`. -/
def fragRemoteB : Str := "<D:response><D:href>/b</D:href>R</D:response>".toList
/-- The local document of the example: the fragment for `/a`. -/
def docLocal : Str := fragLocalA
/-- The remote document of the example: fragments for `/a` and `/b`. -/
def docRemote : Str := fragRemoteA ++ fragRemoteB

/-- Every stored entry is filed under the key of its own fragment. -/
def Propfind.WellKeyed (p : Propfind) : Prop :=
  ∀ e ∈ p.items, p.hrefOf e.2 = e.1

/-- The state `p` carries the two patterns compiled by `NewPropfind`: it is a fresh
`Propfind` or came from one by calls of `Append`. -/
def Propfind.Compiled (p : Propfind) : Prop :=
  p.response = NewPropfind.response ∧ p.href = NewPropfind.href

/-- The text `s` contains an element `<D:href>...</D:href>`. -/
def HasHref (s : Str) : Prop := ∃ a t b, s = a ++ hrefOpen ++ t ++ hrefClose ++ b

/-- A fragment without any href element. -/
def fragNoHref : Str := "<D:response>x</D:response>".toList
/-- A fragment whose href element is empty. -/
def fragEmptyHref : Str := "<D:response><D:href></D:href>y</D:response>".toList

/-- A malformed document: the well-matched fragment `fragRemoteA`, then a start
marker `<D:response>` that no end marker follows. -/
def docUnmatched : Str := fragRemoteA ++ responseOpen ++ "<D:href>/b</D:href>".toList

/-- The text `t` has no white space at either end. -/
def Trimmed (t : Str) : Prop :=
  (∀ c, t.head? = some c → isSpace c = false) ∧ (∀ c, t.getLast? = some c → isSpace c = false)

/-- The first occurrence of `pat` in `s` comes right after `before` and is followed by
`after`. -/
def FirstOccurrence (pat before after s : Str) : Prop :=
  s = before ++ pat ++ after ∧
  ∀ b2 a2 : Str, s = b2 ++ pat ++ a2 → before.length ≤ b2.length

/-- The href text of `s` is `t`: the text between the first `<D:href>` of `s` and the
first `</D:href>` that follows it. -/
def HrefText (s t : Str) : Prop :=
  ∃ a b, FirstOccurrence hrefOpen a (t ++ hrefClose ++ b) s ∧
    FirstOccurrence hrefClose t b (t ++ hrefClose ++ b)

/-- The text `s` is one whole fragment: it starts with `<D:response>`, ends with
`</D:response>` and has no other occurrence of `</D:response>` after the start
marker. -/
def IsFragment (s : Str) : Prop :=
  ∃ body, s = responseOpen ++ body ++ responseClose ∧
    FirstOccurrence responseClose body [] (body ++ responseClose)

/-- A fragment whose href text is `/a` with white space around it. -/
def fragSpacedA : Str := "<D:response><D:href> /a\n</D:href>1</D:response>".toList
/-- A fragment whose href text is `/a`. -/
def fragPlainA : Str := "<D:response><D:href>/a</D:href>2</D:response>".toList
/-- A fragment whose href text is `/a/`. -/
def fragSlashA : Str := "<D:response><D:href>/a/</D:href>3</D:response>".toList
/-- A fragment whose href text is `/A`. -/
def fragUpperA : Str := "<D:response><D:href>/A</D:href>4</D:response>".toList
/-- A fragment whose href text is `/%61`, the percent-encoding of `/a`. -/
def fragEncodedA : Str := "<D:response><D:href>/%61</D:href>5</D:response>".toList

/-- The bytes that a sequence of calls writes: the slices of its calls `Write`, one
after the other. -/
def writtenBytes : List HandlerCall → Bytes
  | [] => []
  | HandlerCall.Write b :: calls => b ++ writtenBytes calls
  | _ :: calls => writtenBytes calls

/-- The status code of the last call `WriteHeader` of a sequence of calls, or `init`
when there is none. -/
def lastStatus (init : Int) : List HandlerCall → Int
  | [] => init
  | HandlerCall.WriteHeader statusCode :: calls => lastStatus statusCode calls
  | _ :: calls => lastStatus init calls

/-- The header map after the header mutations of a sequence of calls. -/
def headerAfter (h : HeaderMap) : List HandlerCall → HeaderMap
  | [] => h
  | HandlerCall.Header m :: calls => headerAfter (m.apply h) calls
  | _ :: calls => headerAfter h calls

/-- The calls that reach the real writer when the mode of the sink follows the latest
status: a call `WriteHeader` is forwarded unless its code is 404, and any other
call is forwarded unless the code of the latest `WriteHeader` before it (`status`
at the start) is 404. -/
def forwardedByLatestStatus : Int → List HandlerCall → List WriterCall
  | _, [] => []
  | _, HandlerCall.WriteHeader statusCode :: calls =>
    if statusCode = StatusNotFound then forwardedByLatestStatus statusCode calls
    else WriterCall.WriteHeader statusCode :: forwardedByLatestStatus statusCode calls
  | status, HandlerCall.Header m :: calls =>
    if status = StatusNotFound then forwardedByLatestStatus status calls
    else WriterCall.Header m :: forwardedByLatestStatus status calls
  | status, HandlerCall.Write b :: calls =>
    if status = StatusNotFound then forwardedByLatestStatus status calls
    else WriterCall.Write b :: forwardedByLatestStatus status calls

/-- The slices of the calls `Write` of a sequence of calls, in order. -/
def writeSlices : List HandlerCall → List Bytes
  | [] => []
  | HandlerCall.Write b :: calls => b :: writeSlices calls
  | _ :: calls => writeSlices calls

/-- The answers of a real writer whose `Write` always succeeds: `len(b)` and no
error. -/
def okWrites : List WriterCall → Bytes → Int × Option Error := fun _ b => (b.length, none)

/-- The request passes the authentication of `ServeHTTP`: no user name is configured,
or the request carries the configured user name and password. -/
def Handler.Admits (h : Handler) (r : Request) : Prop :=
  h.Username = [] ∨ (r.credentials.1 = h.Username ∧ r.credentials.2 = h.Password)

/-- The request `r1` that `ServeHTTP` hands to the local engine when there is a
next hop: `r` with the delegated credentials, its body readable again. -/
def localRequest (next : URL) (r : Request) : Request :=
  if 0 < next.Username.length then r.SetBasicAuth next.Username next.Password else r

/-- The request `r2` that `ServeHTTP` hands to the reverse proxy: as `r1`, with the
header `Host` set to the host of the next hop. -/
def remoteRequest (next : URL) (r : Request) : Request :=
  { localRequest next r with
    Header := (HeaderMut.Set "Host".toList next.Host).apply (localRequest next r).Header }

/-- The captured response of the local engine for a PROPFIND request. -/
def Handler.localCapture (h : Handler) (next : URL) (r : Request) : CacheWriter :=
  (h.Dav (localRequest next r)).run CacheWriter.writer NewCacheWriter

/-- The captured response of the reverse proxy for a PROPFIND request. -/
def Handler.remoteCapture (h : Handler) (next : URL) (r : Request) : CacheWriter :=
  (h.proxy (remoteRequest next r)).run CacheWriter.writer NewCacheWriter

/-- The fragments of a body, as the callback of `Append` receives them when the body
is appended: the matches of the `response` pattern in the bytes of the body. -/
def Raw.fragments (d : Bytes) : List Bytes := Raw.NewPropfind.response.FindAllString d

/-- The key of a fragment given by its bytes, as the callback of `Append` computes
it. -/
def Raw.hrefKey (s : Bytes) : Bytes := Raw.NewPropfind.hrefOf s

/-- The first fragment of the body `d` whose key is `k`. -/
def Raw.firstWithKey (d k : Bytes) : Option Bytes :=
  (Raw.fragments d).find? (fun f => Raw.hrefKey f == k)

/-- The two patterns are the ones that `NewPropfind` compiles. -/
def Raw.Propfind.Compiled (p : Raw.Propfind) : Prop :=
  p.response = Raw.NewPropfind.response ∧ p.href = Raw.NewPropfind.href

/-- A fragment, given by its bytes, whose href is `/` and the byte E9: it is not
UTF-8. -/
def fragE9 : Bytes :=
  toBytes "<D:response><D:href>/".toList ++ [0xE9] ++ toBytes "</D:href></D:response>".toList

/-- A fragment, given by its bytes, whose href is `/` and the byte E8: it is not
UTF-8. -/
def fragE8 : Bytes :=
  toBytes "<D:response><D:href>/".toList ++ [0xE8] ++ toBytes "</D:href></D:response>".toList

/-- Every character of the text is below 128. -/
def IsAscii (s : Str) : Prop := ∀ c ∈ s, c.toNat ≤ 127

/-- The two literals of the pattern are ASCII and not empty. -/
def Regexp.IsAsciiPattern (re : Regexp) : Prop :=
  IsAscii re.left ∧ re.left ≠ [] ∧ IsAscii re.right ∧ re.right ≠ []

/-- A pattern on the texts, its literals given by their bytes. -/
def Regexp.toRaw (re : Regexp) : Raw.Regexp := ⟨toBytes re.left, toBytes re.right⟩

/-- The state of the merger on the texts, its strings given by their bytes. -/
def Propfind.toRaw (p : Propfind) : Raw.Propfind where
  items := p.items.map (fun e => (toBytes e.1, toBytes e.2))
  response := p.response.toRaw
  href := p.href.toRaw

/-- The document that `ServeHTTP` merges from the two captures: a fresh `Propfind`
to which the local body is appended when the local status is 207, and then the
remote body when the remote status is 207. -/
def merged (loc rem : CacheWriter) : Raw.Propfind :=
  let p := if loc.StatusCode = StatusMultiStatus then Raw.NewPropfind.Append loc.B
    else Raw.NewPropfind
  if rem.StatusCode = StatusMultiStatus then p.Append rem.B else p

/-- The body that a real writer has received: the slices of the `Write` calls, one
after the other. -/
def receivedBody : List WriterCall → Bytes
  | [] => []
  | WriterCall.Write b :: calls => b ++ receivedBody calls
  | _ :: calls => receivedBody calls

/-- The status that a real writer sends for the calls it has received, as `net/http`
does: the code of the first `WriteHeader`, or 200 when a `Write` comes first. -/
def sentStatus : List WriterCall → Option Int
  | [] => none
  | WriterCall.WriteHeader statusCode :: _ => some statusCode
  | WriterCall.Write _ :: _ => some 200
  | WriterCall.Header _ :: calls => sentStatus calls

/-- A handler without credentials of its own, whose local engine and reverse proxy
make the given calls. -/
def sampleHandler (next : Option URL) (localCalls remoteCalls : List HandlerCall) : Handler where
  Dav := fun _ => Script.ofCalls localCalls
  Username := []
  Password := []
  Next := next
  proxy := fun _ => Script.ofCalls remoteCalls

/-- A next hop without user information. -/
def sampleNext : URL := ⟨"next.example".toList, [], []⟩

/-- A request without credentials and without body. -/
def sampleRequest (method : Str) : Request :=
  ⟨method, "/a".toList, "/a".toList, "gateway.example".toList, [], none, []⟩

/-- A run-time that visits the items in insertion order for the first `WriteTo` and
latest first for the second. -/
def sampleRuntime : Runtime := ⟨MapRange.inOrder _, MapRange.inOrder _, MapRange.latestFirst _⟩

/-- The calls that the local engine makes on the fallthrough sink around the client's
writer, for a request of another method than PROPFIND. -/
def Handler.localCalls (h : Handler) (next : URL)
    (res : List WriterCall → Bytes → Int × Option Error) (w : List WriterCall) (stdout : Bytes)
    (r : Request) : List HandlerCall :=
  (h.Dav (localRequest next r)).calls (InterceptWriter.writer (Recorder res))
    (InterceptWriter.new w stdout)

/-- The calls that the reverse proxy makes on the client's writer, which has received
`base` so far. -/
def Handler.remoteCalls (h : Handler) (next : URL)
    (res : List WriterCall → Bytes → Int × Option Error) (base : List WriterCall)
    (r : Request) : List HandlerCall :=
  (h.proxy (remoteRequest next r)).calls (Recorder res) base

/-- The call is a header mutation. -/
def HandlerCall.IsHeader : HandlerCall → Prop
  | HandlerCall.Header _ => True
  | _ => False

/-- The state after `Append` of the documents `docs`, one after the other, on a fresh
`Propfind`. -/
def appendAll (docs : List Str) : Propfind := docs.foldl Propfind.Append NewPropfind

/-- The fragments `fs` are taken from the text `d` left to right without overlap:
each one is a whole fragment that starts at the earliest `<D:response>` of the
text that follows the fragment before it, and after the last one no
`<D:response>` is followed by a `</D:response>`. -/
def TakenLeftToRight : List Str → Str → Prop
  | [], d => ¬ ∃ a b c, d = a ++ responseOpen ++ b ++ responseClose ++ c
  | f :: fs, d =>
    ∃ gap rest, d = gap ++ f ++ rest ∧ IsFragment f ∧
      FirstOccurrence responseOpen gap (f.drop responseOpen.length ++ rest) d ∧
      TakenLeftToRight fs rest

/-- A writer whose `Write` always fails and writes nothing. -/
def failingWriter : Writer Unit where
  Write _ w := (w, 0, some (Error.other "write failed"))

/-! # Lemmas and theorems -/

/-! ## Cutting at the first occurrence -/

theorem splitAtFirst_eq_some {pat : Str} : ∀ {s b a : Str},
    splitAtFirst pat s = some (b, a) → s = b ++ pat ++ a := by
  intro s
  induction s with
  | nil =>
    intro b a h
    simp only [splitAtFirst] at h
    split at h
    · next hp => cases h; simp [hp]
    · cases h
  | cons c cs ih =>
    intro b a h
    simp only [splitAtFirst] at h
    split at h
    · next hp =>
      cases h
      have hp2 : pat <+: c :: cs := List.isPrefixOf_iff_prefix.mp hp
      simpa using (List.prefix_iff_eq_append.mp hp2).symm
    · next hp =>
      cases hrec : splitAtFirst pat cs with
      | none => simp [hrec] at h
      | some r =>
        obtain ⟨b0, a0⟩ := r
        simp only [hrec] at h
        cases h
        simp [ih hrec]

theorem splitAtFirst_first {pat : Str} : ∀ {s b a : Str},
    splitAtFirst pat s = some (b, a) →
    ∀ b2 a2 : Str, s = b2 ++ pat ++ a2 → b.length ≤ b2.length := by
  intro s
  induction s with
  | nil =>
    intro b a h b2 a2 _
    simp only [splitAtFirst] at h
    split at h
    · cases h; simp
    · cases h
  | cons c cs ih =>
    intro b a h b2 a2 hs
    simp only [splitAtFirst] at h
    split at h
    · cases h; simp
    · next hp =>
      cases hrec : splitAtFirst pat cs with
      | none => simp [hrec] at h
      | some r =>
        obtain ⟨b0, a0⟩ := r
        simp only [hrec] at h
        cases h
        cases b2 with
        | nil =>
          exfalso
          apply hp
          apply List.isPrefixOf_iff_prefix.mpr
          exact ⟨a2, by simpa using hs.symm⟩
        | cons x xs =>
          simp only [List.cons_append, List.cons.injEq] at hs
          have := ih hrec xs a2 hs.2
          simp
          omega

theorem splitAtFirst_eq_none_iff {pat s : Str} :
    splitAtFirst pat s = none ↔ ¬ pat <:+: s := by
  induction s with
  | nil =>
    simp only [splitAtFirst]
    split
    · next hp => simp [hp]
    · next hp => simp [hp]
  | cons c cs ih =>
    simp only [splitAtFirst]
    split
    · next hp =>
      have hp2 : pat <+: c :: cs := List.isPrefixOf_iff_prefix.mp hp
      simp [hp2.isInfix]
    · next hp =>
      have hp2 : ¬ pat <+: c :: cs := fun h => hp (List.isPrefixOf_iff_prefix.mpr h)
      rw [List.infix_cons_iff]
      cases hrec : splitAtFirst pat cs with
      | none =>
        have := ih.mp hrec
        simp [hp2, this]
      | some r =>
        have : pat <:+: cs := by
          by_contra hc
          rw [ih.mpr hc] at hrec
          cases hrec
        simp [this]

theorem splitAtFirst_of_first {pat s b a : Str} (hs : s = b ++ pat ++ a)
    (hfirst : ∀ b2 a2 : Str, s = b2 ++ pat ++ a2 → b.length ≤ b2.length) :
    splitAtFirst pat s = some (b, a) := by
  cases h : splitAtFirst pat s with
  | none =>
    exfalso
    exact (splitAtFirst_eq_none_iff.mp h) ⟨b, a, hs.symm⟩
  | some r =>
    obtain ⟨b0, a0⟩ := r
    have h1 := splitAtFirst_eq_some h
    have h2 := splitAtFirst_first h b a hs
    have h3 := hfirst b0 a0 h1
    have hlen : b0.length = b.length := by omega
    rw [hs, List.append_assoc, List.append_assoc] at h1
    have := List.append_inj h1 hlen.symm
    obtain ⟨e1, e2⟩ := this
    have e3 := List.append_cancel_left e2
    rw [e1, e3]

theorem splitAtFirst_length {pat s b a : Str} (h : splitAtFirst pat s = some (b, a)) :
    s.length = b.length + pat.length + a.length := by
  have := splitAtFirst_eq_some h
  rw [this]; simp; omega


/-! ## Matches of `(?Us)L.*R` -/

theorem Regexp.find_eq_some {re : Regexp} {s b m a : Str}
    (h : re.find s = some (b, m, a)) :
    ∃ body, m = re.left ++ body ++ re.right ∧ s = b ++ m ++ a ∧
      splitAtFirst re.left s = some (b, body ++ re.right ++ a) ∧
      splitAtFirst re.right (body ++ re.right ++ a) = some (body, a) := by
  unfold Regexp.find at h
  cases h1 : splitAtFirst re.left s with
  | none => simp [h1] at h
  | some r1 =>
    obtain ⟨b1, rest⟩ := r1
    simp only [h1] at h
    cases h2 : splitAtFirst re.right rest with
    | none => simp [h2] at h
    | some r2 =>
      obtain ⟨body, a2⟩ := r2
      simp only [h2, Option.some.injEq, Prod.mk.injEq] at h
      obtain ⟨rfl, rfl, rfl⟩ := h
      have e1 := splitAtFirst_eq_some h1
      have e2 := splitAtFirst_eq_some h2
      refine ⟨body, rfl, ?_, ?_, ?_⟩
      · rw [e1, e2]; simp
      · rw [← e2]
      · rw [← e2]; exact h2

theorem Regexp.find_length {re : Regexp} {s b m a : Str}
    (h : re.find s = some (b, m, a)) :
    s.length = b.length + m.length + a.length ∧ re.left.length + re.right.length ≤ m.length := by
  obtain ⟨body, hm, hs, -, -⟩ := Regexp.find_eq_some h
  constructor
  · rw [hs]; simp; omega
  · rw [hm]; simp

/-- The match that `Regexp.find` returns is the leftmost match of `L.*R` in `s` and,
among the matches that start there, the shortest one: the leftmost-first match
of the ungreedy pattern. -/
theorem Regexp.find_leftmost_shortest {re : Regexp} {s b m a : Str}
    (h : re.find s = some (b, m, a)) :
    s = b ++ m ++ a ∧ (∃ body, m = re.left ++ body ++ re.right) ∧
    ∀ b2 body2 a2 : Str, s = b2 ++ (re.left ++ body2 ++ re.right) ++ a2 →
      b.length < b2.length ∨
        (b.length = b2.length ∧ m.length ≤ (re.left ++ body2 ++ re.right).length) := by
  obtain ⟨body, hm, hs, h1, h2⟩ := Regexp.find_eq_some h
  refine ⟨hs, ⟨body, hm⟩, ?_⟩
  intro b2 body2 a2 hs2
  have hle := splitAtFirst_first h1 b2 (body2 ++ re.right ++ a2) (by rw [hs2]; simp)
  rcases Nat.lt_or_ge b.length b2.length with hlt | hge
  · exact Or.inl hlt
  · right
    have hlen : b.length = b2.length := by omega
    refine ⟨hlen, ?_⟩
    have e1 := splitAtFirst_eq_some h1
    have e2 : b ++ (re.left ++ (body ++ re.right ++ a)) =
        b2 ++ (re.left ++ (body2 ++ re.right ++ a2)) := by
      rw [← List.append_assoc b, ← e1, hs2]; simp
    have e3 := (List.append_inj e2 hlen).2
    have e4 := List.append_cancel_left e3
    have := splitAtFirst_first h2 body2 a2 e4
    rw [hm]
    simp
    omega

theorem Regexp.find_eq_none_iff {re : Regexp} {s : Str} :
    re.find s = none ↔ ¬ ∃ b body a, s = b ++ re.left ++ body ++ re.right ++ a := by
  constructor
  · intro h ⟨b, body, a, hs⟩
    unfold Regexp.find at h
    cases h1 : splitAtFirst re.left s with
    | none =>
      apply splitAtFirst_eq_none_iff.mp h1
      exact ⟨b, body ++ re.right ++ a, by simp [hs]⟩
    | some r1 =>
      obtain ⟨b1, rest⟩ := r1
      simp only [h1] at h
      cases h2 : splitAtFirst re.right rest with
      | some r2 => simp [h2] at h
      | none =>
        have hno := splitAtFirst_eq_none_iff.mp h2
        have e1 := splitAtFirst_eq_some h1
        have hle := splitAtFirst_first h1 b (body ++ re.right ++ a) (by simp [hs])
        -- the occurrence of `right` lies after the first occurrence of `left`
        apply hno
        have hs2 : b1 ++ (re.left ++ rest) = b ++ (re.left ++ (body ++ (re.right ++ a))) := by
          rw [← List.append_assoc b1, ← e1, hs]; simp
        obtain ⟨t, ht⟩ : ∃ t, b = b1 ++ t := by
          have : b1 <+: b := List.prefix_of_prefix_length_le ⟨_, hs2⟩ ⟨_, rfl⟩ hle
          obtain ⟨t, ht⟩ := this
          exact ⟨t, ht.symm⟩
        rw [ht, List.append_assoc] at hs2
        have hs3 := List.append_cancel_left hs2
        -- re.left ++ rest = t ++ re.left ++ body ++ re.right ++ a
        have hlen : re.left.length ≤ (t ++ re.left ++ body).length := by simp; omega
        have hs4 : re.left ++ rest = (t ++ re.left ++ body) ++ (re.right ++ a) := by
          rw [hs3]; simp
        have hpre : re.left <+: t ++ re.left ++ body :=
          List.prefix_of_prefix_length_le ⟨_, rfl⟩ ⟨_, hs4.symm⟩ hlen
        obtain ⟨u, hu⟩ := hpre
        rw [← hu, List.append_assoc] at hs4
        have hs5 := List.append_cancel_left hs4
        exact ⟨u, a, by rw [hs5]; simp⟩
  · intro h
    cases hf : re.find s with
    | none => rfl
    | some r =>
      obtain ⟨b, m, a⟩ := r
      obtain ⟨body, hm, hs, -, -⟩ := Regexp.find_eq_some hf
      exact absurd ⟨b, body, a, by rw [hs, hm]; simp⟩ h

theorem Regexp.allMatches_fuel {re : Regexp} (hre : 0 < re.left.length + re.right.length) :
    ∀ (n : Nat) (s : Str), s.length ≤ n → re.allMatches n s = re.allMatches s.length s := by
  intro n
  induction n using Nat.strong_induction_on with
  | _ n ih =>
    intro s hn
    cases n with
    | zero =>
      have : s.length = 0 := by omega
      rw [this]
    | succ k =>
      cases hs : s.length with
      | zero =>
        have hs0 : s = [] := List.length_eq_zero.mp hs
        subst hs0
        simp only [Regexp.allMatches]
        cases hf : re.find [] with
        | none => rfl
        | some r =>
          obtain ⟨b, m, a⟩ := r
          have := Regexp.find_length hf
          simp at this
          omega
      | succ j =>
        simp only [Regexp.allMatches]
        cases hf : re.find s with
        | none => rfl
        | some r =>
          obtain ⟨b, m, a⟩ := r
          have hl := Regexp.find_length hf
          simp only
          rw [ih k (Nat.lt_succ_self k) a (by omega), ih j (by omega) a (by omega)]

theorem Regexp.FindAllString_eq {re : Regexp} (hre : 0 < re.left.length + re.right.length)
    (s : Str) :
    re.FindAllString s =
      match re.find s with
      | none => []
      | some (_, m, after) => m :: re.FindAllString after := by
  unfold Regexp.FindAllString
  cases hs : s.length with
  | zero =>
    have hs0 : s = [] := List.length_eq_zero.mp hs
    subst hs0
    cases hf : re.find [] with
    | none => rfl
    | some r =>
      obtain ⟨b, m, a⟩ := r
      have := Regexp.find_length hf
      simp at this
      omega
  | succ j =>
    simp only [Regexp.allMatches]
    cases hf : re.find s with
    | none => rfl
    | some r =>
      obtain ⟨b, m, a⟩ := r
      have hl := Regexp.find_length hf
      simp only
      rw [Regexp.allMatches_fuel hre j a (by omega)]


theorem Regexp.replaceAll_fst (re : Regexp) (f : σ → Str → σ) :
    ∀ (n : Nat) (s : Str) (st : σ),
      (re.replaceAll (fun q m => (f q m, [])) n s st).1 = (re.allMatches n s).foldl f st := by
  intro n
  induction n with
  | zero => intro s st; rfl
  | succ n ih =>
    intro s st
    simp only [Regexp.replaceAll, Regexp.allMatches]
    cases hf : re.find s with
    | none => rfl
    | some r =>
      obtain ⟨b, m, a⟩ := r
      simp only [List.foldl_cons]
      exact ih a (f st m)

/-! ## The store of the merger -/

/-- The method `Append` hands the matches of `p.response` in `data` to the callback,
one after the other. -/
theorem Propfind.Append_eq (p : Propfind) (data : Str) :
    p.Append data = (p.response.FindAllString data).foldl Propfind.store p :=
  Regexp.replaceAll_fst p.response Propfind.store data.length data p

@[simp] theorem Propfind.store_href (p : Propfind) (s : Str) : (p.store s).href = p.href := by
  unfold Propfind.store; simp only; split <;> rfl

@[simp] theorem Propfind.store_response (p : Propfind) (s : Str) :
    (p.store s).response = p.response := by
  unfold Propfind.store; simp only; split <;> rfl

theorem Propfind.hrefOf_congr {p q : Propfind} (h : p.href = q.href) (s : Str) :
    p.hrefOf s = q.hrefOf s := by
  unfold Propfind.hrefOf; rw [h]

theorem Propfind.store_items (p : Propfind) (s : Str) :
    (p.store s).items =
      if (p.items.lookup (p.hrefOf s)).isSome then p.items
      else p.items ++ [(p.hrefOf s, s)] := by
  unfold Propfind.store; simp only; split <;> rfl

/-- The fragments `fs` handed one after the other to the callback of `Append`. -/
theorem Propfind.foldl_store_href (fs : List Str) (p : Propfind) :
    (fs.foldl Propfind.store p).href = p.href := by
  induction fs generalizing p with
  | nil => rfl
  | cons f fs ih => simp [ih]

theorem Propfind.foldl_store_response (fs : List Str) (p : Propfind) :
    (fs.foldl Propfind.store p).response = p.response := by
  induction fs generalizing p with
  | nil => rfl
  | cons f fs ih => simp [ih]

theorem Propfind.store_prefix (p : Propfind) (s : Str) : p.items <+: (p.store s).items := by
  rw [Propfind.store_items]
  split
  · exact List.prefix_refl _
  · exact List.prefix_append _ _

theorem Propfind.foldl_store_prefix (fs : List Str) (p : Propfind) :
    p.items <+: (fs.foldl Propfind.store p).items := by
  induction fs generalizing p with
  | nil => exact List.prefix_refl _
  | cons f fs ih => exact (Propfind.store_prefix p f).trans (ih (p.store f))

theorem Propfind.lookup_store (p : Propfind) (s k : Str) :
    (p.store s).items.lookup k =
      (p.items.lookup k).or (if p.hrefOf s = k then some s else none) := by
  rw [Propfind.store_items]
  by_cases hk : p.hrefOf s = k
  · subst hk
    cases hl : p.items.lookup (p.hrefOf s) with
    | some v => simp [hl]
    | none => simp [hl, List.lookup_append, List.lookup_cons]
  · have hk2 : (k == p.hrefOf s) = false := by
      simp only [beq_eq_false_iff_ne, ne_eq]
      exact fun h => hk h.symm
    split
    · simp [hk, Option.or_none]
    · simp [hk, List.lookup_append, List.lookup_cons, hk2]

theorem Propfind.lookup_foldl_store (fs : List Str) (p : Propfind) (k : Str) :
    (fs.foldl Propfind.store p).items.lookup k =
      (p.items.lookup k).or (fs.find? (fun f => p.hrefOf f == k)) := by
  induction fs generalizing p with
  | nil => simp [Option.or_none]
  | cons f fs ih =>
    rw [List.foldl_cons, ih (p.store f), Propfind.lookup_store, Option.or_assoc]
    have hh : ∀ t, (p.store f).hrefOf t = p.hrefOf t :=
      fun t => Propfind.hrefOf_congr (Propfind.store_href p f) t
    simp only [hh]
    congr 1
    by_cases hk : p.hrefOf f = k
    · simp [hk]
    · simp [hk]

theorem Propfind.mem_keys_foldl_store (fs : List Str) (p : Propfind) (k : Str) :
    k ∈ (fs.foldl Propfind.store p).items.map Prod.fst ↔
      k ∈ p.items.map Prod.fst ∨ ∃ f ∈ fs, p.hrefOf f = k := by
  have h := Propfind.lookup_foldl_store fs p k
  have key : ∀ (l : List (Str × Str)), k ∈ l.map Prod.fst ↔ (l.lookup k).isSome = true := by
    intro l
    rw [List.lookup_isSome_iff]
    simp only [List.mem_map, beq_iff_eq]
    constructor
    · rintro ⟨e, he, rfl⟩; exact ⟨e, he, rfl⟩
    · rintro ⟨e, he, h2⟩; exact ⟨e, he, h2.symm⟩
  rw [key, key, h, Option.isSome_or, Bool.or_eq_true, List.find?_isSome]
  simp

theorem Propfind.store_wellKeyed {p : Propfind} (h : p.WellKeyed) (s : Str) :
    (p.store s).WellKeyed := by
  intro e he
  rw [Propfind.hrefOf_congr (Propfind.store_href p s)]
  rw [Propfind.store_items] at he
  split at he
  · exact h e he
  · rcases List.mem_append.mp he with he | he
    · exact h e he
    · simp only [List.mem_singleton] at he
      subst he
      rfl

theorem Propfind.foldl_store_wellKeyed (fs : List Str) {p : Propfind} (h : p.WellKeyed) :
    (fs.foldl Propfind.store p).WellKeyed := by
  induction fs generalizing p with
  | nil => exact h
  | cons f fs ih => exact ih (Propfind.store_wellKeyed h f)

theorem Propfind.store_nodup {p : Propfind} (h : (p.items.map Prod.fst).Nodup) (s : Str) :
    ((p.store s).items.map Prod.fst).Nodup := by
  rw [Propfind.store_items]
  split
  · exact h
  · next hl =>
    rw [List.map_append, List.nodup_append]
    refine ⟨h, by simp, ?_⟩
    intro k hmem hk
    simp only [List.map_cons, List.map_nil, List.mem_singleton] at hk
    subst hk
    apply hl
    rw [List.lookup_isSome_iff]
    obtain ⟨e, he, hk⟩ := List.mem_map.mp hmem
    exact ⟨e, he, by simp [hk]⟩

theorem Propfind.foldl_store_nodup (fs : List Str) {p : Propfind}
    (h : (p.items.map Prod.fst).Nodup) :
    ((fs.foldl Propfind.store p).items.map Prod.fst).Nodup := by
  induction fs generalizing p with
  | nil => exact h
  | cons f fs ih => exact ih (Propfind.store_nodup h f)

theorem lookup_of_mem_nodup : ∀ {l : List (Str × Str)} {k v : Str},
    (l.map Prod.fst).Nodup → (k, v) ∈ l → l.lookup k = some v := by
  intro l
  induction l with
  | nil => intro k v _ h; cases h
  | cons e l ih =>
    intro k v hnd hmem
    obtain ⟨k0, v0⟩ := e
    simp only [List.map_cons, List.nodup_cons] at hnd
    rcases List.mem_cons.mp hmem with h | h
    · cases h; simp
    · have hne : k ≠ k0 := by
        rintro rfl
        exact hnd.1 (List.mem_map.mpr ⟨(k, v), h, rfl⟩)
      rw [List.lookup_cons]
      have : (k == k0) = false := by simpa using hne
      simp [this, ih hnd.2 h]

theorem Propfind.store_eq_self {p : Propfind} {s : Str}
    (h : (p.items.lookup (p.hrefOf s)).isSome) : p.store s = p := by
  unfold Propfind.store; simp only [h, if_true]

theorem Propfind.foldl_store_eq_self (fs : List Str) (p : Propfind)
    (h : ∀ f ∈ fs, (p.items.lookup (p.hrefOf f)).isSome) : fs.foldl Propfind.store p = p := by
  induction fs with
  | nil => rfl
  | cons f fs ih =>
    rw [List.foldl_cons, Propfind.store_eq_self (h f (List.mem_cons_self _ _))]
    exact ih (fun g hg => h g (List.mem_cons_of_mem _ hg))

theorem Propfind.Append_href (p : Propfind) (d : Str) : (p.Append d).href = p.href := by
  rw [Propfind.Append_eq]; exact Propfind.foldl_store_href _ p

theorem Propfind.Append_response (p : Propfind) (d : Str) :
    (p.Append d).response = p.response := by
  rw [Propfind.Append_eq]; exact Propfind.foldl_store_response _ p

theorem NewPropfind_wellKeyed : NewPropfind.WellKeyed := by
  intro e he; cases he

theorem Propfind.Append_wellKeyed {p : Propfind} (h : p.WellKeyed) (d : Str) :
    (p.Append d).WellKeyed := by
  rw [Propfind.Append_eq]; exact Propfind.foldl_store_wellKeyed _ h

theorem Propfind.Append_nodup {p : Propfind} (h : (p.items.map Prod.fst).Nodup) (d : Str) :
    ((p.Append d).items.map Prod.fst).Nodup := by
  rw [Propfind.Append_eq]; exact Propfind.foldl_store_nodup _ h

theorem Propfind.Append_idem (p : Propfind) (d : Str) : (p.Append d).Append d = p.Append d := by
  rw [Propfind.Append_eq (p.Append d), Propfind.Append_response]
  apply Propfind.foldl_store_eq_self
  intro f hf
  rw [Propfind.hrefOf_congr (Propfind.Append_href p d), Propfind.Append_eq p d,
    Propfind.lookup_foldl_store, Option.isSome_or, Bool.or_eq_true]
  right
  rw [List.find?_isSome]
  exact ⟨f, hf, by simp⟩


/-! ## Serialization -/

theorem toBytes_nil : toBytes [] = [] := rfl

theorem toBytes_append (s t : Str) : toBytes (s ++ t) = toBytes s ++ toBytes t := by
  simp [toBytes]

theorem toBytes_length (s : Str) : (toBytes s).length = (s.map Char.utf8Size).sum := by
  induction s with
  | nil => rfl
  | cons c cs ih =>
    have h : toBytes (c :: cs) = String.utf8EncodeChar c ++ toBytes cs := by simp [toBytes]
    rw [h, List.length_append, ih]
    simp

theorem foldl_Fprintf_Buffer (fs : List Str) (buf : Bytes) :
    fs.foldl (fun w s => Fprintf Buffer w s) buf = buf ++ toBytes fs.flatten := by
  induction fs generalizing buf with
  | nil => simp [toBytes_nil]
  | cons f fs ih =>
    rw [List.foldl_cons, ih]
    simp [Fprintf, Buffer, toBytes_append]

theorem foldl_Fprintf_Recording (res : List Bytes → Bytes → Int × Option Error)
    (fs : List Str) (log : List Bytes) :
    fs.foldl (fun w s => Fprintf (Recording res) w s) log = log ++ fs.map toBytes := by
  induction fs generalizing log with
  | nil => simp
  | cons f fs ih => rw [List.foldl_cons, ih]; simp [Fprintf, Recording]

theorem Propfind.WriteTo_eq (p : Propfind) (r : MapRange (Str × Str)) (W : Writer ω) (w : ω) :
    p.WriteTo r W w =
      ((([xmlHeader] ++ (r.visit p.items).map Prod.snd ++ [xmlFooter]).foldl
        (fun w s => Fprintf W w s) w), 0, none) := by
  unfold Propfind.WriteTo
  simp [List.foldl_map]

theorem Propfind.WriteTo_Buffer (p : Propfind) (r : MapRange (Str × Str)) (buf : Bytes) :
    p.WriteTo r Buffer buf =
      (buf ++ toBytes (xmlHeader ++ ((r.visit p.items).map Prod.snd).flatten ++ xmlFooter),
        0, none) := by
  rw [Propfind.WriteTo_eq, foldl_Fprintf_Buffer]
  simp

theorem Propfind.WriteTo_Recording (p : Propfind) (r : MapRange (Str × Str))
    (res : List Bytes → Bytes → Int × Option Error) (log : List Bytes) :
    p.WriteTo r (Recording res) log =
      (log ++ ([xmlHeader] ++ (r.visit p.items).map Prod.snd ++ [xmlFooter]).map toBytes,
        0, none) := by
  rw [Propfind.WriteTo_eq, foldl_Fprintf_Recording]

theorem Propfind.serialize_eq (p : Propfind) (r : MapRange (Str × Str)) :
    p.serialize r =
      toBytes (xmlHeader ++ ((r.visit p.items).map Prod.snd).flatten ++ xmlFooter) := by
  unfold Propfind.serialize
  rw [Propfind.WriteTo_Buffer]
  simp

/-! ## The merger: first-seen-wins, idempotence, union of hrefs -/

theorem NewPropfind_nodup : (NewPropfind.items.map Prod.fst).Nodup := by
  simp [NewPropfind]

theorem lookup_Append_new (d1 d2 k : Str) :
    ((NewPropfind.Append d1).Append d2).items.lookup k =
      (firstWithKey d1 k).or (firstWithKey d2 k) := by
  have hh : ∀ t, (NewPropfind.Append d1).hrefOf t = NewPropfind.hrefOf t :=
    fun t => Propfind.hrefOf_congr (Propfind.Append_href _ _) t
  have e2 : ((NewPropfind.Append d1).Append d2).items.lookup k =
      ((NewPropfind.Append d1).items.lookup k).or (firstWithKey d2 k) := by
    rw [Propfind.Append_eq (NewPropfind.Append d1), Propfind.lookup_foldl_store,
      Propfind.Append_response]
    simp only [hh]
    rfl
  have e1 : (NewPropfind.Append d1).items.lookup k = firstWithKey d1 k := by
    rw [Propfind.Append_eq, Propfind.lookup_foldl_store]
    simp [NewPropfind, firstWithKey, fragments, hrefKey]
  rw [e2, e1]

/-- Claim C1 (first-seen-wins). When `f1` is the first fragment of `d1` filed under the
key `k` and `d2` holds a different fragment `f2` with the same key, then after
`Append(d1)` and `Append(d2)` on a fresh `Propfind` the entry stored for `k` is
`f1`, no stored entry is `f2`, and whatever order the run-time picks `WriteTo`
writes `f1` and does not write `f2`. More generally, for every state `q` and
every document `d`, `Append` keeps all the entries of `q` as they are: they are
the first entries of the new store, and a key that was present still maps to the
same fragment. -/
theorem first_seen_wins (d1 d2 k f1 f2 : Str)
    (h1 : firstWithKey d1 k = some f1) (h2 : f2 ∈ fragments d2) (hk : hrefKey f2 = k)
    (hne : f2 ≠ f1) :
    (((NewPropfind.Append d1).Append d2).items.lookup k = some f1 ∧
      (∀ e ∈ ((NewPropfind.Append d1).Append d2).items, e.2 ≠ f2) ∧
      (∀ r : MapRange (Str × Str), ∃ written : List Str,
        ((NewPropfind.Append d1).Append d2).serialize r =
          toBytes (xmlHeader ++ written.flatten ++ xmlFooter) ∧
        f1 ∈ written ∧ f2 ∉ written)) ∧
    (∀ (q : Propfind) (d : Str), q.items <+: (q.Append d).items ∧
      ∀ key v, q.items.lookup key = some v → (q.Append d).items.lookup key = some v) := by
  have hlook : ((NewPropfind.Append d1).Append d2).items.lookup k = some f1 := by
    rw [lookup_Append_new, h1]; rfl
  have hwk : ((NewPropfind.Append d1).Append d2).WellKeyed :=
    Propfind.Append_wellKeyed (Propfind.Append_wellKeyed NewPropfind_wellKeyed d1) d2
  have hnd : (((NewPropfind.Append d1).Append d2).items.map Prod.fst).Nodup :=
    Propfind.Append_nodup (Propfind.Append_nodup NewPropfind_nodup d1) d2
  have hhref : ∀ t, ((NewPropfind.Append d1).Append d2).hrefOf t = hrefKey t := fun t =>
    Propfind.hrefOf_congr ((Propfind.Append_href _ _).trans (Propfind.Append_href _ _)) t
  have hnot : ∀ e ∈ ((NewPropfind.Append d1).Append d2).items, e.2 ≠ f2 := by
    intro e he hev
    obtain ⟨k0, v0⟩ := e
    simp only at hev
    subst hev
    have hk0 : k0 = k := by
      have := hwk _ he
      simp only [hhref] at this
      rw [← this, hk]
    subst hk0
    have := lookup_of_mem_nodup hnd he
    rw [hlook] at this
    exact hne (Option.some.inj this).symm
  have hmem : (k, f1) ∈ ((NewPropfind.Append d1).Append d2).items := by
    obtain ⟨l1, l2, hl, -⟩ := List.lookup_eq_some_iff.mp hlook
    rw [hl]; simp
  refine ⟨⟨hlook, hnot, ?_⟩, ?_⟩
  · intro r
    refine ⟨(r.visit ((NewPropfind.Append d1).Append d2).items).map Prod.snd,
      Propfind.serialize_eq _ r, ?_, ?_⟩
    · exact List.mem_map.mpr ⟨(k, f1), ((r.perm _).mem_iff).mpr hmem, rfl⟩
    · intro hf
      obtain ⟨e, he, hev⟩ := List.mem_map.mp hf
      exact hnot e (((r.perm _).mem_iff).mp he) hev
  · intro q d
    have hp : q.items <+: (q.Append d).items := by
      rw [Propfind.Append_eq]; exact Propfind.foldl_store_prefix _ q
    exact ⟨hp, fun key v hv => hp.lookup_eq_some hv⟩

set_option maxRecDepth 100000 in
/-- Witness of `first_seen_wins`: the local document with `/a` first, then the remote
document with another fragment for `/a`. -/
theorem first_seen_wins_witness :
    ((NewPropfind.Append docLocal).Append docRemote).items.lookup "/a".toList
      = some fragLocalA ∧
    ∀ e ∈ ((NewPropfind.Append docLocal).Append docRemote).items, e.2 ≠ fragRemoteA :=
  have h := first_seen_wins docLocal docRemote "/a".toList fragLocalA fragRemoteA
    (by decide) (by decide) (by decide) (by decide)
  ⟨h.1.1, h.1.2.1⟩

/-- Claim C2 (dedup idempotence). For every state `p` and every document `d`, a second
`Append(d)` leaves the state that the first `Append(d)` produced, hence the same
stored entries, and `WriteTo` then does the same writes and leaves the same
serialized output, for every visiting order of the run-time and every
writer. -/
theorem dedup_idempotent (p : Propfind) (d : Str) :
    (p.Append d).Append d = p.Append d ∧
    ((p.Append d).Append d).items = (p.Append d).items ∧
    (∀ r : MapRange (Str × Str), ((p.Append d).Append d).serialize r = (p.Append d).serialize r) ∧
    (∀ (ω : Type) (r : MapRange (Str × Str)) (W : Writer ω) (w : ω),
      ((p.Append d).Append d).WriteTo r W w = (p.Append d).WriteTo r W w) := by
  have h := Propfind.Append_idem p d
  refine ⟨h, ?_, ?_, ?_⟩
  · rw [h]
  · intro r; rw [h]
  · intro ω r W w; rw [h]

theorem mem_keys_Append (p : Propfind) (d k : Str) :
    k ∈ (p.Append d).keys ↔ k ∈ p.keys ∨ ∃ f ∈ p.response.FindAllString d, p.hrefOf f = k := by
  rw [Propfind.Append_eq]; exact Propfind.mem_keys_foldl_store _ p k

theorem mem_keys_Append_new (d1 d2 k : Str) :
    k ∈ ((NewPropfind.Append d1).Append d2).keys ↔
      k ∈ (fragments d1).map hrefKey ∨ k ∈ (fragments d2).map hrefKey := by
  rw [mem_keys_Append, mem_keys_Append, Propfind.Append_response]
  have hh : ∀ t, (NewPropfind.Append d1).hrefOf t = NewPropfind.hrefOf t :=
    fun t => Propfind.hrefOf_congr (Propfind.Append_href _ _) t
  simp only [hh, List.mem_map]
  simp [Propfind.keys, NewPropfind, fragments, hrefKey]

/-- Claim C3 (union of hrefs). For every two documents, the set of keys stored after
`Append(d1); Append(d2)` on a fresh `Propfind` is the union of the keys of the
fragments of `d1` and of `d2`, and it is the set stored after
`Append(d2); Append(d1)`. The fragment stored for a key is the first one of the
document appended first that has one, so only that choice depends on the
order. -/
theorem union_of_hrefs (d1 d2 : Str) :
    ((NewPropfind.Append d1).Append d2).keys.toFinset =
      ((fragments d1).map hrefKey).toFinset ∪ ((fragments d2).map hrefKey).toFinset ∧
    ((NewPropfind.Append d1).Append d2).keys.toFinset =
      ((NewPropfind.Append d2).Append d1).keys.toFinset ∧
    (∀ k, ((NewPropfind.Append d1).Append d2).items.lookup k =
        (firstWithKey d1 k).or (firstWithKey d2 k)) ∧
    (∀ k, ((NewPropfind.Append d2).Append d1).items.lookup k =
        (firstWithKey d2 k).or (firstWithKey d1 k)) := by
  refine ⟨?_, ?_, fun k => lookup_Append_new d1 d2 k, fun k => lookup_Append_new d2 d1 k⟩
  · ext k
    simp only [List.mem_toFinset, Finset.mem_union]
    exact mem_keys_Append_new d1 d2 k
  · ext k
    simp only [List.mem_toFinset]
    rw [mem_keys_Append_new, mem_keys_Append_new]
    exact Or.comm


set_option maxRecDepth 100000 in
/-- Counterexample to claim C4 as stated: after `Append(docRemote)` on a fresh `Propfind`
the key `/a` was inserted before `/b`, and with a run-time that visits the map
latest first `WriteTo` writes the fragment of `/b` before the fragment of `/a`,
which is not the serialization in insertion order. -/
theorem serialization_in_insertion_order_fails :
    (NewPropfind.Append docRemote).keys = ["/a".toList, "/b".toList] ∧
    (NewPropfind.Append docRemote).serialize (MapRange.latestFirst _) =
      toBytes (xmlHeader ++ fragRemoteB ++ fragRemoteA ++ xmlFooter) ∧
    (NewPropfind.Append docRemote).serialize (MapRange.latestFirst _) ≠
      toBytes (xmlHeader ++ ((NewPropfind.Append docRemote).items.map Prod.snd).flatten ++
        xmlFooter) := by
  decide

/-- Claim C4, amended (serialization in some order). For every state and every order in
which the run-time visits the map, `WriteTo` does these writes and no other:
the XML declaration with the opening tag, then the stored fragments verbatim,
every stored entry exactly once (the fragments written are a permutation of the
stored ones), then the closing tag; it appends just that to a `bytes.Buffer`.
A fresh `Propfind` serializes to the declaration, the opening tag and the
closing tag with nothing between. -/
theorem serialization_some_order (p : Propfind) (r : MapRange (Str × Str)) :
    (∃ written : List Str, written.Perm (p.items.map Prod.snd) ∧
      (∀ (res : List Bytes → Bytes → Int × Option Error) (log : List Bytes),
        (p.WriteTo r (Recording res) log).1 =
          log ++ ([xmlHeader] ++ written ++ [xmlFooter]).map toBytes) ∧
      (∀ buf : Bytes,
        (p.WriteTo r Buffer buf).1 =
          buf ++ toBytes (xmlHeader ++ written.flatten ++ xmlFooter)) ∧
      p.serialize r = toBytes (xmlHeader ++ written.flatten ++ xmlFooter)) ∧
    xmlHeader =
      "<?xml version=\"1.0\" encoding=\"UTF-8\"?><D:multistatus xmlns:D=\"DAV:\">".toList ∧
    xmlFooter = "</D:multistatus>".toList ∧
    NewPropfind.serialize r = toBytes (xmlHeader ++ xmlFooter) := by
  refine ⟨⟨(r.visit p.items).map Prod.snd, (r.perm p.items).map _, ?_, ?_, ?_⟩, rfl, rfl, ?_⟩
  · intro res log; rw [Propfind.WriteTo_Recording]
  · intro buf; rw [Propfind.WriteTo_Buffer]
  · exact Propfind.serialize_eq p r
  · rw [Propfind.serialize_eq]
    have : r.visit NewPropfind.items = [] := by
      have := r.perm NewPropfind.items
      simpa [NewPropfind] using this
    simp [this]


/-! ## Fragments without an href element -/

theorem NewPropfind_compiled : NewPropfind.Compiled := ⟨rfl, rfl⟩

theorem Propfind.Append_compiled {p : Propfind} (h : p.Compiled) (d : Str) :
    (p.Append d).Compiled :=
  ⟨(Propfind.Append_response p d).trans h.1, (Propfind.Append_href p d).trans h.2⟩

theorem Propfind.Compiled.hrefOf {p : Propfind} (h : p.Compiled) (s : Str) :
    p.hrefOf s = hrefKey s := Propfind.hrefOf_congr h.2 s

theorem Propfind.Compiled.fragments {p : Propfind} (h : p.Compiled) (d : Str) :
    p.response.FindAllString d = fragments d := by
  rw [h.1]; rfl

theorem not_hasHref_iff (s : Str) : ¬ HasHref s ↔ NewPropfind.href.find s = none := by
  rw [Regexp.find_eq_none_iff]; rfl

theorem hrefKey_of_not_hasHref {s : Str} (h : ¬ HasHref s) : hrefKey s = [] := by
  have hf := (not_hasHref_iff s).mp h
  unfold hrefKey Propfind.hrefOf Regexp.FindString
  rw [hf]
  decide

theorem Propfind.Compiled.lookup_Append {p : Propfind} (h : p.Compiled) (d k : Str) :
    (p.Append d).items.lookup k = (p.items.lookup k).or (firstWithKey d k) := by
  rw [Propfind.Append_eq]
  rw [Propfind.lookup_foldl_store, h.fragments]
  simp only [h.hrefOf]
  rfl

theorem written_of_lookup {p : Propfind} {k f : Str} (h : p.items.lookup k = some f)
    (r : MapRange (Str × Str)) :
    ∃ written : List Str, p.serialize r = toBytes (xmlHeader ++ written.flatten ++ xmlFooter) ∧
      f ∈ written := by
  have hmem : (k, f) ∈ p.items := by
    obtain ⟨l1, l2, hl, -⟩ := List.lookup_eq_some_iff.mp h
    rw [hl]; simp
  exact ⟨(r.visit p.items).map Prod.snd, Propfind.serialize_eq p r,
    List.mem_map.mpr ⟨(k, f), ((r.perm _).mem_iff).mpr hmem, rfl⟩⟩

set_option maxRecDepth 100000 in
/-- Counterexample to claim C5 as stated: `fragNoHref` has no href element, yet
`Append` stores it, under the empty key, and `WriteTo` writes it; and in the
same document it keeps the later fragment `fragEmptyHref`, which is stored when
appended alone, from being stored. -/
theorem fragment_without_href_dropped_fails :
    NewPropfind.href.find fragNoHref = none ∧
    (NewPropfind.Append fragNoHref).items = [([], fragNoHref)] ∧
    (NewPropfind.Append fragNoHref).serialize (MapRange.inOrder _) =
      toBytes (xmlHeader ++ fragNoHref ++ xmlFooter) ∧
    (NewPropfind.Append fragEmptyHref).items = [([], fragEmptyHref)] ∧
    (NewPropfind.Append (fragNoHref ++ fragEmptyHref)).items = [([], fragNoHref)] := by
  decide

/-- Claim C5, amended (a fragment with no href is filed under the empty key). For
every state made by `NewPropfind` and `Append`, every document `d` and every
fragment `f` of `d` that contains no `<D:href>...</D:href>` element: the key of
`f` is the empty string; after `Append(d)` the entry of the empty key is the one
the state had or else the first fragment of `d` with an empty key, and there is
one; when the state had none and `f` is that first fragment, `f` is stored
and every `WriteTo` writes it. -/
theorem fragment_without_href_filed_under_empty_key (p : Propfind) (hp : p.Compiled)
    (d f : Str) (hf : f ∈ fragments d) (hno : ¬ HasHref f) :
    hrefKey f = [] ∧
    (p.Append d).items.lookup [] = (p.items.lookup []).or (firstWithKey d []) ∧
    ((p.Append d).items.lookup []).isSome ∧
    (p.items.lookup [] = none → firstWithKey d [] = some f →
      (p.Append d).items.lookup [] = some f ∧
      ∀ r : MapRange (Str × Str), ∃ written : List Str,
        (p.Append d).serialize r = toBytes (xmlHeader ++ written.flatten ++ xmlFooter) ∧
        f ∈ written) := by
  have hkey := hrefKey_of_not_hasHref hno
  have hlook := hp.lookup_Append d []
  have hfirst : (firstWithKey d []).isSome := by
    unfold firstWithKey
    rw [List.find?_isSome]
    exact ⟨f, hf, by simp [hkey]⟩
  refine ⟨hkey, hlook, ?_, ?_⟩
  · rw [hlook, Option.isSome_or, hfirst, Bool.or_true]
  · intro hnone hff
    have : (p.Append d).items.lookup [] = some f := by
      rw [hlook, hnone, hff]; rfl
    exact ⟨this, fun r => written_of_lookup this r⟩

set_option maxRecDepth 100000 in
/-- Witness of `fragment_without_href_filed_under_empty_key`: the document
`fragNoHref` appended to a fresh `Propfind`. -/
theorem fragment_without_href_filed_under_empty_key_witness :
    hrefKey fragNoHref = [] ∧
    ((NewPropfind.Append fragNoHref).items.lookup []).isSome :=
  have h := fragment_without_href_filed_under_empty_key NewPropfind NewPropfind_compiled
    fragNoHref fragNoHref (by decide) ((not_hasHref_iff _).mpr (by decide))
  ⟨h.1, h.2.2.1⟩


/-! ## Text after the last matched fragment -/

theorem splitAtFirst_append {pat : Str} : ∀ {s b a : Str} (u : Str),
    splitAtFirst pat s = some (b, a) → splitAtFirst pat (s ++ u) = some (b, a ++ u) := by
  intro s b a u h
  have hs := splitAtFirst_eq_some h
  apply splitAtFirst_of_first
  · rw [hs]; simp
  · intro b2 a2 h2
    by_contra hlt
    have hlt2 : b2.length < b.length := by omega
    -- the earlier occurrence would lie inside `s`
    have hlen : (b2 ++ pat).length ≤ s.length := by
      rw [hs]; simp; omega
    have hpre : b2 ++ pat <+: s :=
      List.prefix_of_prefix_length_le ⟨a2, h2.symm⟩ ⟨u, rfl⟩ hlen
    obtain ⟨t, ht⟩ := hpre
    have := splitAtFirst_first h b2 t ht.symm
    omega

theorem Regexp.find_append {re : Regexp} {s b m a : Str} (u : Str)
    (h : re.find s = some (b, m, a)) : re.find (s ++ u) = some (b, m, a ++ u) := by
  obtain ⟨body, hm, hs, h1, h2⟩ := Regexp.find_eq_some h
  unfold Regexp.find
  rw [splitAtFirst_append u h1]
  simp only
  rw [splitAtFirst_append u h2]
  simp [hm]

theorem Regexp.FindAllString_of_find_none {re : Regexp} {s : Str} (h : re.find s = none) :
    re.FindAllString s = [] := by
  unfold Regexp.FindAllString
  cases s.length with
  | zero => rfl
  | succ n => simp [Regexp.allMatches, h]

/-- Appending text that brings no new occurrence of the closing literal does not
change the matches. -/
theorem Regexp.FindAllString_append {re : Regexp}
    (hre : 0 < re.left.length + re.right.length) (u : Str) :
    ∀ (n : Nat) (d : Str), d.length ≤ n →
      (∀ a b : Str, d ++ u = a ++ re.right ++ b → a.length + re.right.length ≤ d.length) →
      re.FindAllString (d ++ u) = re.FindAllString d := by
  intro n
  induction n with
  | zero =>
    intro d hd hnew
    have hd0 : d = [] := List.length_eq_zero.mp (by omega)
    subst hd0
    have h1 : re.find ([] ++ u) = none := by
      rw [Regexp.find_eq_none_iff]
      rintro ⟨b, body, a, hs⟩
      have := hnew (b ++ re.left ++ body) a (by rw [hs])
      have hl := congrArg List.length hs
      simp only [List.length_append, List.length_nil] at this hl
      omega
    have h2 : re.find ([] : Str) = none := by
      rw [Regexp.find_eq_none_iff]
      rintro ⟨b, body, a, hs⟩
      have hl := congrArg List.length hs
      simp at hl
      omega
    rw [Regexp.FindAllString_of_find_none h1, Regexp.FindAllString_of_find_none h2]
  | succ n ih =>
    intro d hd hnew
    cases hf : re.find d with
    | none =>
      have h1 : re.find (d ++ u) = none := by
        rw [Regexp.find_eq_none_iff]
        rintro ⟨b, body, a, hs⟩
        have hle := hnew (b ++ re.left ++ body) a (by rw [hs])
        have hpre : b ++ re.left ++ body ++ re.right <+: d :=
          List.prefix_of_prefix_length_le ⟨a, hs.symm⟩ ⟨u, rfl⟩ (by simp at hle ⊢; omega)
        obtain ⟨t, ht⟩ := hpre
        exact (Regexp.find_eq_none_iff.mp hf) ⟨b, body, t, ht.symm⟩
      rw [Regexp.FindAllString_of_find_none h1, Regexp.FindAllString_of_find_none hf]
    | some r =>
      obtain ⟨b, m, a⟩ := r
      have hl := Regexp.find_length hf
      obtain ⟨body, hm, hs, -, -⟩ := Regexp.find_eq_some hf
      rw [Regexp.FindAllString_eq hre (d ++ u), Regexp.FindAllString_eq hre d,
        Regexp.find_append u hf, hf]
      simp only
      rw [ih a (by omega)]
      intro x y hxy
      have := hnew (b ++ m ++ x) y (by rw [hs]; simp [hxy])
      simp at this
      omega

/-- A literal that starts with `c` and has no other `c` cannot begin inside the
first `n + 1` characters after a prefix `d` and end beyond them, when the text
after `d` starts with `c`. -/
theorem occurrence_before_or_after {c : Char} {ps us d a b : Str} (hc : c ∉ ps)
    (h : d ++ c :: us = a ++ (c :: ps) ++ b) :
    a.length + (c :: ps).length ≤ d.length ∨ ∃ y, a = d ++ y ∧ c :: us = y ++ (c :: ps) ++ b := by
  rw [List.append_assoc] at h
  rcases List.append_eq_append_iff.mp h with ⟨x, hx, hu⟩ | ⟨x, hx, hu⟩
  · -- `a = d ++ x`
    right
    exact ⟨x, hx, by rw [hu]; simp⟩
  · -- `d = a ++ x` and `c :: ps ++ b = x ++ c :: us`
    cases x with
    | nil =>
      right
      refine ⟨[], by simpa using hx.symm, ?_⟩
      simpa using hu.symm
    | cons x0 xs =>
      left
      simp only [List.cons_append, List.cons.injEq] at hu
      obtain ⟨rfl, hu2⟩ := hu
      -- `ps ++ b = xs ++ c :: us` with `c ∉ ps`: `ps` ends inside `xs`
      rcases List.append_eq_append_iff.mp hu2 with ⟨z, hz, -⟩ | ⟨z, hz, hz2⟩
      · rw [hx, hz]; simp
      · cases z with
        | nil =>
          rw [hx, hz]; simp
        | cons z0 zs =>
          exfalso
          apply hc
          simp only [List.cons_append, List.cons.injEq] at hz2
          rw [hz, hz2.1]
          simp

theorem infix_of_append_of_not_mem {c : Char} {l tail ys rs b : Str} (hc : c ∉ l)
    (h : l ++ tail = ys ++ (c :: rs) ++ b) : (c :: rs) <:+: tail := by
  rw [List.append_assoc] at h
  rcases List.append_eq_append_iff.mp h with ⟨x, -, hx2⟩ | ⟨x, hx1, hx2⟩
  · exact ⟨x, b, by rw [hx2]; simp⟩
  · cases x with
    | nil => exact ⟨[], b, by simpa using hx2⟩
    | cons x0 xs =>
      exfalso
      apply hc
      simp only [List.cons_append, List.cons.injEq] at hx2
      rw [hx1, hx2.1]
      simp

theorem responseClose_not_in_tail_of_open {d tail a b : Str}
    (htail : ¬ responseClose <:+: tail)
    (h : d ++ (responseOpen ++ tail) = a ++ responseClose ++ b) :
    a.length + responseClose.length ≤ d.length := by
  have hR : responseClose = '<' :: responseClose.tail := by decide
  have hL : responseOpen ++ tail = '<' :: (responseOpen.tail ++ tail) := by
    show _ = ('<' :: responseOpen.tail) ++ tail
    congr 1
  have hcR : '<' ∉ responseClose.tail := by decide
  have hcL : '<' ∉ responseOpen.tail := by decide
  rw [hR, hL] at h
  rcases occurrence_before_or_after hcR h with hle | ⟨y, -, hy⟩
  · rw [hR]; exact hle
  · exfalso
    cases y with
    | nil =>
      simp only [List.nil_append, List.cons_append, List.cons.injEq, true_and] at hy
      have e : (responseOpen.tail ++ tail).head? = (responseClose.tail ++ b).head? := by rw [hy]
      have e1 : (responseOpen.tail ++ tail).head? = some 'D' := rfl
      have e2 : (responseClose.tail ++ b).head? = some '/' := rfl
      rw [e1, e2] at e
      exact absurd e (by decide)
    | cons y0 ys =>
      simp only [List.cons_append, List.cons.injEq] at hy
      have := infix_of_append_of_not_mem hcL (by simpa using hy.2)
      rw [← hR] at this
      exact htail this

theorem Propfind.Append_of_find_none (p : Propfind) {d : Str} (h : p.response.find d = none) :
    p.Append d = p := by
  rw [Propfind.Append_eq]
  rw [Regexp.FindAllString_of_find_none h]
  rfl

theorem fragments_append_open_tail (d tail : Str) (htail : ¬ responseClose <:+: tail) :
    fragments (d ++ responseOpen ++ tail) = fragments d := by
  unfold fragments
  rw [List.append_assoc]
  exact Regexp.FindAllString_append (by decide) _ d.length d (Nat.le_refl _)
    (fun a b h => responseClose_not_in_tail_of_open htail h)


theorem no_fragment_iff (d : Str) :
    (¬ ∃ a b c, d = a ++ responseOpen ++ b ++ responseClose ++ c) ↔
      NewPropfind.response.find d = none := by
  rw [Regexp.find_eq_none_iff]; rfl

set_option maxRecDepth 100000 in
/-- Counterexample to claim C6 as stated: in `docUnmatched` a start marker is
unmatched (no end marker occurs after it), yet `Append` stores the well-matched
fragment that precedes it and so changes the store. -/
theorem malformed_input_stores_nothing_fails :
    ¬ responseClose <:+: "<D:href>/b</D:href>".toList ∧
    (NewPropfind.Append docUnmatched).items = [("/a".toList, fragRemoteA)] ∧
    NewPropfind.Append docUnmatched ≠ NewPropfind := by
  decide

/-- Claim C6, amended (unmatched markers store nothing themselves). For every state
made by `NewPropfind` and `Append`: a document in which no `<D:response>` is
followed by a `</D:response>` adds no entry and leaves the state unchanged; and
when a document `d` is followed by a start marker `<D:response>` and a tail
without any end marker `</D:response>`, `Append` does exactly what it does for
`d` alone, so the well-matched fragments of `d` are stored and the unmatched
marker and the text after it add nothing. -/
theorem unmatched_markers_store_nothing_themselves (p : Propfind) (hp : p.Compiled) :
    (∀ d : Str, (¬ ∃ a b c, d = a ++ responseOpen ++ b ++ responseClose ++ c) →
      p.Append d = p) ∧
    (∀ d tail : Str, ¬ responseClose <:+: tail →
      p.Append (d ++ responseOpen ++ tail) = p.Append d) := by
  constructor
  · intro d hd
    apply Propfind.Append_of_find_none
    rw [hp.1, Regexp.find_eq_none_iff]
    exact hd
  · intro d tail htail
    rw [Propfind.Append_eq, Propfind.Append_eq, hp.fragments, hp.fragments,
      fragments_append_open_tail d tail htail]

set_option maxRecDepth 100000 in
/-- Witness of `unmatched_markers_store_nothing_themselves` on a fresh `Propfind`: a
lone start marker stores nothing, and `docUnmatched` stores what its
well-matched fragment stores. -/
theorem unmatched_markers_store_nothing_themselves_witness :
    NewPropfind.Append "<D:response><D:href>/b</D:href>".toList = NewPropfind ∧
    NewPropfind.Append docUnmatched = NewPropfind.Append fragRemoteA :=
  have h := unmatched_markers_store_nothing_themselves NewPropfind NewPropfind_compiled
  ⟨h.1 _ ((no_fragment_iff _).mpr (by decide)), h.2 fragRemoteA _ (by decide)⟩


/-! ## White space -/

theorem TrimSpace_eq (t : Str) :
    TrimSpace t = (t.dropWhile isSpace).rdropWhile isSpace := rfl

theorem rdropWhile_append_rtakeWhile (p : Char → Bool) (l : Str) :
    l.rdropWhile p ++ l.rtakeWhile p = l := by
  have h := List.takeWhile_append_dropWhile p l.reverse
  have h2 := congrArg List.reverse h
  rw [List.reverse_append, List.reverse_reverse] at h2
  exact h2

theorem TrimSpace_decomp (t : Str) :
    t = t.takeWhile isSpace ++ TrimSpace t ++ (t.dropWhile isSpace).rtakeWhile isSpace := by
  rw [TrimSpace_eq, List.append_assoc, rdropWhile_append_rtakeWhile,
    List.takeWhile_append_dropWhile]

theorem TrimSpace_trimmed (t : Str) : Trimmed (TrimSpace t) := by
  constructor
  · intro c hc
    -- the head of the result is the head of `t.dropWhile isSpace`
    have hpre : TrimSpace t <+: t.dropWhile isSpace := List.rdropWhile_prefix isSpace _
    obtain ⟨r, hr⟩ := hpre
    have hh : (t.dropWhile isSpace).head? = some c := by
      rw [← hr]
      cases hT : TrimSpace t with
      | nil => rw [hT] at hc; cases hc
      | cons x xs => rw [hT] at hc; simpa using hc
    have := List.head?_dropWhile_not isSpace t
    rw [hh] at this
    simpa using this
  · intro c hc
    have hne : (t.dropWhile isSpace).rdropWhile isSpace ≠ [] := by
      intro h
      rw [TrimSpace_eq, h] at hc
      cases hc
    have h1 := List.rdropWhile_last_not isSpace (t.dropWhile isSpace) hne
    have h2 : ((t.dropWhile isSpace).rdropWhile isSpace).getLast hne = c := by
      rw [TrimSpace_eq, List.getLast?_eq_getLast _ hne] at hc
      exact Option.some.inj hc
    rw [h2] at h1
    simpa using h1

theorem TrimSpace_of_trimmed {t : Str} (h : Trimmed t) : TrimSpace t = t := by
  have h1 : t.dropWhile isSpace = t := by
    cases t with
    | nil => rfl
    | cons x xs =>
      have := h.1 x rfl
      simp [List.dropWhile, this]
  rw [TrimSpace_eq, h1, List.rdropWhile_eq_self_iff]
  intro hl
  have := h.2 (t.getLast hl) (List.getLast?_eq_getLast _ hl)
  simp [this]

theorem dropWhile_concat_neg (p : Char → Bool) (t : Str) (x : Char) (hx : p x = false) :
    (t ++ [x]).dropWhile p = t.dropWhile p ++ [x] := by
  induction t with
  | nil => simp [List.dropWhile, hx]
  | cons c cs ih =>
    simp only [List.cons_append, List.dropWhile]
    cases p c with
    | true => simpa using ih
    | false => simp

/-- No normalisation of a trailing slash: with and without it the keys differ. -/
theorem TrimSpace_trailing_slash (t : Str) : TrimSpace (t ++ ['/']) ≠ TrimSpace t := by
  have hs : isSpace '/' = false := by decide
  rw [TrimSpace_eq, TrimSpace_eq, dropWhile_concat_neg isSpace t '/' hs,
    List.rdropWhile_concat_neg _ _ _ (by simp [hs])]
  intro h
  have hpre : (t.dropWhile isSpace).rdropWhile isSpace <+: t.dropWhile isSpace :=
    List.rdropWhile_prefix isSpace _
  have hl := hpre.length_le
  rw [← h] at hl
  simp at hl


/-! ## The identity key -/

theorem FirstOccurrence.splitAtFirst {pat before after s : Str}
    (h : FirstOccurrence pat before after s) : splitAtFirst pat s = some (before, after) :=
  splitAtFirst_of_first h.1 h.2

theorem FirstOccurrence.of_splitAtFirst {pat before after s : Str}
    (h : Davnext.splitAtFirst pat s = some (before, after)) :
    FirstOccurrence pat before after s :=
  ⟨splitAtFirst_eq_some h, splitAtFirst_first h⟩

theorem HrefText_iff (s t : Str) :
    HrefText s t ↔ ∃ a b, NewPropfind.href.find s = some (a, hrefOpen ++ t ++ hrefClose, b) := by
  constructor
  · rintro ⟨a, b, h1, h2⟩
    refine ⟨a, b, ?_⟩
    show Regexp.find ⟨hrefOpen, hrefClose⟩ s = _
    unfold Regexp.find
    simp only [h1.splitAtFirst, h2.splitAtFirst]
  · rintro ⟨a, b, h⟩
    obtain ⟨body, hm, -, h1, h2⟩ := Regexp.find_eq_some h
    have hm2 : hrefOpen ++ (t ++ hrefClose) = hrefOpen ++ (body ++ hrefClose) := by
      simpa [NewPropfind] using hm
    have hb : t = body := List.append_cancel_right (List.append_cancel_left hm2)
    subst hb
    exact ⟨a, b, FirstOccurrence.of_splitAtFirst h1, FirstOccurrence.of_splitAtFirst h2⟩

theorem TrimPrefix_append (pre x : Str) : TrimPrefix (pre ++ x) pre = x := by
  unfold TrimPrefix HasPrefix
  have : pre.isPrefixOf (pre ++ x) = true := List.isPrefixOf_iff_prefix.mpr (List.prefix_append _ _)
  simp [this]

theorem TrimSuffix_append (x suf : Str) : TrimSuffix (x ++ suf) suf = x := by
  unfold TrimSuffix HasSuffix
  have : suf.isSuffixOf (x ++ suf) = true := List.isSuffixOf_iff_suffix.mpr (List.suffix_append _ _)
  simp [this]

theorem hrefKey_of_hrefText {s t : Str} (h : HrefText s t) : hrefKey s = TrimSpace t := by
  obtain ⟨a, b, hf⟩ := (HrefText_iff s t).mp h
  unfold hrefKey Propfind.hrefOf Regexp.FindString
  simp only [hf]
  rw [List.append_assoc, TrimPrefix_append, TrimSuffix_append]

theorem fragments_nil : fragments [] = [] := by decide

theorem fragments_cons_of_isFragment {s : Str} (h : IsFragment s) (rest : Str) :
    fragments (s ++ rest) = s :: fragments rest := by
  obtain ⟨body, hs, hfirst⟩ := h
  subst hs
  have h1 : splitAtFirst responseOpen (responseOpen ++ body ++ responseClose ++ rest) =
      some ([], body ++ responseClose ++ rest) := by
    apply splitAtFirst_of_first
    · simp
    · intro b2 a2 _; simp
  have h2 : splitAtFirst responseClose (body ++ responseClose ++ rest) = some (body, rest) := by
    have := splitAtFirst_append rest hfirst.splitAtFirst
    simpa using this
  have hfind : NewPropfind.response.find (responseOpen ++ body ++ responseClose ++ rest) =
      some ([], responseOpen ++ body ++ responseClose, rest) := by
    show Regexp.find ⟨responseOpen, responseClose⟩ _ = _
    unfold Regexp.find
    simp only [h1, h2]
  unfold fragments
  rw [Regexp.FindAllString_eq (by decide), hfind]

theorem Propfind.Compiled.Append_fragment {p : Propfind} (hp : p.Compiled) {s : Str}
    (h : IsFragment s) (rest : Str) : p.Append (s ++ rest) = (p.store s).Append rest := by
  have hq : (p.store s).Compiled :=
    ⟨(Propfind.store_response p s).trans hp.1, (Propfind.store_href p s).trans hp.2⟩
  rw [Propfind.Append_eq, Propfind.Append_eq, hp.fragments, hq.fragments,
    fragments_cons_of_isFragment h, List.foldl_cons]

theorem Propfind.Compiled.Append_nil {p : Propfind} (hp : p.Compiled) : p.Append [] = p := by
  rw [Propfind.Append_eq]
  rw [hp.fragments, fragments_nil]
  rfl

theorem Propfind.Compiled.store {p : Propfind} (hp : p.Compiled) (s : Str) :
    (p.store s).Compiled :=
  ⟨(Propfind.store_response p s).trans hp.1, (Propfind.store_href p s).trans hp.2⟩

theorem Propfind.Compiled.Append_one {p : Propfind} (hp : p.Compiled) {s : Str}
    (h : IsFragment s) : p.Append s = p.store s := by
  have := hp.Append_fragment h []
  rw [List.append_nil] at this
  rw [this, (hp.store s).Append_nil]

theorem Propfind.Compiled.Append_two {p : Propfind} (hp : p.Compiled) {s1 s2 : Str}
    (h1 : IsFragment s1) (h2 : IsFragment s2) :
    p.Append (s1 ++ s2) = (p.store s1).store s2 := by
  rw [hp.Append_fragment h1, (hp.store s1).Append_one h2]

theorem isFragment_iff (s : Str) :
    IsFragment s ↔ NewPropfind.response.find s = some ([], s, []) := by
  constructor
  · rintro ⟨body, hs, hfirst⟩
    subst hs
    have h1 : splitAtFirst responseOpen (responseOpen ++ body ++ responseClose) =
        some ([], body ++ responseClose) := by
      apply splitAtFirst_of_first
      · simp
      · intro b2 a2 _; simp
    show Regexp.find ⟨responseOpen, responseClose⟩ _ = _
    unfold Regexp.find
    simp only [h1, hfirst.splitAtFirst]
  · intro h
    obtain ⟨body, hm, -, h1, h2⟩ := Regexp.find_eq_some h
    refine ⟨body, hm, ?_⟩
    have := FirstOccurrence.of_splitAtFirst h2
    simpa using this


theorem hasHref_iff_exists_hrefText (s : Str) : HasHref s ↔ ∃ t, HrefText s t := by
  constructor
  · intro h
    cases hf : NewPropfind.href.find s with
    | none => exact absurd h ((not_hasHref_iff s).mpr hf)
    | some r =>
      obtain ⟨a, m, b⟩ := r
      obtain ⟨body, hm, -, -, -⟩ := Regexp.find_eq_some hf
      refine ⟨body, (HrefText_iff s body).mpr ⟨a, b, ?_⟩⟩
      rw [hf, hm]
      rfl
  · rintro ⟨t, a, b, h1, -⟩
    exact ⟨a, t, b, by rw [h1.1]; simp⟩

theorem Regexp.allMatches_isMatch (re : Regexp) :
    ∀ (n : Nat) (s : Str), ∀ m ∈ re.allMatches n s,
      ∃ body, m = re.left ++ body ++ re.right ∧
        FirstOccurrence re.right body [] (body ++ re.right) := by
  intro n
  induction n with
  | zero => intro s m hm; cases hm
  | succ n ih =>
    intro s m hm
    simp only [Regexp.allMatches] at hm
    cases hf : re.find s with
    | none => rw [hf] at hm; cases hm
    | some r =>
      obtain ⟨b, m0, a⟩ := r
      rw [hf] at hm
      rcases List.mem_cons.mp hm with h | h
      · subst h
        obtain ⟨body, hm0, -, -, h2⟩ := Regexp.find_eq_some hf
        refine ⟨body, hm0, by simp, ?_⟩
        intro b2 a2 hocc
        exact splitAtFirst_first h2 b2 (a2 ++ a) (by rw [hocc]; simp)
      · exact ih a m h

/-- Every fragment that the callback of `Append` receives is a whole fragment. -/
theorem isFragment_of_mem_fragments {d f : Str} (h : f ∈ fragments d) : IsFragment f :=
  Regexp.allMatches_isMatch NewPropfind.response d.length d f h

/-- Claim C7 (identity key). For every state made by `NewPropfind` and `Append` and
all whole fragments `s1`, `s2` whose href texts (the text between the first
`<D:href>` and the first following `</D:href>`) are `t1` and `t2`: the key under
which `Append` files `s1` is `TrimSpace t1`, which is `t1` with white space
removed at both ends and nothing else changed; `s1` is stored under that key
when the key is free; when the two texts differ only in surrounding white
space the fragments collide and the first is kept; when the trimmed texts
differ, both are stored as distinct entries; and nothing is normalised: texts
without surrounding white space that differ in any way (letter case,
percent-encoding) give different keys, and so does a trailing slash. Every
fragment that `Append` takes from a document is such a whole fragment, and
every text with an href element has an href text, whose trimmed form is its
key. -/
theorem identity_key (p : Propfind) (hp : p.Compiled) (s1 s2 t1 t2 : Str)
    (hs1 : IsFragment s1) (hs2 : IsFragment s2) (h1 : HrefText s1 t1) (h2 : HrefText s2 t2) :
    (hrefKey s1 = TrimSpace t1 ∧ p.hrefOf s1 = TrimSpace t1) ∧
    (∃ l r, t1 = l ++ TrimSpace t1 ++ r ∧ (∀ c ∈ l, isSpace c = true) ∧
      (∀ c ∈ r, isSpace c = true) ∧ Trimmed (TrimSpace t1)) ∧
    (p.items.lookup (TrimSpace t1) = none →
      (p.Append s1).items = p.items ++ [(TrimSpace t1, s1)]) ∧
    (TrimSpace t1 = TrimSpace t2 → p.Append (s1 ++ s2) = p.Append s1) ∧
    (TrimSpace t1 ≠ TrimSpace t2 → p.items.lookup (TrimSpace t1) = none →
      p.items.lookup (TrimSpace t2) = none →
      (p.Append (s1 ++ s2)).items = p.items ++ [(TrimSpace t1, s1), (TrimSpace t2, s2)]) ∧
    (Trimmed t1 → Trimmed t2 → t1 ≠ t2 → TrimSpace t1 ≠ TrimSpace t2) ∧
    TrimSpace (t1 ++ ['/']) ≠ TrimSpace t1 ∧
    (∀ d f : Str, f ∈ fragments d → IsFragment f) ∧
    (∀ s : Str, HasHref s → ∃ t, HrefText s t ∧ hrefKey s = TrimSpace t) := by
  have k1 : hrefKey s1 = TrimSpace t1 := hrefKey_of_hrefText h1
  have k2 : hrefKey s2 = TrimSpace t2 := hrefKey_of_hrefText h2
  have pk1 : p.hrefOf s1 = TrimSpace t1 := (hp.hrefOf s1).trans k1
  have pk2 : p.hrefOf s2 = TrimSpace t2 := (hp.hrefOf s2).trans k2
  have qk2 : (p.store s1).hrefOf s2 = TrimSpace t2 := ((hp.store s1).hrefOf s2).trans k2
  have hstore1 : p.items.lookup (TrimSpace t1) = none →
      (p.store s1).items = p.items ++ [(TrimSpace t1, s1)] := by
    intro hnone
    rw [Propfind.store_items, pk1, hnone]
    rfl
  refine ⟨⟨k1, pk1⟩, ?_, ?_, ?_, ?_, ?_, TrimSpace_trailing_slash t1,
    fun d f hf => isFragment_of_mem_fragments hf, ?_⟩
  rotate_right
  · intro s hs
    obtain ⟨t, ht⟩ := (hasHref_iff_exists_hrefText s).mp hs
    exact ⟨t, ht, hrefKey_of_hrefText ht⟩
  · exact ⟨_, _, TrimSpace_decomp t1, fun c hc => List.mem_takeWhile_imp hc,
      fun c hc => List.mem_rtakeWhile_imp hc, TrimSpace_trimmed t1⟩
  · intro hnone
    rw [hp.Append_one hs1]
    exact hstore1 hnone
  · intro heq
    rw [hp.Append_two hs1 hs2, hp.Append_one hs1]
    apply Propfind.store_eq_self
    rw [qk2, ← heq, Propfind.lookup_store, pk1]
    simp
  · intro hne hn1 hn2
    rw [hp.Append_two hs1 hs2, Propfind.store_items, qk2, Propfind.lookup_store, pk1, hn2,
      hstore1 hn1]
    simp [hne]
  · intro ht1 ht2 hne
    rw [TrimSpace_of_trimmed ht1, TrimSpace_of_trimmed ht2]
    exact hne

set_option maxRecDepth 100000 in
/-- Witness of `identity_key`: on a fresh `Propfind`, the href texts ` /a` followed by
a newline and `/a` collide and the first fragment is kept, while the href
texts `/a`, `/a/`, `/A` and `/%61` are four distinct entries. -/
theorem identity_key_witness :
    hrefKey fragSpacedA = "/a".toList ∧
    NewPropfind.Append (fragSpacedA ++ fragPlainA) = NewPropfind.Append fragSpacedA ∧
    (NewPropfind.Append (fragPlainA ++ fragSlashA ++ fragUpperA ++ fragEncodedA)).items =
      [("/a".toList, fragPlainA), ("/a/".toList, fragSlashA), ("/A".toList, fragUpperA),
        ("/%61".toList, fragEncodedA)] :=
  have h := identity_key NewPropfind NewPropfind_compiled fragSpacedA fragPlainA
    " /a\n".toList "/a".toList
    ((isFragment_iff _).mpr (by decide)) ((isFragment_iff _).mpr (by decide))
    ((HrefText_iff _ _).mpr ⟨responseOpen, "1</D:response>".toList, by decide⟩)
    ((HrefText_iff _ _).mpr ⟨responseOpen, "2</D:response>".toList, by decide⟩)
  ⟨h.1.1.trans (by decide), h.2.2.2.1 (by decide), by decide⟩


/-! ## The read-only guard -/

/-- Claim C8 (read-only enforcement of the three mutating operations). For every
wrapped store, context, names and permission: when `Modify` is false,
`Dir.Mkdir`, `Dir.RemoveAll` and `Dir.Rename` return `os.ErrPermission` and
leave the world as it was, the files and the list of calls received by the
wrapped store included; when `Modify` is true each returns what the wrapped
store's operation returns for the same arguments, the files become what that
operation made of them and the call is the one call the wrapped store
receives. -/
theorem read_only_enforcement (φ : Type) (d : Dir φ) (ctx : Context) (name newName : Str)
    (perm : Nat) (w : World φ) :
    (d.Modify = false →
      d.Mkdir ctx name perm w = (w, some Error.ErrPermission) ∧
      d.RemoveAll ctx name w = (w, some Error.ErrPermission) ∧
      d.Rename ctx name newName w = (w, some Error.ErrPermission)) ∧
    (d.Modify = true →
      d.Mkdir ctx name perm w =
        (⟨(d.webdav.Mkdir ctx name perm w.fs).1, w.calls ++ [FsCall.Mkdir name perm]⟩,
          (d.webdav.Mkdir ctx name perm w.fs).2) ∧
      d.RemoveAll ctx name w =
        (⟨(d.webdav.RemoveAll ctx name w.fs).1, w.calls ++ [FsCall.RemoveAll name]⟩,
          (d.webdav.RemoveAll ctx name w.fs).2) ∧
      d.Rename ctx name newName w =
        (⟨(d.webdav.Rename ctx name newName w.fs).1,
            w.calls ++ [FsCall.Rename name newName]⟩,
          (d.webdav.Rename ctx name newName w.fs).2)) := by
  constructor
  · intro h
    simp [Dir.Mkdir, Dir.RemoveAll, Dir.Rename, h]
  · intro h
    simp [Dir.Mkdir, Dir.RemoveAll, Dir.Rename, h, WebdavDir.callMkdir,
      WebdavDir.callRemoveAll, WebdavDir.callRename]

theorem Dir.OpenFile_passes (φ : Type) (d : Dir φ) (ctx : Context) (name : Str) (flag : Int)
    (perm : Nat) (w : World φ) :
    d.OpenFile ctx name flag perm w =
      (⟨(d.webdav.OpenFile ctx name flag perm w.fs).1,
          w.calls ++ [FsCall.OpenFile name flag perm]⟩,
        (d.webdav.OpenFile ctx name flag perm w.fs).2) := rfl

/-- Claim C9 (the read-only guard rejects every mutating operation), evaluated at
the failing input. With `Modify` false, `OpenFile` of a missing path with the
flags `O_RDWR|O_CREATE|O_TRUNC` is not rejected: the call reaches the wrapped
store, which creates the file, although `Mkdir`, `RemoveAll` and `Rename` of the
same guard are rejected. For every guard, `OpenFile` is the wrapped store's
`OpenFile`, whatever `Modify` is. -/
theorem read_only_guard_lets_openFile_create :
    (NewDir pathsDir false).OpenFile ⟨0⟩ "/x".toList (O_RDWR + O_CREATE + O_TRUNC) 0o666
        ⟨[], []⟩ =
      (⟨["/x".toList], [FsCall.OpenFile "/x".toList (O_RDWR + O_CREATE + O_TRUNC) 0o666]⟩,
        some ⟨"/x".toList, O_RDWR + O_CREATE + O_TRUNC⟩, none) ∧
    ((NewDir pathsDir false).Mkdir ⟨0⟩ "/x".toList 0o777 ⟨[], []⟩).2 =
      some Error.ErrPermission ∧
    (∀ (φ : Type) (d : Dir φ) (ctx : Context) (name : Str) (flag : Int) (perm : Nat)
        (w : World φ),
      d.OpenFile ctx name flag perm w = d.webdav.callOpenFile ctx name flag perm w) := by
  refine ⟨by decide, by decide, fun _ _ _ _ _ _ _ => rfl⟩

/-! ## The fallthrough sink -/

theorem InterceptWriter.step_suppressed (B : ResponseWriter ω) (i : InterceptWriter ω)
    (c : HandlerCall) (hi : i.StatusCode = StatusNotFound)
    (hc : ∀ code, c = HandlerCall.WriteHeader code → code = StatusNotFound) :
    (i.step B c).Base = i.Base ∧ (i.step B c).StatusCode = StatusNotFound := by
  cases c with
  | Header m => simp [InterceptWriter.step, InterceptWriter.Header, hi]
  | WriteHeader code =>
    have := hc code rfl
    subst this
    simp [InterceptWriter.step, InterceptWriter.WriteHeader]
  | Write b => simp [InterceptWriter.step, InterceptWriter.Write, hi]

/-- Once the status is 404, and as long as no other status is written, nothing
reaches the real writer. -/
theorem InterceptWriter.run_suppressed (B : ResponseWriter ω) (calls : List HandlerCall)
    (i : InterceptWriter ω) (hi : i.StatusCode = StatusNotFound)
    (hc : ∀ c ∈ calls, ∀ code, c = HandlerCall.WriteHeader code → code = StatusNotFound) :
    (i.run B calls).Base = i.Base ∧ (i.run B calls).StatusCode = StatusNotFound := by
  induction calls generalizing i with
  | nil => exact ⟨rfl, hi⟩
  | cons c cs ih =>
    have h1 := InterceptWriter.step_suppressed B i c hi (hc c (List.mem_cons_self _ _))
    have h2 := ih (i.step B c) h1.2 (fun c2 hc2 => hc c2 (List.mem_cons_of_mem _ hc2))
    exact ⟨h2.1.trans h1.1, h2.2⟩

theorem InterceptWriter.Write_suppressed (B : ResponseWriter ω) (i : InterceptWriter ω)
    (b : Bytes) (hi : i.StatusCode = StatusNotFound) :
    (i.Write B b).2 = ((b.length : Int), none) ∧ (i.Write B b).1.Base = i.Base := by
  simp [InterceptWriter.Write, hi]

/-- Claim C10 (fallthrough suppression), evaluated at the failing input. A handler
sets a header, then reports 404 and writes a body: the sink ends with status
404, the body and the status are suppressed and the suppressed `Write` reports
`len(b)` and no error, but the header mutation made before `WriteHeader` has
reached the real writer. -/
theorem fallthrough_leaks_early_header (res : List WriterCall → Bytes → Int × Option Error) :
    ((InterceptWriter.new [] []).run (Recorder res)
        [HandlerCall.Header (HeaderMut.Set "Content-Type".toList "text/plain".toList),
          HandlerCall.WriteHeader 404,
          HandlerCall.Write (toBytes "Not Found".toList)]).StatusCode = StatusNotFound ∧
    ((InterceptWriter.new [] []).run (Recorder res)
        [HandlerCall.Header (HeaderMut.Set "Content-Type".toList "text/plain".toList),
          HandlerCall.WriteHeader 404,
          HandlerCall.Write (toBytes "Not Found".toList)]).Base =
      [WriterCall.Header (HeaderMut.Set "Content-Type".toList "text/plain".toList)] ∧
    ((((InterceptWriter.new [] []).Header (Recorder res)
        (HeaderMut.Set "Content-Type".toList "text/plain".toList)).WriteHeader
          (Recorder res) 404).Write (Recorder res) (toBytes "Not Found".toList)).2 =
      (9, none) := by
  refine ⟨?_, ?_, ?_⟩
  · simp [InterceptWriter.run, InterceptWriter.step, InterceptWriter.new,
      InterceptWriter.Header, InterceptWriter.WriteHeader, InterceptWriter.Write,
      StatusNotFound, Recorder]
  · simp [InterceptWriter.run, InterceptWriter.step, InterceptWriter.new,
      InterceptWriter.Header, InterceptWriter.WriteHeader, InterceptWriter.Write,
      StatusNotFound, Recorder]
  · have hlen : ((toBytes "Not Found".toList).length : Int) = 9 := by decide
    rw [(InterceptWriter.Write_suppressed _ _ _
      (by simp [InterceptWriter.WriteHeader, StatusNotFound])).1, hlen]


/-! ## The fallthrough sink: mode and transparency -/

theorem InterceptWriter.run_eq_writer_run (B : ResponseWriter ω) (calls : List HandlerCall)
    (i : InterceptWriter ω) :
    i.run B calls = (InterceptWriter.writer B).run i calls := by
  unfold InterceptWriter.run ResponseWriter.run
  congr 1

theorem InterceptWriter.run_cons (B : ResponseWriter ω) (c : HandlerCall)
    (calls : List HandlerCall) (i : InterceptWriter ω) :
    i.run B (c :: calls) = (i.step B c).run B calls := rfl

theorem InterceptWriter.run_latest_status (res : List WriterCall → Bytes → Int × Option Error)
    (calls : List HandlerCall) (i : InterceptWriter (List WriterCall)) :
    (i.run (Recorder res) calls).Base = i.Base ++ forwardedByLatestStatus i.StatusCode calls ∧
    (i.run (Recorder res) calls).StatusCode = lastStatus i.StatusCode calls := by
  induction calls generalizing i with
  | nil => simp [InterceptWriter.run, forwardedByLatestStatus, lastStatus]
  | cons c calls ih =>
    rw [InterceptWriter.run_cons]
    have h := ih (i.step (Recorder res) c)
    cases c with
    | Header m =>
      by_cases hs : i.StatusCode = StatusNotFound
      · have e : i.step (Recorder res) (HandlerCall.Header m) = i := by
          simp [InterceptWriter.step, InterceptWriter.Header, hs]
        rw [e] at h ⊢
        simpa [forwardedByLatestStatus, lastStatus, hs] using h
      · have e1 : (i.step (Recorder res) (HandlerCall.Header m)).Base =
            i.Base ++ [WriterCall.Header m] := by
          simp [InterceptWriter.step, InterceptWriter.Header, hs, Recorder]
        have e2 : (i.step (Recorder res) (HandlerCall.Header m)).StatusCode = i.StatusCode := by
          simp [InterceptWriter.step, InterceptWriter.Header, hs]
        rw [e1, e2] at h
        simpa [forwardedByLatestStatus, lastStatus, hs] using h
    | WriteHeader code =>
      by_cases hs : code = StatusNotFound
      · have e1 : (i.step (Recorder res) (HandlerCall.WriteHeader code)).Base = i.Base := by
          simp [InterceptWriter.step, InterceptWriter.WriteHeader, hs]
        have e2 : (i.step (Recorder res) (HandlerCall.WriteHeader code)).StatusCode = code := by
          simp [InterceptWriter.step, InterceptWriter.WriteHeader, hs]
        rw [e1, e2] at h
        simpa [forwardedByLatestStatus, lastStatus, hs] using h
      · have e1 : (i.step (Recorder res) (HandlerCall.WriteHeader code)).Base =
            i.Base ++ [WriterCall.WriteHeader code] := by
          simp [InterceptWriter.step, InterceptWriter.WriteHeader, hs, Recorder]
        have e2 : (i.step (Recorder res) (HandlerCall.WriteHeader code)).StatusCode = code := by
          simp [InterceptWriter.step, InterceptWriter.WriteHeader, hs]
        rw [e1, e2] at h
        simpa [forwardedByLatestStatus, lastStatus, hs] using h
    | Write b =>
      by_cases hs : i.StatusCode = StatusNotFound
      · have e1 : (i.step (Recorder res) (HandlerCall.Write b)).Base = i.Base := by
          simp [InterceptWriter.step, InterceptWriter.Write, hs]
        have e2 : (i.step (Recorder res) (HandlerCall.Write b)).StatusCode = i.StatusCode := by
          simp [InterceptWriter.step, InterceptWriter.Write, hs]
        rw [e1, e2] at h
        simpa [forwardedByLatestStatus, lastStatus, hs] using h
      · have e1 : (i.step (Recorder res) (HandlerCall.Write b)).Base =
            i.Base ++ [WriterCall.Write b] := by
          simp [InterceptWriter.step, InterceptWriter.Write, hs, Recorder]
        have e2 : (i.step (Recorder res) (HandlerCall.Write b)).StatusCode = i.StatusCode := by
          simp [InterceptWriter.step, InterceptWriter.Write, hs]
        rw [e1, e2] at h
        simpa [forwardedByLatestStatus, lastStatus, hs] using h


theorem forwardedByLatestStatus_append (calls after : List HandlerCall) (status : Int) :
    forwardedByLatestStatus status (calls ++ after) =
      forwardedByLatestStatus status calls ++
        forwardedByLatestStatus (lastStatus status calls) after := by
  induction calls generalizing status with
  | nil => simp [forwardedByLatestStatus, lastStatus]
  | cons c calls ih =>
    cases c with
    | Header m =>
      by_cases hs : status = StatusNotFound <;>
        simp [forwardedByLatestStatus, lastStatus, hs, ih]
    | WriteHeader code =>
      by_cases hs : code = StatusNotFound <;>
        simp [forwardedByLatestStatus, lastStatus, hs, ih]
    | Write b =>
      by_cases hs : status = StatusNotFound <;>
        simp [forwardedByLatestStatus, lastStatus, hs, ih]

theorem lastStatus_append (calls after : List HandlerCall) (status : Int) :
    lastStatus status (calls ++ after) = lastStatus (lastStatus status calls) after := by
  induction calls generalizing status with
  | nil => rfl
  | cons c calls ih => cases c <;> simp [lastStatus, ih]

theorem forwardedByLatestStatus_suppressed (calls : List HandlerCall)
    (h : ∀ c ∈ calls, ∀ code, c = HandlerCall.WriteHeader code → code = StatusNotFound) :
    forwardedByLatestStatus StatusNotFound calls = [] := by
  induction calls with
  | nil => rfl
  | cons c calls ih =>
    have ih2 := ih (fun c2 hc2 => h c2 (List.mem_cons_of_mem _ hc2))
    cases c with
    | Header m => simp [forwardedByLatestStatus, ih2]
    | WriteHeader code =>
      have := h _ (List.mem_cons_self _ _) code rfl
      subst this
      simp [forwardedByLatestStatus, ih2]
    | Write b => simp [forwardedByLatestStatus, ih2]

theorem forwardedByLatestStatus_transparent (calls : List HandlerCall) (status : Int)
    (hs : status ≠ StatusNotFound)
    (h : ∀ c ∈ calls, c ≠ HandlerCall.WriteHeader StatusNotFound) :
    forwardedByLatestStatus status calls = calls.map HandlerCall.toWriterCall := by
  induction calls generalizing status with
  | nil => rfl
  | cons c calls ih =>
    have h2 : ∀ c2 ∈ calls, c2 ≠ HandlerCall.WriteHeader StatusNotFound :=
      fun c2 hc2 => h c2 (List.mem_cons_of_mem _ hc2)
    cases c with
    | Header m => simp [forwardedByLatestStatus, hs, ih status hs h2, HandlerCall.toWriterCall]
    | WriteHeader code =>
      have hc : code ≠ StatusNotFound := by
        intro hc
        exact h _ (List.mem_cons_self _ _) (by rw [hc])
      simp [forwardedByLatestStatus, hc, ih code hc h2, HandlerCall.toWriterCall]
    | Write b => simp [forwardedByLatestStatus, hs, ih status hs h2, HandlerCall.toWriterCall]

/-- Counterexample to claim C11 as stated, on a real writer whose writes succeed.
After the status 200 has been forwarded, a later `WriteHeader(404)` does make the
sink suppress the next `Write`: the real writer gets the status 200 and nothing
else. After a first `WriteHeader(404)`, a later `WriteHeader(200)` is forwarded,
and so is the `Write` after it. -/
theorem mode_fixed_by_first_status_fails :
    ((InterceptWriter.new [] []).run (Recorder okWrites)
        [HandlerCall.WriteHeader 200, HandlerCall.WriteHeader 404,
          HandlerCall.Write (toBytes "x".toList)]).Base = [WriterCall.WriteHeader 200] ∧
    ((InterceptWriter.new [] []).run (Recorder okWrites)
        [HandlerCall.WriteHeader 404, HandlerCall.WriteHeader 200,
          HandlerCall.Write (toBytes "x".toList)]).Base =
      [WriterCall.WriteHeader 200, WriterCall.Write (toBytes "x".toList)] := by
  constructor <;>
    simp [InterceptWriter.run, InterceptWriter.step, InterceptWriter.new,
      InterceptWriter.Header, InterceptWriter.WriteHeader, InterceptWriter.Write,
      StatusNotFound, Recorder]

/-- Claim C11, amended (the mode follows the latest status). For every state of the
sink and every sequence of calls, whether a call is suppressed or forwarded is
decided by the status code of the latest `WriteHeader` before it, and the mode
changes with every `WriteHeader`: the real writer receives exactly the calls
`forwardedByLatestStatus` and the sink ends with the code of the last
`WriteHeader`. So after a status other than 404, a later `WriteHeader(404)` is not
forwarded and the calls after it that write no other status are suppressed; and
after `WriteHeader(404)`, a later `WriteHeader` with another status is forwarded,
together with the calls after it that do not write 404. -/
theorem mode_follows_latest_status (res : List WriterCall → Bytes → Int × Option Error)
    (i : InterceptWriter (List WriterCall)) (calls : List HandlerCall) :
    (i.run (Recorder res) calls).Base = i.Base ++ forwardedByLatestStatus i.StatusCode calls ∧
    (i.run (Recorder res) calls).StatusCode = lastStatus i.StatusCode calls ∧
    (∀ after : List HandlerCall,
      (∀ c ∈ after, ∀ code, c = HandlerCall.WriteHeader code → code = StatusNotFound) →
      (i.run (Recorder res) (calls ++ [HandlerCall.WriteHeader StatusNotFound] ++ after)).Base =
        (i.run (Recorder res) calls).Base) ∧
    (∀ (code : Int) (after : List HandlerCall), code ≠ StatusNotFound →
      (∀ c ∈ after, c ≠ HandlerCall.WriteHeader StatusNotFound) →
      (i.run (Recorder res)
          (calls ++ [HandlerCall.WriteHeader StatusNotFound, HandlerCall.WriteHeader code] ++
            after)).Base =
        (i.run (Recorder res) calls).Base ++
          WriterCall.WriteHeader code :: after.map HandlerCall.toWriterCall) := by
  have key := fun cs => InterceptWriter.run_latest_status res cs i
  refine ⟨(key calls).1, (key calls).2, ?_, ?_⟩
  · intro after hafter
    rw [(key _).1, (key calls).1, List.append_assoc, forwardedByLatestStatus_append]
    have : forwardedByLatestStatus (lastStatus i.StatusCode calls)
        ([HandlerCall.WriteHeader StatusNotFound] ++ after) = [] := by
      simp [forwardedByLatestStatus, forwardedByLatestStatus_suppressed after hafter]
    rw [this, List.append_nil]
  · intro code after hcode hafter
    rw [(key _).1, (key calls).1, List.append_assoc, forwardedByLatestStatus_append]
    have : forwardedByLatestStatus (lastStatus i.StatusCode calls)
        ([HandlerCall.WriteHeader StatusNotFound, HandlerCall.WriteHeader code] ++ after) =
        WriterCall.WriteHeader code :: after.map HandlerCall.toWriterCall := by
      simp [forwardedByLatestStatus, hcode,
        forwardedByLatestStatus_transparent after code hcode hafter]
    rw [this, List.append_assoc]


theorem InterceptWriter.step_transparent (B : ResponseWriter ω) (i : InterceptWriter ω)
    (c : HandlerCall) (hi : i.StatusCode ≠ StatusNotFound)
    (hc : c ≠ HandlerCall.WriteHeader StatusNotFound) :
    (i.step B c).Base = B.step i.Base c ∧ (i.step B c).StatusCode ≠ StatusNotFound := by
  cases c with
  | Header m => simp [InterceptWriter.step, InterceptWriter.Header, hi, ResponseWriter.step]
  | WriteHeader code =>
    have hcode : code ≠ StatusNotFound := by
      intro h
      exact hc (by rw [h])
    simp [InterceptWriter.step, InterceptWriter.WriteHeader, hcode, ResponseWriter.step]
  | Write b => simp [InterceptWriter.step, InterceptWriter.Write, hi, ResponseWriter.step]

theorem InterceptWriter.run_transparent (B : ResponseWriter ω) (calls : List HandlerCall)
    (i : InterceptWriter ω) (hi : i.StatusCode ≠ StatusNotFound)
    (hc : ∀ c ∈ calls, c ≠ HandlerCall.WriteHeader StatusNotFound) :
    (i.run B calls).Base = B.run i.Base calls ∧
    (InterceptWriter.writer B).results i calls = B.results i.Base calls := by
  induction calls generalizing i with
  | nil => exact ⟨rfl, rfl⟩
  | cons c calls ih =>
    have h1 := InterceptWriter.step_transparent B i c hi (hc c (List.mem_cons_self _ _))
    have h2 := ih (i.step B c) h1.2 (fun c2 hc2 => hc c2 (List.mem_cons_of_mem _ hc2))
    rw [InterceptWriter.run_cons]
    refine ⟨?_, ?_⟩
    · rw [h2.1, h1.1]; rfl
    · cases c with
      | Header m =>
        show (InterceptWriter.writer B).results (i.step B (HandlerCall.Header m)) calls = _
        rw [h2.2, h1.1]; rfl
      | WriteHeader code =>
        show (InterceptWriter.writer B).results (i.step B (HandlerCall.WriteHeader code)) calls
          = _
        rw [h2.2, h1.1]; rfl
      | Write b =>
        show (i.Write B b).2 :: (InterceptWriter.writer B).results
          (i.step B (HandlerCall.Write b)) calls = _
        rw [h2.2, h1.1]
        have : (i.Write B b).2 = (B.Write b i.Base).2 := by
          simp [InterceptWriter.Write, hi]
        rw [this]; rfl

/-- Claim C12 (fallthrough transparency). For every real writer and every sequence
of calls made on a fresh `InterceptWriter` in which no `WriteHeader` has the code
404: the real writer ends in the state that the same calls, made directly on it in
the same order, lead to; each `Write` returns what the `Write` of the real writer
returned; and a real writer that records what it receives has received exactly
the calls of the handler, the `WriteHeader` calls, the header mutations and the
`Write` calls with their bytes, each once and in the original order. -/
theorem fallthrough_transparent (B : ResponseWriter ω) (base : ω) (stdout : Bytes)
    (calls : List HandlerCall)
    (h : ∀ c ∈ calls, c ≠ HandlerCall.WriteHeader StatusNotFound) :
    ((InterceptWriter.new base stdout).run B calls).Base = B.run base calls ∧
    (InterceptWriter.writer B).results (InterceptWriter.new base stdout) calls =
      B.results base calls ∧
    (∀ (res : List WriterCall → Bytes → Int × Option Error) (log : List WriterCall),
      ((InterceptWriter.new log stdout).run (Recorder res) calls).Base =
        log ++ calls.map HandlerCall.toWriterCall) := by
  have h0 : (InterceptWriter.new base stdout).StatusCode ≠ StatusNotFound := by
    simp [InterceptWriter.new, StatusNotFound]
  have key := InterceptWriter.run_transparent B calls (InterceptWriter.new base stdout) h0 h
  refine ⟨key.1, key.2, ?_⟩
  intro res log
  rw [(InterceptWriter.run_latest_status res calls _).1]
  rw [forwardedByLatestStatus_transparent calls _ (by simp [InterceptWriter.new, StatusNotFound]) h]
  rfl

/-- Witness of `fallthrough_transparent`: a header, the status 200 and a body go
through to a recording real writer as they are. -/
theorem fallthrough_transparent_witness :
    ((InterceptWriter.new [] []).run (Recorder okWrites)
        [HandlerCall.Header (HeaderMut.Set "Etag".toList "1".toList),
          HandlerCall.WriteHeader 200, HandlerCall.Write (toBytes "ok".toList)]).Base =
      [WriterCall.Header (HeaderMut.Set "Etag".toList "1".toList),
        WriterCall.WriteHeader 200, WriterCall.Write (toBytes "ok".toList)] :=
  (fallthrough_transparent (Recorder okWrites) [] []
    [HandlerCall.Header (HeaderMut.Set "Etag".toList "1".toList),
      HandlerCall.WriteHeader 200, HandlerCall.Write (toBytes "ok".toList)]
    (by decide)).2.2 okWrites []

/-! ## The capture sink -/

theorem CacheWriter.run_writer_cons (c : HandlerCall) (calls : List HandlerCall) (w : CacheWriter) :
    CacheWriter.writer.run w (c :: calls) =
      CacheWriter.writer.run (CacheWriter.writer.step w c) calls := rfl

theorem CacheWriter.run_record (calls : List HandlerCall) (w : CacheWriter) :
    (CacheWriter.writer.run w calls).B = w.B ++ writtenBytes calls ∧
    (CacheWriter.writer.run w calls).StatusCode = lastStatus w.StatusCode calls ∧
    (CacheWriter.writer.run w calls).H = headerAfter w.H calls ∧
    CacheWriter.writer.results w calls =
      (writeSlices calls).map (fun b => ((b.length : Int), none)) := by
  induction calls generalizing w with
  | nil => simp [ResponseWriter.run, writtenBytes, lastStatus, headerAfter,
      ResponseWriter.results, writeSlices]
  | cons c calls ih =>
    rw [CacheWriter.run_writer_cons]
    have h := ih (CacheWriter.writer.step w c)
    cases c with
    | Header m =>
      refine ⟨h.1, h.2.1, h.2.2.1, ?_⟩
      exact h.2.2.2
    | WriteHeader code =>
      refine ⟨h.1, h.2.1, h.2.2.1, ?_⟩
      exact h.2.2.2
    | Write b =>
      refine ⟨?_, h.2.1, h.2.2.1, ?_⟩
      · rw [h.1]
        simp [ResponseWriter.step, CacheWriter.writer, CacheWriter.Write, writtenBytes]
      · show (w.Write b).2 :: CacheWriter.writer.results (w.Write b).1 calls = _
        have := (ih (w.Write b).1).2.2.2
        rw [this]
        rfl

theorem writtenBytes_eq (calls : List HandlerCall) :
    writtenBytes calls = (writeSlices calls).flatten := by
  induction calls with
  | nil => rfl
  | cons c calls ih => cases c <;> simp [writtenBytes, writeSlices, ih]

/-- Claim C13 (the capture sink is a complete record). For every sequence of calls
on a `CacheWriter` made by `NewCacheWriter`: the buffer `B` holds the concatenation
of all written slices in call order, `StatusCode` is the code of the last
`WriteHeader` (0 when there was none), `H` is what the header mutations made of
the empty map, and every `Write` returned `len(b)` and no error. A `WriteHeader`
changes neither `H` nor `B`, and a `Write` changes neither `StatusCode` nor `H`. -/
theorem capture_sink_complete_record (calls : List HandlerCall) :
    (CacheWriter.writer.run NewCacheWriter calls).B = (writeSlices calls).flatten ∧
    (CacheWriter.writer.run NewCacheWriter calls).StatusCode = lastStatus 0 calls ∧
    (CacheWriter.writer.run NewCacheWriter calls).H = headerAfter [] calls ∧
    CacheWriter.writer.results NewCacheWriter calls =
      (writeSlices calls).map (fun b => ((b.length : Int), none)) ∧
    (∀ (c : CacheWriter) (code : Int),
      (c.WriteHeader code).StatusCode = code ∧ (c.WriteHeader code).H = c.H ∧
        (c.WriteHeader code).B = c.B) ∧
    (∀ (c : CacheWriter) (b : Bytes),
      (c.Write b).1.B = c.B ++ b ∧ (c.Write b).2 = ((b.length : Int), none) ∧
        (c.Write b).1.StatusCode = c.StatusCode ∧ (c.Write b).1.H = c.H) := by
  have h := CacheWriter.run_record calls NewCacheWriter
  refine ⟨?_, h.2.1, h.2.2.1, h.2.2.2, fun c code => ⟨rfl, rfl, rfl⟩,
    fun c b => ⟨rfl, rfl, rfl, rfl⟩⟩
  rw [h.1, writtenBytes_eq]
  rfl


/-! ## Handlers -/

theorem Script.run_eq_calls (B : ResponseWriter ω) (s : Script) :
    ∀ w : ω, s.run B w = B.run w (s.calls B w) := by
  induction s with
  | done => intro w; rfl
  | Header m next ih => intro w; exact ih (B.Header m w)
  | WriteHeader code next ih => intro w; exact ih (B.WriteHeader code w)
  | Write b next ih => intro w; exact ih (B.Write b w).2 (B.Write b w).1

theorem Script.calls_ofCalls (B : ResponseWriter ω) (calls : List HandlerCall) :
    ∀ w : ω, (Script.ofCalls calls).calls B w = calls := by
  induction calls with
  | nil => intro w; rfl
  | cons c calls ih =>
    intro w
    cases c <;> simp [Script.ofCalls, Script.calls, ih]

theorem Recorder.run_eq (res : List WriterCall → Bytes → Int × Option Error)
    (calls : List HandlerCall) (log : List WriterCall) :
    (Recorder res).run log calls = log ++ calls.map HandlerCall.toWriterCall := by
  induction calls generalizing log with
  | nil => simp [ResponseWriter.run]
  | cons c calls ih =>
    have : (Recorder res).run log (c :: calls) =
        (Recorder res).run ((Recorder res).step log c) calls := rfl
    rw [this, ih]
    cases c <;> simp [ResponseWriter.step, Recorder, HandlerCall.toWriterCall]


/-! ## The authentication gate -/

theorem Handler.ServeHTTP_of_admits (h : Handler) (rt : Runtime) (B : ResponseWriter ω) (w : ω)
    (stdout : Bytes) (r : Request) (ha : h.Admits r) :
    h.ServeHTTP rt B w stdout r =
      h.dispatch rt B w stdout [LogEvent.handler r.Method r.URL r.Host] r := by
  unfold Handler.ServeHTTP
  rcases ha with hu | ⟨h1, h2⟩
  · simp [hu]
  · simp [h1, h2]

theorem Handler.dispatch_some (h : Handler) (rt : Runtime) (B : ResponseWriter ω) (w : ω)
    (stdout : Bytes) (log : List LogEvent) (r : Request) (next : URL)
    (hn : h.Next = some next) :
    h.dispatch rt B w stdout log r =
      if r.Method = "PROPFIND".toList then
        h.propfind next rt B w stdout log (localRequest next r) (localRequest next r)
          (remoteRequest next r)
      else
        h.fallthrough next B w stdout log (localRequest next r) (localRequest next r)
          (remoteRequest next r) := by
  unfold Handler.dispatch
  rw [hn]
  have hm : (localRequest next r).Method = r.Method := by
    unfold localRequest Request.SetBasicAuth
    split <;> rfl
  simp only
  show (if (localRequest next r).Method = _ then _ else _) = _
  rw [hm]
  rfl

theorem Handler.dispatch_invoked (h : Handler) (rt : Runtime) (B : ResponseWriter ω) (w : ω)
    (stdout : Bytes) (log : List LogEvent) (r : Request) :
    ∃ r1, (h.dispatch rt B w stdout log r).invoked.head? = some (Backend.Dav, r1) := by
  cases hn : h.Next with
  | none =>
    refine ⟨r, ?_⟩
    unfold Handler.dispatch
    rw [hn]
    rfl
  | some next =>
    refine ⟨localRequest next r, ?_⟩
    rw [Handler.dispatch_some h rt B w stdout log r next hn]
    split
    · unfold Handler.propfind
      simp only
      split <;> rfl
    · unfold Handler.fallthrough
      simp only
      split <;> rfl

/-- Counterexample to claim C14 as stated: a handler on which only a password is
set, and a request without any credentials. The gateway does not answer 401: the
local engine is invoked and the client gets its response. -/
theorem auth_gate_password_only_fails :
    (({ sampleHandler none [HandlerCall.WriteHeader 200, HandlerCall.Write (toBytes "ok".toList)]
          [] with Password := "secret".toList } : Handler).ServeHTTP sampleRuntime
        (Recorder okWrites) [] [] (sampleRequest "GET".toList)).w =
      [WriterCall.WriteHeader 200, WriterCall.Write (toBytes "ok".toList)] ∧
    (({ sampleHandler none [HandlerCall.WriteHeader 200, HandlerCall.Write (toBytes "ok".toList)]
          [] with Password := "secret".toList } : Handler).ServeHTTP sampleRuntime
        (Recorder okWrites) [] [] (sampleRequest "GET".toList)).invoked =
      [(Backend.Dav, sampleRequest "GET".toList)] ∧
    (sampleRequest "GET".toList).BasicAuth = none := by
  refine ⟨?_, ?_, rfl⟩ <;> rfl

/-- Claim C14, amended (the authentication gate is switched on by the user name).
For every handler, request and client writer: when a user name is configured and
the Basic credentials of the request are missing or differ from the configured
user name and password, `ServeHTTP` sets the header
`WWW-Authenticate: Basic realm=Dav Server`, writes the status 401 and the body
`unauthorized`, and invokes no backend; when a user name is configured and the
request carries the configured user name and password, `ServeHTTP` does what its
dispatch does, which invokes the local engine first; and when no user name is
configured there is no check at all, whatever the configured password and the
credentials of the request are. -/
theorem auth_gate (h : Handler) (rt : Runtime) (r : Request) :
    (h.Username ≠ [] → (r.credentials.1 ≠ h.Username ∨ r.credentials.2 ≠ h.Password) →
      (∀ (res : List WriterCall → Bytes → Int × Option Error) (w : List WriterCall)
          (stdout : Bytes),
        (h.ServeHTTP rt (Recorder res) w stdout r).w =
          w ++ [WriterCall.Header
              (HeaderMut.Set "WWW-Authenticate".toList "Basic realm=Dav Server".toList),
            WriterCall.WriteHeader 401, WriterCall.Write (toBytes "unauthorized".toList)] ∧
        (h.ServeHTTP rt (Recorder res) w stdout r).invoked = [])) ∧
    (h.Username ≠ [] → r.credentials.1 = h.Username → r.credentials.2 = h.Password →
      (∀ (res : List WriterCall → Bytes → Int × Option Error) (w : List WriterCall)
          (stdout : Bytes),
        h.ServeHTTP rt (Recorder res) w stdout r =
          h.dispatch rt (Recorder res) w stdout [LogEvent.handler r.Method r.URL r.Host] r ∧
        ∃ r1, (h.ServeHTTP rt (Recorder res) w stdout r).invoked.head? =
          some (Backend.Dav, r1))) ∧
    (h.Username = [] →
      (∀ (res : List WriterCall → Bytes → Int × Option Error) (w : List WriterCall)
          (stdout : Bytes),
        h.ServeHTTP rt (Recorder res) w stdout r =
          h.dispatch rt (Recorder res) w stdout [LogEvent.handler r.Method r.URL r.Host] r ∧
        ∃ r1, (h.ServeHTTP rt (Recorder res) w stdout r).invoked.head? =
          some (Backend.Dav, r1))) := by
  refine ⟨?_, ?_, ?_⟩
  · intro hu hc res w stdout
    have hpos : 0 < h.Username.length := List.length_pos.mpr hu
    unfold Handler.ServeHTTP
    simp only [hpos, if_true, hc]
    constructor
    · simp [Fprintf, ResponseWriter.toWriter, Recorder, StatusUnauthorized]
    · trivial
  · intro _ h1 h2 res w stdout
    have e := Handler.ServeHTTP_of_admits h rt (Recorder res) w stdout r (Or.inr ⟨h1, h2⟩)
    refine ⟨e, ?_⟩
    rw [e]
    exact Handler.dispatch_invoked h rt _ w stdout _ r
  · intro hu res w stdout
    have e := Handler.ServeHTTP_of_admits h rt (Recorder res) w stdout r (Or.inl hu)
    refine ⟨e, ?_⟩
    rw [e]
    exact Handler.dispatch_invoked h rt _ w stdout _ r


/-! ## The merger on the bytes of the strings -/

theorem Raw.splitAtFirst_eq_some_raw {pat : Bytes} : ∀ {s b a : Bytes},
    Raw.splitAtFirst pat s = some (b, a) → s = b ++ pat ++ a := by
  intro s
  induction s with
  | nil =>
    intro b a h
    simp only [Raw.splitAtFirst] at h
    split at h
    · next hp => cases h; simp [hp]
    · cases h
  | cons c cs ih =>
    intro b a h
    simp only [Raw.splitAtFirst] at h
    split at h
    · next hp =>
      cases h
      have hp2 : pat <+: c :: cs := List.isPrefixOf_iff_prefix.mp hp
      simpa using (List.prefix_iff_eq_append.mp hp2).symm
    · next hp =>
      cases hrec : Raw.splitAtFirst pat cs with
      | none => simp [hrec] at h
      | some r =>
        obtain ⟨b0, a0⟩ := r
        simp only [hrec] at h
        cases h
        simp [ih hrec]

theorem Raw.Regexp.find_eq_some_raw {re : Raw.Regexp} {s b m a : Bytes}
    (h : re.find s = some (b, m, a)) :
    ∃ body, m = re.left ++ body ++ re.right ∧ s = b ++ m ++ a := by
  unfold Raw.Regexp.find at h
  cases h1 : Raw.splitAtFirst re.left s with
  | none => simp [h1] at h
  | some r1 =>
    obtain ⟨b1, rest⟩ := r1
    simp only [h1] at h
    cases h2 : Raw.splitAtFirst re.right rest with
    | none => simp [h2] at h
    | some r2 =>
      obtain ⟨body, a2⟩ := r2
      simp only [h2, Option.some.injEq, Prod.mk.injEq] at h
      obtain ⟨rfl, rfl, rfl⟩ := h
      have e1 := Raw.splitAtFirst_eq_some_raw h1
      have e2 := Raw.splitAtFirst_eq_some_raw h2
      refine ⟨body, rfl, ?_⟩
      rw [e1, e2]; simp

theorem Raw.Regexp.find_length_raw {re : Raw.Regexp} {s b m a : Bytes}
    (h : re.find s = some (b, m, a)) :
    s.length = b.length + m.length + a.length ∧ re.left.length + re.right.length ≤ m.length := by
  obtain ⟨body, hm, hs⟩ := Raw.Regexp.find_eq_some_raw h
  constructor
  · rw [hs]; simp; omega
  · rw [hm]; simp

/-- More fuel than the number of bytes does not change the matches: a match is never
empty, so the fuel of `FindAllString` is never used up. -/
theorem Raw.Regexp.allMatches_fuel_raw {re : Raw.Regexp}
    (hre : 0 < re.left.length + re.right.length) :
    ∀ (n : Nat) (s : Bytes), s.length ≤ n → re.allMatches n s = re.allMatches s.length s := by
  intro n
  induction n using Nat.strong_induction_on with
  | _ n ih =>
    intro s hn
    cases n with
    | zero =>
      have : s.length = 0 := by omega
      rw [this]
    | succ k =>
      cases hs : s.length with
      | zero =>
        have hs0 : s = [] := List.length_eq_zero.mp hs
        subst hs0
        simp only [Raw.Regexp.allMatches]
        cases hf : re.find [] with
        | none => rfl
        | some r =>
          obtain ⟨b, m, a⟩ := r
          have := Raw.Regexp.find_length_raw hf
          simp at this
          omega
      | succ j =>
        simp only [Raw.Regexp.allMatches]
        cases hf : re.find s with
        | none => rfl
        | some r =>
          obtain ⟨b, m, a⟩ := r
          have hl := Raw.Regexp.find_length_raw hf
          simp only
          rw [ih k (Nat.lt_succ_self k) a (by omega), ih j (by omega) a (by omega)]

/-- The matches of a document are the leftmost match and then the matches of what
follows it. -/
theorem Raw.Regexp.FindAllString_eq_raw {re : Raw.Regexp}
    (hre : 0 < re.left.length + re.right.length) (s : Bytes) :
    re.FindAllString s =
      match re.find s with
      | none => []
      | some (_, m, after) => m :: re.FindAllString after := by
  unfold Raw.Regexp.FindAllString
  cases hs : s.length with
  | zero =>
    have hs0 : s = [] := List.length_eq_zero.mp hs
    subst hs0
    cases hf : re.find [] with
    | none => rfl
    | some r =>
      obtain ⟨b, m, a⟩ := r
      have := Raw.Regexp.find_length_raw hf
      simp at this
      omega
  | succ j =>
    simp only [Raw.Regexp.allMatches]
    cases hf : re.find s with
    | none => rfl
    | some r =>
      obtain ⟨b, m, a⟩ := r
      have hl := Raw.Regexp.find_length_raw hf
      simp only
      rw [Raw.Regexp.allMatches_fuel_raw hre j a (by omega)]

theorem Raw.Regexp.replaceAll_fst_raw (re : Raw.Regexp) (f : σ → Bytes → σ) :
    ∀ (n : Nat) (s : Bytes) (st : σ),
      (re.replaceAll (fun q m => (f q m, [])) n s st).1 = (re.allMatches n s).foldl f st := by
  intro n
  induction n with
  | zero => intro s st; rfl
  | succ n ih =>
    intro s st
    simp only [Raw.Regexp.replaceAll, Raw.Regexp.allMatches]
    cases hf : re.find s with
    | none => rfl
    | some r =>
      obtain ⟨b, m, a⟩ := r
      simp only [List.foldl_cons]
      exact ih a (f st m)

/-- Every match is a piece of the bytes searched. -/
theorem Raw.Regexp.allMatches_piece_raw (re : Raw.Regexp) :
    ∀ (n : Nat) (s : Bytes), ∀ m ∈ re.allMatches n s, m <:+: s := by
  intro n
  induction n with
  | zero => intro s m hm; cases hm
  | succ n ih =>
    intro s m hm
    simp only [Raw.Regexp.allMatches] at hm
    cases hf : re.find s with
    | none => rw [hf] at hm; cases hm
    | some r =>
      obtain ⟨b, m0, a⟩ := r
      rw [hf] at hm
      obtain ⟨body, -, hs⟩ := Raw.Regexp.find_eq_some_raw hf
      rcases List.mem_cons.mp hm with h | h
      · subst h
        exact ⟨b, a, hs.symm⟩
      · have := ih a m h
        exact this.trans ⟨b ++ m0, [], by rw [hs]; simp⟩

/-- The method `Append` hands the matches of `p.response` in `data` to the callback,
one after the other. -/
theorem Raw.Propfind.Append_eq_raw (p : Raw.Propfind) (data : Bytes) :
    p.Append data = (p.response.FindAllString data).foldl Raw.Propfind.store p :=
  Raw.Regexp.replaceAll_fst_raw p.response Raw.Propfind.store data.length data p

theorem Raw.Propfind.store_href_raw (p : Raw.Propfind) (s : Bytes) :
    (p.store s).href = p.href := by
  unfold Raw.Propfind.store; simp only; split <;> rfl

theorem Raw.Propfind.store_response_raw (p : Raw.Propfind) (s : Bytes) :
    (p.store s).response = p.response := by
  unfold Raw.Propfind.store; simp only; split <;> rfl

theorem Raw.Propfind.hrefOf_congr_raw {p q : Raw.Propfind} (h : p.href = q.href) (s : Bytes) :
    p.hrefOf s = q.hrefOf s := by
  unfold Raw.Propfind.hrefOf; rw [h]

theorem Raw.Propfind.store_items_raw (p : Raw.Propfind) (s : Bytes) :
    (p.store s).items =
      if (p.items.lookup (p.hrefOf s)).isSome then p.items
      else p.items ++ [(p.hrefOf s, s)] := by
  unfold Raw.Propfind.store; simp only; split <;> rfl

theorem Raw.Propfind.foldl_store_href_raw (fs : List Bytes) (p : Raw.Propfind) :
    (fs.foldl Raw.Propfind.store p).href = p.href := by
  induction fs generalizing p with
  | nil => rfl
  | cons f fs ih => rw [List.foldl_cons, ih, Raw.Propfind.store_href_raw]

theorem Raw.Propfind.foldl_store_response_raw (fs : List Bytes) (p : Raw.Propfind) :
    (fs.foldl Raw.Propfind.store p).response = p.response := by
  induction fs generalizing p with
  | nil => rfl
  | cons f fs ih => rw [List.foldl_cons, ih, Raw.Propfind.store_response_raw]

theorem Raw.Propfind.lookup_store_raw (p : Raw.Propfind) (s k : Bytes) :
    (p.store s).items.lookup k =
      (p.items.lookup k).or (if p.hrefOf s = k then some s else none) := by
  rw [Raw.Propfind.store_items_raw]
  by_cases hk : p.hrefOf s = k
  · subst hk
    cases hl : p.items.lookup (p.hrefOf s) with
    | some v => simp [hl]
    | none => simp [hl, List.lookup_append, List.lookup_cons]
  · have hk2 : (k == p.hrefOf s) = false := by
      simp only [beq_eq_false_iff_ne, ne_eq]
      exact fun h => hk h.symm
    split
    · simp [hk, Option.or_none]
    · simp [hk, List.lookup_append, List.lookup_cons, hk2]

theorem Raw.Propfind.lookup_foldl_store_raw (fs : List Bytes) (p : Raw.Propfind) (k : Bytes) :
    (fs.foldl Raw.Propfind.store p).items.lookup k =
      (p.items.lookup k).or (fs.find? (fun f => p.hrefOf f == k)) := by
  induction fs generalizing p with
  | nil => simp [Option.or_none]
  | cons f fs ih =>
    rw [List.foldl_cons, ih (p.store f), Raw.Propfind.lookup_store_raw, Option.or_assoc]
    have hh : ∀ t, (p.store f).hrefOf t = p.hrefOf t :=
      fun t => Raw.Propfind.hrefOf_congr_raw (Raw.Propfind.store_href_raw p f) t
    simp only [hh]
    congr 1
    by_cases hk : p.hrefOf f = k
    · simp [hk]
    · simp [hk]

theorem Raw.Propfind.mem_items_foldl_store_raw (fs : List Bytes) (p : Raw.Propfind)
    (e : Bytes × Bytes) (he : e ∈ (fs.foldl Raw.Propfind.store p).items) :
    e ∈ p.items ∨ ∃ f ∈ fs, e = (p.hrefOf f, f) := by
  induction fs generalizing p with
  | nil => exact Or.inl he
  | cons f fs ih =>
    rw [List.foldl_cons] at he
    rcases ih (p.store f) he with h | ⟨g, hg, hge⟩
    · rw [Raw.Propfind.store_items_raw] at h
      split at h
      · exact Or.inl h
      · rcases List.mem_append.mp h with h2 | h2
        · exact Or.inl h2
        · rw [List.mem_singleton] at h2
          exact Or.inr ⟨f, List.mem_cons_self _ _, h2⟩
    · refine Or.inr ⟨g, List.mem_cons_of_mem _ hg, ?_⟩
      rw [hge, Raw.Propfind.hrefOf_congr_raw (Raw.Propfind.store_href_raw p f)]

theorem Raw.NewPropfind_compiled_raw : Raw.NewPropfind.Compiled := ⟨rfl, rfl⟩

theorem Raw.Propfind.Append_compiled_raw {p : Raw.Propfind} (h : p.Compiled) (d : Bytes) :
    (p.Append d).Compiled := by
  rw [Raw.Propfind.Append_eq_raw]
  exact ⟨(Raw.Propfind.foldl_store_response_raw _ p).trans h.1,
    (Raw.Propfind.foldl_store_href_raw _ p).trans h.2⟩

theorem Raw.Propfind.Compiled.hrefOf_raw {p : Raw.Propfind} (h : p.Compiled) (s : Bytes) :
    p.hrefOf s = Raw.hrefKey s := Raw.Propfind.hrefOf_congr_raw h.2 s

theorem Raw.Propfind.Compiled.fragments_raw {p : Raw.Propfind} (h : p.Compiled) (d : Bytes) :
    p.response.FindAllString d = Raw.fragments d := by
  rw [h.1]; rfl

/-- First seen wins, on the bytes: after `Append` of the body `d`, a key holds what
it held before, and a key that was not held holds the first fragment of `d` with
that key. -/
theorem Raw.Propfind.Compiled.lookup_Append_raw {p : Raw.Propfind} (h : p.Compiled)
    (d k : Bytes) :
    (p.Append d).items.lookup k = (p.items.lookup k).or (Raw.firstWithKey d k) := by
  rw [Raw.Propfind.Append_eq_raw]
  rw [Raw.Propfind.lookup_foldl_store_raw, h.fragments_raw]
  simp only [h.hrefOf_raw]
  rfl

/-- Every entry that `Append` adds holds a fragment of the appended body, under the
key of the fragment. -/
theorem Raw.Propfind.Compiled.mem_items_Append_raw {p : Raw.Propfind} (h : p.Compiled)
    (d : Bytes) (e : Bytes × Bytes) (he : e ∈ (p.Append d).items) :
    e ∈ p.items ∨ (e.2 ∈ Raw.fragments d ∧ e.1 = Raw.hrefKey e.2) := by
  rw [Raw.Propfind.Append_eq_raw, h.fragments_raw] at he
  rcases Raw.Propfind.mem_items_foldl_store_raw _ p e he with h2 | ⟨f, hf, hfe⟩
  · exact Or.inl h2
  · refine Or.inr ⟨?_, ?_⟩
    · rw [hfe]; exact hf
    · rw [hfe]; exact h.hrefOf_raw f

theorem Raw.mem_fragments_piece_raw {d f : Bytes} (h : f ∈ Raw.fragments d) : f <:+: d :=
  Raw.Regexp.allMatches_piece_raw Raw.NewPropfind.response d.length d f h


/-! ## White space on the bytes -/

theorem Raw.spaceEncodings_pos : ∀ e ∈ Raw.spaceEncodings, 0 < e.length := by decide

theorem Raw.leadingSpace_some {s e : Bytes} (h : Raw.leadingSpace s = some e) :
    0 < e.length ∧ e <+: s := by
  unfold Raw.leadingSpace at h
  have h1 := List.mem_of_find?_eq_some h
  have h2 := List.find?_some h
  exact ⟨Raw.spaceEncodings_pos e h1, List.isPrefixOf_iff_prefix.mp h2⟩

theorem Raw.trailingSpace_some {s e : Bytes} (h : Raw.trailingSpace s = some e) :
    0 < e.length ∧ e <:+ s := by
  unfold Raw.trailingSpace at h
  have h1 := List.mem_of_find?_eq_some h
  have h2 := List.find?_some h
  exact ⟨Raw.spaceEncodings_pos e h1, List.isSuffixOf_iff_suffix.mp h2⟩

/-- More fuel than the number of bytes does not change what `trimLeft` returns, and
what it returns starts with no white space rune: the fuel of `TrimSpace` is
never used up. -/
theorem Raw.trimLeft_fuel : ∀ (n : Nat) (s : Bytes), s.length ≤ n →
    Raw.trimLeft n s = Raw.trimLeft s.length s ∧ Raw.leadingSpace (Raw.trimLeft n s) = none := by
  intro n
  induction n using Nat.strong_induction_on with
  | _ n ih =>
    intro s hn
    cases n with
    | zero =>
      have h0 : s = [] := List.length_eq_zero.mp (by omega)
      subst h0
      exact ⟨rfl, by decide⟩
    | succ k =>
      cases hl : Raw.leadingSpace s with
      | none =>
        have e1 : Raw.trimLeft (k + 1) s = s := by simp [Raw.trimLeft, hl]
        have e2 : Raw.trimLeft s.length s = s := by
          cases hs : s.length with
          | zero => rfl
          | succ j => simp [Raw.trimLeft, hl]
        rw [e1, e2]
        exact ⟨rfl, hl⟩
      | some e =>
        obtain ⟨hpos, hpre⟩ := Raw.leadingSpace_some hl
        have hle := hpre.length_le
        have hd : (s.drop e.length).length < s.length := by
          rw [List.length_drop]; omega
        have e1 : Raw.trimLeft (k + 1) s = Raw.trimLeft k (s.drop e.length) := by
          simp [Raw.trimLeft, hl]
        have e2 : Raw.trimLeft s.length s = Raw.trimLeft (s.length - 1) (s.drop e.length) := by
          cases hs : s.length with
          | zero => omega
          | succ j => simp [Raw.trimLeft, hl]
        have i1 := ih k (Nat.lt_succ_self k) (s.drop e.length) (by omega)
        have i2 := ih (s.length - 1) (by omega) (s.drop e.length) (by omega)
        rw [e1, e2, i1.1, i2.1]
        refine ⟨rfl, ?_⟩
        rw [← i1.1]
        exact i1.2

/-- More fuel than the number of bytes does not change what `trimRight` returns, and
what it returns ends with no white space rune. -/
theorem Raw.trimRight_fuel : ∀ (n : Nat) (s : Bytes), s.length ≤ n →
    Raw.trimRight n s = Raw.trimRight s.length s ∧
      Raw.trailingSpace (Raw.trimRight n s) = none := by
  intro n
  induction n using Nat.strong_induction_on with
  | _ n ih =>
    intro s hn
    cases n with
    | zero =>
      have h0 : s = [] := List.length_eq_zero.mp (by omega)
      subst h0
      exact ⟨rfl, by decide⟩
    | succ k =>
      cases hl : Raw.trailingSpace s with
      | none =>
        have e1 : Raw.trimRight (k + 1) s = s := by simp [Raw.trimRight, hl]
        have e2 : Raw.trimRight s.length s = s := by
          cases hs : s.length with
          | zero => rfl
          | succ j => simp [Raw.trimRight, hl]
        rw [e1, e2]
        exact ⟨rfl, hl⟩
      | some e =>
        obtain ⟨hpos, hsuf⟩ := Raw.trailingSpace_some hl
        have hle := hsuf.length_le
        have hd : (s.take (s.length - e.length)).length < s.length := by
          rw [List.length_take]; omega
        have e1 : Raw.trimRight (k + 1) s = Raw.trimRight k (s.take (s.length - e.length)) := by
          simp [Raw.trimRight, hl]
        have e2 : Raw.trimRight s.length s =
            Raw.trimRight (s.length - 1) (s.take (s.length - e.length)) := by
          have hs : s.length = (s.length - 1) + 1 := by omega
          generalize s.length - 1 = j at hs ⊢
          rw [hs]
          simp only [Raw.trimRight, hl]
          rw [← hs]
        have i1 := ih k (Nat.lt_succ_self k) (s.take (s.length - e.length)) (by omega)
        have i2 := ih (s.length - 1) (by omega) (s.take (s.length - e.length)) (by omega)
        rw [e1, e2, i1.1, i2.1]
        refine ⟨rfl, ?_⟩
        rw [← i1.1]
        exact i1.2

/-- What `trimRight` returns is the start of what it was given. -/
theorem Raw.trimRight_start : ∀ (n : Nat) (s : Bytes), Raw.trimRight n s <+: s := by
  intro n
  induction n with
  | zero => intro s; exact List.prefix_refl _
  | succ n ih =>
    intro s
    simp only [Raw.trimRight]
    cases hl : Raw.trailingSpace s with
    | none => exact List.prefix_refl _
    | some e => exact (ih _).trans (List.take_prefix _ _)

/-- What `trimLeft` returns is the end of what it was given. -/
theorem Raw.trimLeft_end : ∀ (n : Nat) (s : Bytes), Raw.trimLeft n s <:+ s := by
  intro n
  induction n with
  | zero => intro s; exact List.suffix_refl _
  | succ n ih =>
    intro s
    simp only [Raw.trimLeft]
    cases hl : Raw.leadingSpace s with
    | none => exact List.suffix_refl _
    | some e => exact (ih _).trans (List.drop_suffix _ _)

/-- The function `TrimSpace` returns a piece of its argument that neither starts nor
ends with a white space rune, unless it is empty. -/
theorem Raw.TrimSpace_trimmed_raw (s : Bytes) :
    Raw.TrimSpace s <:+: s ∧
    (Raw.TrimSpace s = [] ∨
      (Raw.leadingSpace (Raw.TrimSpace s) = none ∧ Raw.trailingSpace (Raw.TrimSpace s) = none)) := by
  have hL := Raw.trimLeft_fuel s.length s (Nat.le_refl _)
  have hR := Raw.trimRight_fuel (Raw.trimLeft s.length s).length (Raw.trimLeft s.length s)
    (Nat.le_refl _)
  have hpre := Raw.trimRight_start (Raw.trimLeft s.length s).length (Raw.trimLeft s.length s)
  have hsuf := Raw.trimLeft_end s.length s
  refine ⟨hpre.isInfix.trans hsuf.isInfix, ?_⟩
  by_cases hemp : Raw.TrimSpace s = []
  · exact Or.inl hemp
  · refine Or.inr ⟨?_, hR.2⟩
    unfold Raw.leadingSpace
    rw [List.find?_eq_none]
    intro e he hpe
    have hpe2 : e <+: Raw.trimLeft s.length s :=
      (List.isPrefixOf_iff_prefix.mp hpe).trans hpre
    have hnone := hL.2
    unfold Raw.leadingSpace at hnone
    rw [List.find?_eq_none] at hnone
    exact hnone e he (List.isPrefixOf_iff_prefix.mpr hpe2)

/-- The runes listed in `spaceRunes` are the ones for which `isSpace` holds. -/
theorem Raw.isSpace_iff_mem_spaceRunes (c : Char) :
    isSpace c = true ↔ c.toNat ∈ Raw.spaceRunes := by
  unfold isSpace Raw.spaceRunes
  simp only [Bool.or_eq_true, Bool.and_eq_true, decide_eq_true_eq, beq_iff_eq, List.mem_cons,
    List.mem_singleton, List.not_mem_nil, or_false]
  omega

set_option maxRecDepth 100000 in
/-- The function `TrimSpace` on bytes that are not all UTF-8: white space runes of one,
two and three bytes are removed at both ends; the bytes A0 and 85 alone are not
the runes U+00A0 and U+0085; after the three bytes of U+2000 a fourth byte 80 is
a rune of its own; and the byte C2 without its second byte is no white space. -/
theorem Raw.TrimSpace_examples :
    Raw.TrimSpace [0x20, 0xC2, 0xA0, 0x2F, 0x61, 0xE3, 0x80, 0x80, 0x0A] = [0x2F, 0x61] ∧
    Raw.TrimSpace [0xA0, 0x2F, 0x61, 0x85] = [0xA0, 0x2F, 0x61, 0x85] ∧
    Raw.TrimSpace [0xE2, 0x80, 0x80, 0x80] = [0x80] ∧
    Raw.TrimSpace [0x2F, 0xC2, 0x20] = [0x2F, 0xC2] := by
  decide

/-! ## UTF-8: the merger on the bytes extends the merger on the texts -/

theorem byte_toNat_lor (a b : UInt8) : (a ||| b).toNat = a.toNat ||| b.toNat := by
  show (a.toBitVec ||| b.toBitVec).toNat = _
  exact BitVec.toNat_or _ _

theorem byte_toNat_land (a b : UInt8) : (a &&& b).toNat = a.toNat &&& b.toNat := by
  show (a.toBitVec &&& b.toBitVec).toNat = _
  exact BitVec.toNat_and _ _

theorem word_toNat_toUInt8 (v : UInt32) : v.toUInt8.toNat = v.toNat % 256 := by
  show (BitVec.ofNat 8 v.toNat).toNat = _
  simp

theorem word_toNat_shiftRight_6 (v : UInt32) : (v >>> 6).toNat = v.toNat / 64 := by
  show (v.toBitVec >>> ((6 : UInt32).mod 32).toBitVec).toNat = _
  have : ((6 : UInt32).mod 32).toBitVec = BitVec.ofNat 32 6 := by decide
  rw [this]
  simp [Nat.shiftRight_eq_div_pow]
  rfl

theorem word_toNat_shiftRight_12 (v : UInt32) : (v >>> 12).toNat = v.toNat / 4096 := by
  show (v.toBitVec >>> ((12 : UInt32).mod 32).toBitVec).toNat = _
  have : ((12 : UInt32).mod 32).toBitVec = BitVec.ofNat 32 12 := by decide
  rw [this]
  simp [Nat.shiftRight_eq_div_pow]
  rfl

theorem word_toNat_shiftRight_18 (v : UInt32) : (v >>> 18).toNat = v.toNat / 262144 := by
  show (v.toBitVec >>> ((18 : UInt32).mod 32).toBitVec).toNat = _
  have : ((18 : UInt32).mod 32).toBitVec = BitVec.ofNat 32 18 := by decide
  rw [this]
  simp [Nat.shiftRight_eq_div_pow]
  rfl

theorem continuation_byte (x : UInt8) : (x &&& 63 ||| 128).toNat = 128 + x.toNat % 64 := by
  rw [byte_toNat_lor, byte_toNat_land]
  have h1 : x.toNat &&& (63 : UInt8).toNat = x.toNat % 64 := Nat.and_pow_two_sub_one_eq_mod _ 6
  rw [h1]
  have h2 : ∀ m < 64, m ||| (128 : UInt8).toNat = 128 + m := by decide
  exact h2 _ (Nat.mod_lt _ (by decide))

theorem leading_byte_of_two (x : UInt8) : (x &&& 31 ||| 192).toNat = 192 + x.toNat % 32 := by
  rw [byte_toNat_lor, byte_toNat_land]
  have h1 : x.toNat &&& (31 : UInt8).toNat = x.toNat % 32 := Nat.and_pow_two_sub_one_eq_mod _ 5
  rw [h1]
  have h2 : ∀ m < 32, m ||| (192 : UInt8).toNat = 192 + m := by decide
  exact h2 _ (Nat.mod_lt _ (by decide))

theorem leading_byte_of_three (x : UInt8) : (x &&& 15 ||| 224).toNat = 224 + x.toNat % 16 := by
  rw [byte_toNat_lor, byte_toNat_land]
  have h1 : x.toNat &&& (15 : UInt8).toNat = x.toNat % 16 := Nat.and_pow_two_sub_one_eq_mod _ 4
  rw [h1]
  have h2 : ∀ m < 16, m ||| (224 : UInt8).toNat = 224 + m := by decide
  exact h2 _ (Nat.mod_lt _ (by decide))

theorem leading_byte_of_four (x : UInt8) : (x &&& 7 ||| 240).toNat = 240 + x.toNat % 8 := by
  rw [byte_toNat_lor, byte_toNat_land]
  have h1 : x.toNat &&& (7 : UInt8).toNat = x.toNat % 8 := Nat.and_pow_two_sub_one_eq_mod _ 3
  rw [h1]
  have h2 : ∀ m < 8, m ||| (240 : UInt8).toNat = 240 + m := by decide
  exact h2 _ (Nat.mod_lt _ (by decide))

theorem char_toNat_lt (c : Char) : c.toNat < 1114112 := by
  have hv : c.toNat = c.val.toNat := rfl
  rcases c.valid with h | h
  · have : c.val.toNat < 55296 := h
    omega
  · have : c.val.toNat < 1114112 := h.2
    omega

/-- The bytes of the UTF-8 encoding of a character, as numbers. -/
theorem utf8EncodeChar_toNat (c : Char) :
    (String.utf8EncodeChar c).map UInt8.toNat =
      if c.toNat ≤ 127 then [c.toNat]
      else if c.toNat ≤ 2047 then [192 + c.toNat / 64, 128 + c.toNat % 64]
      else if c.toNat ≤ 65535 then
        [224 + c.toNat / 4096, 128 + c.toNat / 64 % 64, 128 + c.toNat % 64]
      else [240 + c.toNat / 262144, 128 + c.toNat / 4096 % 64, 128 + c.toNat / 64 % 64,
        128 + c.toNat % 64] := by
  have hv : c.toNat = c.val.toNat := rfl
  have hlt := char_toNat_lt c
  have le_iff : ∀ k : UInt32, (c.val ≤ k) ↔ c.toNat ≤ k.toNat := fun k => Iff.rfl
  unfold String.utf8EncodeChar
  simp only [le_iff]
  have e127 : (127 : UInt32).toNat = 127 := rfl
  have e2047 : (2047 : UInt32).toNat = 2047 := rfl
  have e65535 : (65535 : UInt32).toNat = 65535 := rfl
  rw [e127, e2047, e65535]
  split
  · next h =>
    simp only [List.map_cons, List.map_nil, word_toNat_toUInt8, ← hv]
    congr 1
    omega
  · split
    · next h1 h2 =>
      simp only [List.map_cons, List.map_nil, continuation_byte, leading_byte_of_two,
        word_toNat_toUInt8, word_toNat_shiftRight_6, ← hv]
      congr 1
      · omega
      · congr 1
        omega
    · split
      · next h1 h2 h3 =>
        simp only [List.map_cons, List.map_nil, continuation_byte, leading_byte_of_three,
          word_toNat_toUInt8, word_toNat_shiftRight_6, word_toNat_shiftRight_12, ← hv]
        congr 1
        · omega
        · congr 1
          · omega
          · congr 1
            omega
      · next h1 h2 h3 =>
        simp only [List.map_cons, List.map_nil, continuation_byte, leading_byte_of_four,
          word_toNat_toUInt8, word_toNat_shiftRight_6, word_toNat_shiftRight_12,
          word_toNat_shiftRight_18, ← hv]
        congr 1
        · omega
        · congr 1
          · omega
          · congr 1
            · omega
            · congr 1
              omega

/-- The shape of the UTF-8 encoding of a character: one byte below 128, or a first
byte from 192 on followed by one to three bytes between 128 and 191; the bytes
determine the character. -/
theorem utf8EncodeChar_cases (c : Char) :
    (c.toNat ≤ 127 ∧ (String.utf8EncodeChar c).map UInt8.toNat = [c.toNat]) ∨
    (128 ≤ c.toNat ∧ ∃ b0 b1 : Nat, (String.utf8EncodeChar c).map UInt8.toNat = [b0, b1] ∧
      194 ≤ b0 ∧ b0 ≤ 223 ∧ 128 ≤ b1 ∧ b1 ≤ 191 ∧ c.toNat = (b0 - 192) * 64 + (b1 - 128)) ∨
    (128 ≤ c.toNat ∧ ∃ b0 b1 b2 : Nat,
      (String.utf8EncodeChar c).map UInt8.toNat = [b0, b1, b2] ∧
      224 ≤ b0 ∧ b0 ≤ 239 ∧ 128 ≤ b1 ∧ b1 ≤ 191 ∧ 128 ≤ b2 ∧ b2 ≤ 191 ∧
      c.toNat = (b0 - 224) * 4096 + (b1 - 128) * 64 + (b2 - 128)) ∨
    (128 ≤ c.toNat ∧ ∃ b0 b1 b2 b3 : Nat,
      (String.utf8EncodeChar c).map UInt8.toNat = [b0, b1, b2, b3] ∧
      240 ≤ b0 ∧ b0 ≤ 247 ∧ 128 ≤ b1 ∧ b1 ≤ 191 ∧ 128 ≤ b2 ∧ b2 ≤ 191 ∧ 128 ≤ b3 ∧ b3 ≤ 191 ∧
      c.toNat = (b0 - 240) * 262144 + (b1 - 128) * 4096 + (b2 - 128) * 64 + (b3 - 128)) := by
  have h := utf8EncodeChar_toNat c
  have hlt := char_toNat_lt c
  by_cases h1 : c.toNat ≤ 127
  · rw [if_pos h1] at h
    exact Or.inl ⟨h1, h⟩
  · rw [if_neg h1] at h
    by_cases h2 : c.toNat ≤ 2047
    · rw [if_pos h2] at h
      exact Or.inr (Or.inl ⟨by omega, _, _, h, by omega, by omega, by omega, by omega, by omega⟩)
    · rw [if_neg h2] at h
      by_cases h3 : c.toNat ≤ 65535
      · rw [if_pos h3] at h
        exact Or.inr (Or.inr (Or.inl ⟨by omega, _, _, _, h, by omega, by omega, by omega,
          by omega, by omega, by omega, by omega⟩))
      · rw [if_neg h3] at h
        exact Or.inr (Or.inr (Or.inr ⟨by omega, _, _, _, _, h, by omega, by omega, by omega,
          by omega, by omega, by omega, by omega, by omega, by omega⟩))


theorem char_eq_of_toNat_eq {c d : Char} (h : c.toNat = d.toNat) : c = d := by
  rw [← Char.ofNat_toNat c, ← Char.ofNat_toNat d, h]

/-- A character below 128 is encoded as the one byte of its code. -/
theorem utf8EncodeChar_ascii {c : Char} (h : c.toNat ≤ 127) :
    ∃ b : UInt8, String.utf8EncodeChar c = [b] ∧ b.toNat = c.toNat := by
  have h1 := utf8EncodeChar_toNat c
  rw [if_pos h] at h1
  cases he : String.utf8EncodeChar c with
  | nil => rw [he] at h1; cases h1
  | cons b rest =>
    rw [he] at h1
    simp only [List.map_cons, List.cons.injEq, List.map_eq_nil_iff] at h1
    exact ⟨b, by rw [h1.2], h1.1⟩

/-- The encoding of a character starts with a byte below 128 or from 192 on, and
goes on with bytes between 128 and 191; the first byte is below 128 exactly for
the characters below 128, whose encoding has no other byte. -/
theorem utf8EncodeChar_shape (c : Char) :
    ∃ (b0 : UInt8) (rest : Bytes), String.utf8EncodeChar c = b0 :: rest ∧
      (∀ b ∈ rest, 128 ≤ b.toNat ∧ b.toNat ≤ 191) ∧
      ((c.toNat ≤ 127 ∧ b0.toNat = c.toNat ∧ rest = []) ∨ (128 ≤ c.toNat ∧ 192 ≤ b0.toNat)) := by
  cases he : String.utf8EncodeChar c with
  | nil =>
    have := utf8EncodeChar_cases c
    rw [he] at this
    simp at this
  | cons b0 rest =>
    refine ⟨b0, rest, rfl, ?_, ?_⟩
    · have := utf8EncodeChar_cases c
      rw [he] at this
      intro b hb
      have hb2 : b.toNat ∈ rest.map UInt8.toNat := List.mem_map_of_mem _ hb
      rcases this with ⟨-, h⟩ | ⟨-, x0, x1, h, h2⟩ | ⟨-, x0, x1, x2, h, h2⟩ |
        ⟨-, x0, x1, x2, x3, h, h2⟩
      · simp only [List.map_cons, List.cons.injEq, List.map_eq_nil_iff] at h
        rw [h.2] at hb
        cases hb
      · simp only [List.map_cons, List.cons.injEq] at h
        rw [h.2] at hb2
        simp only [List.mem_singleton] at hb2
        omega
      · simp only [List.map_cons, List.cons.injEq] at h
        rw [h.2] at hb2
        simp only [List.mem_cons, List.mem_singleton, List.not_mem_nil, or_false] at hb2
        omega
      · simp only [List.map_cons, List.cons.injEq] at h
        rw [h.2] at hb2
        simp only [List.mem_cons, List.mem_singleton, List.not_mem_nil, or_false] at hb2
        omega
    · have := utf8EncodeChar_cases c
      rw [he] at this
      rcases this with ⟨h0, h⟩ | ⟨h0, x0, x1, h, h2⟩ | ⟨h0, x0, x1, x2, h, h2⟩ |
        ⟨h0, x0, x1, x2, x3, h, h2⟩
      · simp only [List.map_cons, List.cons.injEq, List.map_eq_nil_iff] at h
        exact Or.inl ⟨h0, h.1, h.2⟩
      · simp only [List.map_cons, List.cons.injEq] at h
        exact Or.inr ⟨h0, by omega⟩
      · simp only [List.map_cons, List.cons.injEq] at h
        exact Or.inr ⟨h0, by omega⟩
      · simp only [List.map_cons, List.cons.injEq] at h
        exact Or.inr ⟨h0, by omega⟩

/-- No encoding is the start of another one: two texts that start with the same
bytes start with the same character. -/
theorem utf8EncodeChar_unique {c d : Char} {x y : Bytes}
    (h : String.utf8EncodeChar c ++ x = String.utf8EncodeChar d ++ y) : c = d ∧ x = y := by
  have hn := congrArg (List.map UInt8.toNat) h
  rw [List.map_append, List.map_append] at hn
  have hcd : c = d := by
    apply char_eq_of_toNat_eq
    rcases utf8EncodeChar_cases c with ⟨c0, hc⟩ | ⟨c0, p0, p1, hc, hc2⟩ |
        ⟨c0, p0, p1, p2, hc, hc2⟩ | ⟨c0, p0, p1, p2, p3, hc, hc2⟩ <;>
      rcases utf8EncodeChar_cases d with ⟨d0, hd⟩ | ⟨d0, q0, q1, hd, hd2⟩ |
        ⟨d0, q0, q1, q2, hd, hd2⟩ | ⟨d0, q0, q1, q2, q3, hd, hd2⟩ <;>
      rw [hc, hd] at hn <;>
      simp only [List.cons_append, List.nil_append, List.cons.injEq] at hn <;>
      omega
  subst hcd
  exact ⟨rfl, List.append_cancel_left h⟩


theorem byte_eq_of_toNat_eq {a b : UInt8} (h : a.toNat = b.toNat) : a = b := by
  cases a with
  | mk x =>
    cases b with
    | mk y =>
      have : x = y := BitVec.eq_of_toNat_eq h
      rw [this]

theorem toBytes_cons (c : Char) (cs : Str) :
    toBytes (c :: cs) = String.utf8EncodeChar c ++ toBytes cs := by
  simp [toBytes]

/-- Two texts with the same bytes are the same text. -/
theorem toBytes_injective : ∀ {s t : Str}, toBytes s = toBytes t → s = t := by
  intro s
  induction s with
  | nil =>
    intro t h
    cases t with
    | nil => rfl
    | cons d ds =>
      exfalso
      rw [toBytes_cons] at h
      obtain ⟨b0, rest, he, -, -⟩ := utf8EncodeChar_shape d
      rw [he] at h
      cases h
  | cons c cs ih =>
    intro t h
    cases t with
    | nil =>
      exfalso
      rw [toBytes_cons] at h
      obtain ⟨b0, rest, he, -, -⟩ := utf8EncodeChar_shape c
      rw [he] at h
      cases h
    | cons d ds =>
      rw [toBytes_cons, toBytes_cons] at h
      obtain ⟨h1, h2⟩ := utf8EncodeChar_unique h
      rw [h1, ih h2]

/-- An ASCII text starts the text `s` exactly when its bytes start the bytes of
`s`. -/
theorem isPrefixOf_toBytes {pat : Str} (hp : IsAscii pat) :
    ∀ s : Str, (toBytes pat).isPrefixOf (toBytes s) = pat.isPrefixOf s := by
  induction pat with
  | nil => intro s; simp [toBytes_nil]
  | cons a pat ih =>
    intro s
    have ha : a.toNat ≤ 127 := hp a (List.mem_cons_self _ _)
    have hp2 : IsAscii pat := fun c hc => hp c (List.mem_cons_of_mem _ hc)
    obtain ⟨ba, hea, hba⟩ := utf8EncodeChar_ascii ha
    cases s with
    | nil =>
      rw [toBytes_cons, hea]
      simp [toBytes_nil]
    | cons c cs =>
      obtain ⟨b0, rest, hec, hrest, hcase⟩ := utf8EncodeChar_shape c
      rw [toBytes_cons, toBytes_cons, hea, hec]
      simp only [List.singleton_append, List.cons_append, List.isPrefixOf_cons₂]
      rcases hcase with ⟨hc, hb0, hr⟩ | ⟨hc, hb0⟩
      · subst hr
        simp only [List.nil_append]
        rw [ih hp2 cs]
        congr 1
        by_cases hac : a = c
        · subst hac
          have : ba = b0 := byte_eq_of_toNat_eq (by rw [hba, hb0])
          simp [this]
        · have : ba ≠ b0 := by
            intro hbb
            apply hac
            apply char_eq_of_toNat_eq
            rw [← hba, ← hb0, hbb]
          simp [this, hac]
      · have h1 : (ba == b0) = false := by
          rw [beq_eq_false_iff_ne]
          intro hbb
          rw [hbb] at hba
          omega
        have h2 : (a == c) = false := by
          rw [beq_eq_false_iff_ne]
          intro hac
          rw [hac] at ha
          omega
        rw [h1, h2]
        rfl


/-- The bytes of an ASCII text that is not empty start with a byte below 128. -/
theorem toBytes_ascii_head {pat : Str} (hp : IsAscii pat) (hne : pat ≠ []) :
    ∃ (p0 : UInt8) (rest : Bytes), toBytes pat = p0 :: rest ∧ p0.toNat ≤ 127 := by
  cases pat with
  | nil => exact absurd rfl hne
  | cons a pat =>
    have ha : a.toNat ≤ 127 := hp a (List.mem_cons_self _ _)
    obtain ⟨ba, hea, hba⟩ := utf8EncodeChar_ascii ha
    exact ⟨ba, toBytes pat, by rw [toBytes_cons, hea]; rfl, by omega⟩

/-- The search of a literal that starts with a byte below 128 passes over bytes from
128 on. -/
theorem Raw.splitAtFirst_skip_raw {p0 : UInt8} {rest : Bytes} (hp0 : p0.toNat ≤ 127) :
    ∀ (k t : Bytes), (∀ b ∈ k, 128 ≤ b.toNat) →
      Raw.splitAtFirst (p0 :: rest) (k ++ t) =
        (Raw.splitAtFirst (p0 :: rest) t).map (fun r => (k ++ r.1, r.2)) := by
  intro k
  induction k with
  | nil =>
    intro t _
    rw [List.nil_append]
    cases Raw.splitAtFirst (p0 :: rest) t <;> simp
  | cons b k ih =>
    intro t hk
    have hb : 128 ≤ b.toNat := hk b (List.mem_cons_self _ _)
    have hne : (p0 == b) = false := by
      rw [beq_eq_false_iff_ne]
      intro h
      rw [h] at hp0
      omega
    have hpre : (p0 :: rest).isPrefixOf (b :: (k ++ t)) = false := by
      rw [List.isPrefixOf_cons₂, hne]
      rfl
    rw [List.cons_append]
    simp only [Raw.splitAtFirst, hpre]
    rw [ih t (fun x hx => hk x (List.mem_cons_of_mem _ hx))]
    cases Raw.splitAtFirst (p0 :: rest) t <;> simp

/-- The search of an ASCII literal in a text and in its bytes: the cut of the bytes
is the cut of the text. -/
theorem splitAtFirst_toBytes {pat : Str} (hp : IsAscii pat) (hne : pat ≠ []) :
    ∀ s : Str, Raw.splitAtFirst (toBytes pat) (toBytes s) =
      (splitAtFirst pat s).map (fun r => (toBytes r.1, toBytes r.2)) := by
  obtain ⟨p0, rest, hP, hp0⟩ := toBytes_ascii_head hp hne
  intro s
  induction s with
  | nil =>
    have h1 : splitAtFirst pat [] = none := by simp [splitAtFirst, hne]
    rw [h1, toBytes_nil, hP]
    rfl
  | cons c cs ih =>
    obtain ⟨b0, rest0, hec, hrest0, -⟩ := utf8EncodeChar_shape c
    have hT : toBytes (c :: cs) = b0 :: (rest0 ++ toBytes cs) := by
      rw [toBytes_cons, hec]; rfl
    have hpre := isPrefixOf_toBytes hp (c :: cs)
    by_cases hpc : pat.isPrefixOf (c :: cs) = true
    · have h1 : splitAtFirst pat (c :: cs) = some ([], (c :: cs).drop pat.length) := by
        simp [splitAtFirst, hpc]
      rw [hpc, hT] at hpre
      have h2 : Raw.splitAtFirst (toBytes pat) (b0 :: (rest0 ++ toBytes cs)) =
          some ([], (b0 :: (rest0 ++ toBytes cs)).drop (toBytes pat).length) := by
        simp only [Raw.splitAtFirst, hpre, if_true]
      rw [h1, hT, h2, ← hT]
      obtain ⟨t, ht⟩ := List.isPrefixOf_iff_prefix.mp hpc
      simp only [Option.map_some', toBytes_nil]
      rw [← ht, toBytes_append, List.drop_left, List.drop_left]
    · have hpc2 : pat.isPrefixOf (c :: cs) = false := Bool.eq_false_iff.mpr hpc
      have h1 : splitAtFirst pat (c :: cs) =
          (splitAtFirst pat cs).map (fun r => (c :: r.1, r.2)) := by
        simp only [splitAtFirst, hpc2]
        cases splitAtFirst pat cs <;> simp
      rw [hpc2, hT] at hpre
      have h2 : Raw.splitAtFirst (toBytes pat) (b0 :: (rest0 ++ toBytes cs)) =
          (Raw.splitAtFirst (toBytes pat) (rest0 ++ toBytes cs)).map
            (fun r => (b0 :: r.1, r.2)) := by
        simp only [Raw.splitAtFirst, hpre]
        cases Raw.splitAtFirst (toBytes pat) (rest0 ++ toBytes cs) <;> simp
      rw [h1, hT, h2]
      have h3 : Raw.splitAtFirst (toBytes pat) (rest0 ++ toBytes cs) =
          (Raw.splitAtFirst (toBytes pat) (toBytes cs)).map (fun r => (rest0 ++ r.1, r.2)) := by
        rw [hP]
        exact Raw.splitAtFirst_skip_raw hp0 rest0 (toBytes cs) (fun b hb => (hrest0 b hb).1)
      rw [h3, ih]
      cases splitAtFirst pat cs with
      | none => rfl
      | some r =>
        simp only [Option.map_some', Option.some.injEq, Prod.mk.injEq, and_true]
        rw [toBytes_cons, hec]
        rfl


theorem length_le_toBytes (s : Str) : s.length ≤ (toBytes s).length := by
  induction s with
  | nil => simp
  | cons c cs ih =>
    obtain ⟨b0, rest, he, -, -⟩ := utf8EncodeChar_shape c
    rw [toBytes_cons, he]
    simp only [List.length_cons, List.length_append]
    omega

/-- The leftmost match of a pattern with ASCII literals in a text and in its bytes. -/
theorem Regexp.find_toBytes {re : Regexp} (h : re.IsAsciiPattern) (s : Str) :
    re.toRaw.find (toBytes s) =
      (re.find s).map (fun r => (toBytes r.1, toBytes r.2.1, toBytes r.2.2)) := by
  unfold Raw.Regexp.find Regexp.find Regexp.toRaw
  simp only
  rw [splitAtFirst_toBytes h.1 h.2.1 s]
  cases h1 : splitAtFirst re.left s with
  | none => rfl
  | some r1 =>
    obtain ⟨b, afterLeft⟩ := r1
    simp only [Option.map_some']
    rw [splitAtFirst_toBytes h.2.2.1 h.2.2.2 afterLeft]
    cases h2 : splitAtFirst re.right afterLeft with
    | none => rfl
    | some r2 =>
      obtain ⟨body, a⟩ := r2
      simp only [Option.map_some', toBytes_append]

theorem Regexp.allMatches_toBytes {re : Regexp} (h : re.IsAsciiPattern) :
    ∀ (n : Nat) (s : Str), re.toRaw.allMatches n (toBytes s) = (re.allMatches n s).map toBytes := by
  intro n
  induction n with
  | zero => intro s; rfl
  | succ n ih =>
    intro s
    simp only [Raw.Regexp.allMatches, Regexp.allMatches]
    rw [Regexp.find_toBytes h s]
    cases hf : re.find s with
    | none => rfl
    | some r =>
      obtain ⟨b, m, a⟩ := r
      simp only [Option.map_some', List.map_cons]
      rw [ih a]

/-- The matches of a pattern with ASCII literals in the bytes of a text are the bytes
of its matches in the text. -/
theorem Regexp.FindAllString_toBytes {re : Regexp} (h : re.IsAsciiPattern) (s : Str) :
    re.toRaw.FindAllString (toBytes s) = (re.FindAllString s).map toBytes := by
  have hre : 0 < re.left.length + re.right.length := by
    have := List.length_pos.mpr h.2.1
    omega
  unfold Raw.Regexp.FindAllString Regexp.FindAllString
  rw [Regexp.allMatches_toBytes h, Regexp.allMatches_fuel hre _ s (length_le_toBytes s)]

theorem Regexp.FindString_toBytes {re : Regexp} (h : re.IsAsciiPattern) (s : Str) :
    re.toRaw.FindString (toBytes s) = toBytes (re.FindString s) := by
  unfold Raw.Regexp.FindString Regexp.FindString
  rw [Regexp.find_toBytes h s]
  cases hf : re.find s with
  | none => rfl
  | some r =>
    obtain ⟨b, m, a⟩ := r
    rfl


theorem TrimPrefix_toBytes {pre : Str} (hp : IsAscii pre) (s : Str) :
    Raw.TrimPrefix (toBytes s) (toBytes pre) = toBytes (TrimPrefix s pre) := by
  unfold Raw.TrimPrefix TrimPrefix HasPrefix
  rw [isPrefixOf_toBytes hp s]
  by_cases h : pre.isPrefixOf s = true
  · rw [if_pos h, if_pos h]
    obtain ⟨t, ht⟩ := List.isPrefixOf_iff_prefix.mp h
    rw [← ht, toBytes_append, List.drop_left, List.drop_left]
  · rw [if_neg h, if_neg h]

/-- The last byte of the encoding of a character: the byte of its code for a
character below 128, a byte from 128 on for the others. -/
theorem utf8EncodeChar_last (c : Char) :
    ∃ (init : Bytes) (l : UInt8), String.utf8EncodeChar c = init ++ [l] ∧
      ((c.toNat ≤ 127 ∧ init = [] ∧ l.toNat = c.toNat) ∨ (128 ≤ c.toNat ∧ 128 ≤ l.toNat)) := by
  obtain ⟨b0, rest, he, hrest, hcase⟩ := utf8EncodeChar_shape c
  rcases hcase with ⟨hc, hb0, hr⟩ | ⟨hc, hb0⟩
  · subst hr
    exact ⟨[], b0, he, Or.inl ⟨hc, rfl, hb0⟩⟩
  · rcases List.eq_nil_or_concat (b0 :: rest) with h | ⟨L, b, h⟩
    · cases h
    · rw [List.concat_eq_append] at h
      refine ⟨L, b, by rw [he, h], Or.inr ⟨hc, ?_⟩⟩
      have hb : b ∈ b0 :: rest := by rw [h]; simp
      rcases List.mem_cons.mp hb with h1 | h1
      · rw [h1]; omega
      · exact (hrest b h1).1

/-- An ASCII text ends the text `s` exactly when its bytes end the bytes of `s`. -/
theorem suffix_toBytes_iff {suf : Str} (hp : IsAscii suf) :
    ∀ s : Str, toBytes suf <:+ toBytes s ↔ suf <:+ s := by
  induction suf using List.reverseRecOn with
  | nil => intro s; simp [toBytes_nil]
  | append_singleton suf a ih =>
    intro s
    have ha : a.toNat ≤ 127 := hp a (by simp)
    have hp2 : IsAscii suf := fun c hc => hp c (by simp [hc])
    obtain ⟨ba, hea, hba⟩ := utf8EncodeChar_ascii ha
    have hTa : toBytes (suf ++ [a]) = toBytes suf ++ [ba] := by
      rw [toBytes_append, toBytes_cons, hea, toBytes_nil, List.append_nil]
    constructor
    · rintro ⟨x, hx⟩
      rcases List.eq_nil_or_concat s with hs | ⟨s1, c, hs⟩
      · subst hs
        rw [hTa, toBytes_nil] at hx
        have := congrArg List.length hx
        simp at this
      · rw [List.concat_eq_append] at hs
        subst hs
        obtain ⟨init, l, hec, hcase⟩ := utf8EncodeChar_last c
        have hTc : toBytes (s1 ++ [c]) = (toBytes s1 ++ init) ++ [l] := by
          rw [toBytes_append, toBytes_cons, hec, toBytes_nil, List.append_nil,
            List.append_assoc]
        rw [hTa, hTc, ← List.append_assoc] at hx
        obtain ⟨h1, h2⟩ := List.append_inj' hx rfl
        have hl : ba = l := by simpa using h2
        rcases hcase with ⟨hc, hinit, hlc⟩ | ⟨hc, hl2⟩
        · subst hinit
          rw [List.append_nil] at h1
          have hac : a = c := by
            apply char_eq_of_toNat_eq
            rw [← hba, ← hlc, hl]
          subst hac
          have := (ih hp2 s1).mp ⟨x, h1⟩
          obtain ⟨t, ht⟩ := this
          exact ⟨t, by rw [← ht, List.append_assoc]⟩
        · exfalso
          rw [hl] at hba
          omega
    · rintro ⟨t, ht⟩
      exact ⟨toBytes t, by rw [← ht]; simp only [toBytes_append]⟩

theorem TrimSuffix_toBytes {suf : Str} (hp : IsAscii suf) (s : Str) :
    Raw.TrimSuffix (toBytes s) (toBytes suf) = toBytes (TrimSuffix s suf) := by
  unfold Raw.TrimSuffix TrimSuffix HasSuffix
  by_cases h : suf <:+ s
  · have h1 : suf.isSuffixOf s = true := List.isSuffixOf_iff_suffix.mpr h
    have h2 : (toBytes suf).isSuffixOf (toBytes s) = true :=
      List.isSuffixOf_iff_suffix.mpr ((suffix_toBytes_iff hp s).mpr h)
    rw [if_pos h1, if_pos h2]
    obtain ⟨t, ht⟩ := h
    rw [← ht, toBytes_append]
    simp
  · have h1 : ¬ suf.isSuffixOf s = true := fun h1 => h (List.isSuffixOf_iff_suffix.mp h1)
    have h2 : ¬ (toBytes suf).isSuffixOf (toBytes s) = true :=
      fun h2 => h ((suffix_toBytes_iff hp s).mp (List.isSuffixOf_iff_suffix.mp h2))
    rw [if_neg h1, if_neg h2]


/-- No encoding is the end of another one: two texts that end with the same bytes end
with the same character. -/
theorem utf8EncodeChar_unique_end {c d : Char} {x y : Bytes}
    (h : x ++ String.utf8EncodeChar c = y ++ String.utf8EncodeChar d) : c = d ∧ x = y := by
  obtain ⟨c0, rc, hec, hrc, hcc⟩ := utf8EncodeChar_shape c
  obtain ⟨d0, rd, hed, hrd, hdc⟩ := utf8EncodeChar_shape d
  have hc0 : c0.toNat ≤ 127 ∨ 192 ≤ c0.toNat := by
    rcases hcc with ⟨h1, h2, -⟩ | ⟨-, h2⟩
    · left; omega
    · right; exact h2
  have hd0 : d0.toNat ≤ 127 ∨ 192 ≤ d0.toNat := by
    rcases hdc with ⟨h1, h2, -⟩ | ⟨-, h2⟩
    · left; omega
    · right; exact h2
  rcases List.append_eq_append_iff.mp h with ⟨a, hy, hc⟩ | ⟨a, hx, hd⟩
  · cases a with
    | nil =>
      rw [List.nil_append] at hc
      have h2 : String.utf8EncodeChar c ++ [] = String.utf8EncodeChar d ++ [] := by
        rw [hc]
      exact ⟨(utf8EncodeChar_unique h2).1, by rw [hy, List.append_nil]⟩
    | cons a0 as =>
      exfalso
      rw [hec, hed] at hc
      simp only [List.cons_append, List.cons.injEq] at hc
      have hmem : d0 ∈ rc := by rw [hc.2]; simp
      have := hrc d0 hmem
      omega
  · cases a with
    | nil =>
      rw [List.nil_append] at hd
      have h2 : String.utf8EncodeChar c ++ [] = String.utf8EncodeChar d ++ [] := by
        rw [hd]
      exact ⟨(utf8EncodeChar_unique h2).1, by rw [hx, List.append_nil]⟩
    | cons a0 as =>
      exfalso
      rw [hec, hed] at hd
      simp only [List.cons_append, List.cons.injEq] at hd
      have hmem : c0 ∈ rd := by rw [hd.2]; simp
      have := hrd c0 hmem
      omega

theorem Raw.spaceRunes_valid : ∀ n ∈ Raw.spaceRunes, (Char.ofNat n).toNat = n := by decide

theorem Raw.mem_spaceEncodings_iff (e : Bytes) :
    e ∈ Raw.spaceEncodings ↔ ∃ c : Char, isSpace c = true ∧ e = String.utf8EncodeChar c := by
  unfold Raw.spaceEncodings
  rw [List.mem_map]
  constructor
  · rintro ⟨n, hn, rfl⟩
    refine ⟨Char.ofNat n, ?_, rfl⟩
    rw [Raw.isSpace_iff_mem_spaceRunes, Raw.spaceRunes_valid n hn]
    exact hn
  · rintro ⟨c, hc, rfl⟩
    refine ⟨c.toNat, (Raw.isSpace_iff_mem_spaceRunes c).mp hc, ?_⟩
    rw [Char.ofNat_toNat]

/-- Bytes that start with the encoding of a character start with white space exactly
when the character is white space. -/
theorem Raw.leadingSpace_encoded (c : Char) (t : Bytes) :
    Raw.leadingSpace (String.utf8EncodeChar c ++ t) =
      if isSpace c = true then some (String.utf8EncodeChar c) else none := by
  have key : ∀ e ∈ Raw.spaceEncodings, e.isPrefixOf (String.utf8EncodeChar c ++ t) = true →
      isSpace c = true ∧ e = String.utf8EncodeChar c := by
    intro e he hpre
    obtain ⟨r, hr, rfl⟩ := (Raw.mem_spaceEncodings_iff e).mp he
    obtain ⟨z, hz⟩ := List.isPrefixOf_iff_prefix.mp hpre
    obtain ⟨h1, -⟩ := utf8EncodeChar_unique hz
    subst h1
    exact ⟨hr, rfl⟩
  unfold Raw.leadingSpace
  cases hf : Raw.spaceEncodings.find? (fun e => e.isPrefixOf (String.utf8EncodeChar c ++ t)) with
  | none =>
    rw [List.find?_eq_none] at hf
    split
    · next hc =>
      exfalso
      have hmem := (Raw.mem_spaceEncodings_iff _).mpr ⟨c, hc, rfl⟩
      exact hf _ hmem (List.isPrefixOf_iff_prefix.mpr (List.prefix_append _ _))
    · rfl
  | some e =>
    have h1 := List.mem_of_find?_eq_some hf
    have h2 := List.find?_some hf
    obtain ⟨hc, he⟩ := key e h1 h2
    rw [if_pos hc, he]

/-- Bytes that end with the encoding of a character end with white space exactly when
the character is white space. -/
theorem Raw.trailingSpace_encoded (c : Char) (t : Bytes) :
    Raw.trailingSpace (t ++ String.utf8EncodeChar c) =
      if isSpace c = true then some (String.utf8EncodeChar c) else none := by
  have key : ∀ e ∈ Raw.spaceEncodings, e.isSuffixOf (t ++ String.utf8EncodeChar c) = true →
      isSpace c = true ∧ e = String.utf8EncodeChar c := by
    intro e he hsuf
    obtain ⟨r, hr, rfl⟩ := (Raw.mem_spaceEncodings_iff e).mp he
    obtain ⟨z, hz⟩ := List.isSuffixOf_iff_suffix.mp hsuf
    obtain ⟨h1, -⟩ := utf8EncodeChar_unique_end hz
    subst h1
    exact ⟨hr, rfl⟩
  unfold Raw.trailingSpace
  cases hf : Raw.spaceEncodings.find? (fun e => e.isSuffixOf (t ++ String.utf8EncodeChar c)) with
  | none =>
    rw [List.find?_eq_none] at hf
    split
    · next hc =>
      exfalso
      have hmem := (Raw.mem_spaceEncodings_iff _).mpr ⟨c, hc, rfl⟩
      exact hf _ hmem (List.isSuffixOf_iff_suffix.mpr (List.suffix_append _ _))
    · rfl
  | some e =>
    have h1 := List.mem_of_find?_eq_some hf
    have h2 := List.find?_some hf
    obtain ⟨hc, he⟩ := key e h1 h2
    rw [if_pos hc, he]

theorem trimLeft_toBytes : ∀ (s : Str) (n : Nat), s.length ≤ n →
    Raw.trimLeft n (toBytes s) = toBytes (s.dropWhile isSpace) := by
  intro s
  induction s with
  | nil =>
    intro n _
    cases n with
    | zero => rfl
    | succ k =>
      have : Raw.leadingSpace (toBytes []) = none := by decide
      simp only [Raw.trimLeft, this]
      rfl
  | cons c cs ih =>
    intro n hn
    cases n with
    | zero => simp at hn
    | succ k =>
      have hk : cs.length ≤ k := by simpa using hn
      rw [toBytes_cons]
      simp only [Raw.trimLeft, Raw.leadingSpace_encoded]
      by_cases hc : isSpace c = true
      · rw [if_pos hc]
        simp only [List.drop_left]
        rw [ih k hk, List.dropWhile_cons_of_pos hc]
      · rw [if_neg hc]
        simp only
        rw [List.dropWhile_cons_of_neg hc, toBytes_cons]

theorem trimRight_toBytes : ∀ (s : Str) (n : Nat), s.length ≤ n →
    Raw.trimRight n (toBytes s) = toBytes (s.rdropWhile isSpace) := by
  intro s
  induction s using List.reverseRecOn with
  | nil =>
    intro n _
    cases n with
    | zero => rfl
    | succ k =>
      have : Raw.trailingSpace (toBytes []) = none := by decide
      simp only [Raw.trimRight, this]
      rfl
  | append_singleton s c ih =>
    intro n hn
    cases n with
    | zero => simp at hn
    | succ k =>
      have hk : s.length ≤ k := by simpa using hn
      have hT : toBytes (s ++ [c]) = toBytes s ++ String.utf8EncodeChar c := by
        rw [toBytes_append, toBytes_cons, toBytes_nil, List.append_nil]
      rw [hT]
      simp only [Raw.trimRight, Raw.trailingSpace_encoded]
      by_cases hc : isSpace c = true
      · rw [if_pos hc]
        simp only [List.length_append, Nat.add_sub_cancel, List.take_left']
        rw [ih k hk, List.rdropWhile_concat_pos _ _ _ hc]
      · rw [if_neg hc]
        simp only
        rw [List.rdropWhile_concat_neg _ _ _ hc, hT]

/-- The function `TrimSpace` on a text and on its bytes. -/
theorem TrimSpace_toBytes (s : Str) : Raw.TrimSpace (toBytes s) = toBytes (TrimSpace s) := by
  unfold Raw.TrimSpace
  rw [trimLeft_toBytes s _ (length_le_toBytes s),
    trimRight_toBytes _ _ (length_le_toBytes _), TrimSpace_eq]


theorem lookup_toBytes (l : List (Str × Str)) (k : Str) :
    (l.map (fun e => (toBytes e.1, toBytes e.2))).lookup (toBytes k) =
      (l.lookup k).map toBytes := by
  induction l with
  | nil => rfl
  | cons e l ih =>
    obtain ⟨k0, v0⟩ := e
    simp only [List.map_cons, List.lookup_cons]
    by_cases hk : k = k0
    · subst hk
      simp
    · have h1 : (k == k0) = false := by simpa using hk
      have h2 : (toBytes k == toBytes k0) = false := by
        rw [beq_eq_false_iff_ne]
        exact fun h => hk (toBytes_injective h)
      rw [h1, h2]
      exact ih

theorem isAscii_hrefOpen : IsAscii hrefOpen := by unfold IsAscii; decide

theorem isAscii_hrefClose : IsAscii hrefClose := by unfold IsAscii; decide

theorem isAscii_responseOpen : IsAscii responseOpen := by unfold IsAscii; decide

theorem isAscii_responseClose : IsAscii responseClose := by unfold IsAscii; decide

theorem NewPropfind_isAsciiPattern :
    NewPropfind.response.IsAsciiPattern ∧ NewPropfind.href.IsAsciiPattern :=
  ⟨⟨isAscii_responseOpen, by decide, isAscii_responseClose, by decide⟩,
    ⟨isAscii_hrefOpen, by decide, isAscii_hrefClose, by decide⟩⟩

/-- The key of a fragment, computed on its bytes, is the bytes of its key. -/
theorem Propfind.hrefOf_toBytes {p : Propfind} (hp : p.href.IsAsciiPattern) (s : Str) :
    p.toRaw.hrefOf (toBytes s) = toBytes (p.hrefOf s) := by
  unfold Raw.Propfind.hrefOf Propfind.hrefOf
  simp only
  have h1 : p.toRaw.href = p.href.toRaw := rfl
  rw [h1, Regexp.FindString_toBytes hp, TrimPrefix_toBytes isAscii_hrefOpen,
    TrimSuffix_toBytes isAscii_hrefClose, TrimSpace_toBytes]

theorem Propfind.store_toBytes {p : Propfind} (hp : p.href.IsAsciiPattern) (s : Str) :
    p.toRaw.store (toBytes s) = (p.store s).toRaw := by
  unfold Raw.Propfind.store Propfind.store
  simp only
  rw [Propfind.hrefOf_toBytes hp]
  have h1 : p.toRaw.items = p.items.map (fun e => (toBytes e.1, toBytes e.2)) := rfl
  rw [h1, lookup_toBytes, Option.isSome_map']
  split
  · rfl
  · simp [Propfind.toRaw]

theorem Propfind.foldl_store_toBytes (fs : List Str) :
    ∀ {p : Propfind}, p.href.IsAsciiPattern →
      (fs.map toBytes).foldl Raw.Propfind.store p.toRaw = (fs.foldl Propfind.store p).toRaw := by
  induction fs with
  | nil => intro p _; rfl
  | cons f fs ih =>
    intro p hp
    rw [List.map_cons, List.foldl_cons, List.foldl_cons, Propfind.store_toBytes hp]
    exact ih (by rw [Propfind.store_href]; exact hp)

/-- The merger on the bytes extends the merger on the texts: `Append` of the bytes of
a text stores the bytes of what `Append` of the text stores. -/
theorem Propfind.Append_toBytes {p : Propfind} (hr : p.response.IsAsciiPattern)
    (hh : p.href.IsAsciiPattern) (d : Str) :
    p.toRaw.Append (toBytes d) = (p.Append d).toRaw := by
  rw [Raw.Propfind.Append_eq_raw, Propfind.Append_eq]
  have h1 : p.toRaw.response = p.response.toRaw := rfl
  rw [h1, Regexp.FindAllString_toBytes hr, Propfind.foldl_store_toBytes _ hh]

theorem NewPropfind_toRaw : NewPropfind.toRaw = Raw.NewPropfind := rfl

theorem Propfind.Compiled.Append_bytes_of_text {p : Propfind} (h : p.Compiled) (d : Str) :
    p.toRaw.Append (toBytes d) = (p.Append d).toRaw := by
  apply Propfind.Append_toBytes
  · rw [h.1]; exact NewPropfind_isAsciiPattern.1
  · rw [h.2]; exact NewPropfind_isAsciiPattern.2

/-- For all documents that are texts, the merger on the bytes stores the bytes of
what the merger on the texts stores. -/
theorem appendAll_toBytes (docs : List Str) :
    (docs.map toBytes).foldl Raw.Propfind.Append Raw.NewPropfind = (appendAll docs).toRaw := by
  unfold appendAll
  rw [← NewPropfind_toRaw]
  have key : ∀ (ds : List Str) (p : Propfind), p.Compiled →
      (ds.map toBytes).foldl Raw.Propfind.Append p.toRaw =
        (ds.foldl Propfind.Append p).toRaw := by
    intro ds
    induction ds with
    | nil => intro p _; rfl
    | cons d ds ih =>
      intro p hp
      rw [List.map_cons, List.foldl_cons, List.foldl_cons, hp.Append_bytes_of_text]
      exact ih _ (Propfind.Append_compiled hp d)
  exact key docs NewPropfind NewPropfind_compiled

/-! ## Where the stored fragments come from -/

theorem Regexp.allMatches_infix (re : Regexp) :
    ∀ (n : Nat) (s : Str), ∀ m ∈ re.allMatches n s, m <:+: s := by
  intro n
  induction n with
  | zero => intro s m hm; cases hm
  | succ n ih =>
    intro s m hm
    simp only [Regexp.allMatches] at hm
    cases hf : re.find s with
    | none => rw [hf] at hm; cases hm
    | some r =>
      obtain ⟨b, m0, a⟩ := r
      rw [hf] at hm
      obtain ⟨body, -, hs, -, -⟩ := Regexp.find_eq_some hf
      rcases List.mem_cons.mp hm with h | h
      · subst h
        exact ⟨b, a, hs.symm⟩
      · have := ih a m h
        exact this.trans ⟨b ++ m0, [], by rw [hs]; simp⟩

theorem mem_fragments_infix {d f : Str} (h : f ∈ fragments d) : f <:+: d :=
  Regexp.allMatches_infix NewPropfind.response d.length d f h

theorem Propfind.mem_items_foldl_store (fs : List Str) (p : Propfind) (e : Str × Str)
    (he : e ∈ (fs.foldl Propfind.store p).items) :
    e ∈ p.items ∨ ∃ f ∈ fs, e = (p.hrefOf f, f) := by
  induction fs generalizing p with
  | nil => exact Or.inl he
  | cons f fs ih =>
    rw [List.foldl_cons] at he
    rcases ih (p.store f) he with h | ⟨g, hg, hge⟩
    · rw [Propfind.store_items] at h
      split at h
      · exact Or.inl h
      · rcases List.mem_append.mp h with h2 | h2
        · exact Or.inl h2
        · rw [List.mem_singleton] at h2
          exact Or.inr ⟨f, List.mem_cons_self _ _, h2⟩
    · refine Or.inr ⟨g, List.mem_cons_of_mem _ hg, ?_⟩
      rw [hge, Propfind.hrefOf_congr (Propfind.store_href p f)]

theorem foldl_Append_compiled (docs : List Str) (p : Propfind) (hp : p.Compiled) :
    (docs.foldl Propfind.Append p).Compiled := by
  induction docs generalizing p with
  | nil => exact hp
  | cons d docs ih => exact ih _ (Propfind.Append_compiled hp d)

theorem mem_items_foldl_Append (docs : List Str) (p : Propfind) (hp : p.Compiled)
    (e : Str × Str) (he : e ∈ (docs.foldl Propfind.Append p).items) :
    e ∈ p.items ∨ ∃ d ∈ docs, e.2 ∈ fragments d ∧ e.1 = hrefKey e.2 := by
  induction docs generalizing p with
  | nil => exact Or.inl he
  | cons d docs ih =>
    rw [List.foldl_cons] at he
    rcases ih _ (Propfind.Append_compiled hp d) he with h | ⟨d2, hd2, hfr, hk⟩
    · rw [Propfind.Append_eq, hp.fragments] at h
      rcases Propfind.mem_items_foldl_store _ p e h with h2 | ⟨f, hf, hfe⟩
      · exact Or.inl h2
      · refine Or.inr ⟨d, List.mem_cons_self _ _, ?_, ?_⟩
        · rw [hfe]; exact hf
        · rw [hfe]; exact hp.hrefOf f
    · exact Or.inr ⟨d2, List.mem_cons_of_mem _ hd2, hfr, hk⟩

/-! ## The PROPFIND branch -/

theorem foldl_Fprintf_Recorder (res : List WriterCall → Bytes → Int × Option Error)
    (fs : List Str) (log : List WriterCall) :
    fs.foldl (fun w s => Fprintf (Recorder res).toWriter w s) log =
      log ++ fs.map (fun s => WriterCall.Write (toBytes s)) := by
  induction fs generalizing log with
  | nil => simp
  | cons f fs ih =>
    rw [List.foldl_cons, ih]
    simp [Fprintf, ResponseWriter.toWriter, Recorder]

theorem Propfind.WriteTo_Recorder (p : Propfind) (r : MapRange (Str × Str))
    (res : List WriterCall → Bytes → Int × Option Error) (log : List WriterCall) :
    (p.WriteTo r (Recorder res).toWriter log).1 =
      log ++ ([xmlHeader] ++ (r.visit p.items).map Prod.snd ++ [xmlFooter]).map
        (fun s => WriterCall.Write (toBytes s)) := by
  rw [Propfind.WriteTo_eq, foldl_Fprintf_Recorder]

theorem receivedBody_append (a b : List WriterCall) :
    receivedBody (a ++ b) = receivedBody a ++ receivedBody b := by
  induction a with
  | nil => rfl
  | cons c a ih => cases c <;> simp [receivedBody, ih]

theorem receivedBody_writes (fs : List Str) :
    receivedBody (fs.map (fun s => WriterCall.Write (toBytes s))) = toBytes fs.flatten := by
  induction fs with
  | nil => rfl
  | cons f fs ih => simp [receivedBody, ih, toBytes_append]

theorem Propfind.receivedBody_WriteTo (p : Propfind) (r : MapRange (Str × Str)) :
    receivedBody (([xmlHeader] ++ (r.visit p.items).map Prod.snd ++ [xmlFooter]).map
      (fun s => WriterCall.Write (toBytes s))) = p.serialize r := by
  rw [receivedBody_writes, Propfind.serialize_eq]
  simp

/-- The number of bytes of the serialized document does not depend on the order in
which the run-time visits the items. -/
theorem Propfind.serialize_length (p : Propfind) (r1 r2 : MapRange (Str × Str)) :
    (p.serialize r1).length = (p.serialize r2).length := by
  rw [Propfind.serialize_eq, Propfind.serialize_eq, toBytes_length, toBytes_length]
  have hperm : ((r1.visit p.items).map Prod.snd).flatten.Perm
      ((r2.visit p.items).map Prod.snd).flatten :=
    List.Perm.flatten (((r1.perm p.items).trans (r2.perm p.items).symm).map Prod.snd)
  have h2 : (xmlHeader ++ ((r1.visit p.items).map Prod.snd).flatten ++ xmlFooter).Perm
      (xmlHeader ++ ((r2.visit p.items).map Prod.snd).flatten ++ xmlFooter) :=
    (hperm.append_left xmlHeader).append_right xmlFooter
  exact (h2.map Char.utf8Size).sum_eq

theorem Raw.foldl_Write_Buffer_raw (fs : List Bytes) (buf : Bytes) :
    fs.foldl (fun w s => (Buffer.Write s w).1) buf = buf ++ fs.flatten := by
  induction fs generalizing buf with
  | nil => simp
  | cons f fs ih =>
    rw [List.foldl_cons, ih]
    simp [Buffer]

theorem Raw.foldl_Write_Recorder_raw (res : List WriterCall → Bytes → Int × Option Error)
    (fs : List Bytes) (log : List WriterCall) :
    fs.foldl (fun w s => ((Recorder res).toWriter.Write s w).1) log =
      log ++ fs.map WriterCall.Write := by
  induction fs generalizing log with
  | nil => simp
  | cons f fs ih =>
    rw [List.foldl_cons, ih]
    simp [ResponseWriter.toWriter, Recorder]

/-- The serialized document: the header, the stored fragments in the order of the
visit, bytes as they are, and the footer. -/
theorem Raw.Propfind.serialize_eq_raw (p : Raw.Propfind) (r : MapRange (Bytes × Bytes)) :
    p.serialize r =
      toBytes xmlHeader ++ ((r.visit p.items).map Prod.snd).flatten ++ toBytes xmlFooter := by
  unfold Raw.Propfind.serialize Raw.Propfind.WriteTo
  simp only
  rw [← List.foldl_map (fun item : Bytes × Bytes => item.2) (fun w s => (Buffer.Write s w).1),
    Raw.foldl_Write_Buffer_raw]
  simp [Fprintf, Buffer]

theorem Raw.Propfind.WriteTo_Recorder_raw (p : Raw.Propfind) (r : MapRange (Bytes × Bytes))
    (res : List WriterCall → Bytes → Int × Option Error) (log : List WriterCall) :
    (p.WriteTo r (Recorder res).toWriter log).1 =
      log ++ ([toBytes xmlHeader] ++ (r.visit p.items).map Prod.snd ++
        [toBytes xmlFooter]).map WriterCall.Write := by
  unfold Raw.Propfind.WriteTo
  simp only
  rw [← List.foldl_map (fun item : Bytes × Bytes => item.2)
      (fun w s => ((Recorder res).toWriter.Write s w).1),
    Raw.foldl_Write_Recorder_raw]
  simp [Fprintf, ResponseWriter.toWriter, Recorder]

theorem receivedBody_of_writes (fs : List Bytes) :
    receivedBody (fs.map WriterCall.Write) = fs.flatten := by
  induction fs with
  | nil => rfl
  | cons f fs ih => simp [receivedBody, ih]

theorem Raw.Propfind.receivedBody_WriteTo_raw (p : Raw.Propfind)
    (r : MapRange (Bytes × Bytes)) :
    receivedBody (([toBytes xmlHeader] ++ (r.visit p.items).map Prod.snd ++
      [toBytes xmlFooter]).map WriterCall.Write) = p.serialize r := by
  rw [receivedBody_of_writes, Raw.Propfind.serialize_eq_raw]
  simp

/-- The number of bytes of the serialized document does not depend on the order in
which the run-time visits the items. -/
theorem Raw.Propfind.serialize_length_raw (p : Raw.Propfind)
    (r1 r2 : MapRange (Bytes × Bytes)) :
    (p.serialize r1).length = (p.serialize r2).length := by
  rw [Raw.Propfind.serialize_eq_raw, Raw.Propfind.serialize_eq_raw]
  have hperm : ((r1.visit p.items).map Prod.snd).flatten.Perm
      ((r2.visit p.items).map Prod.snd).flatten :=
    List.Perm.flatten (((r1.perm p.items).trans (r2.perm p.items).symm).map Prod.snd)
  simp only [List.length_append]
  rw [hperm.length_eq]

theorem Raw.written_of_lookup_raw {p : Raw.Propfind} {k f : Bytes}
    (h : p.items.lookup k = some f) (r : MapRange (Bytes × Bytes)) :
    ∃ written : List Bytes,
      p.serialize r = toBytes xmlHeader ++ written.flatten ++ toBytes xmlFooter ∧
      written.Perm (p.items.map Prod.snd) ∧ f ∈ written := by
  have hmem : (k, f) ∈ p.items := by
    obtain ⟨l1, l2, hl, -⟩ := List.lookup_eq_some_iff.mp h
    rw [hl]; simp
  exact ⟨(r.visit p.items).map Prod.snd, Raw.Propfind.serialize_eq_raw p r,
    (r.perm _).map Prod.snd,
    List.mem_map.mpr ⟨(k, f), ((r.perm _).mem_iff).mpr hmem, rfl⟩⟩

/-- The client's writer after the PROPFIND branch, when at least one capture has the
status 207. -/
theorem Handler.propfind_merge (h : Handler) (next : URL) (rt : Runtime)
    (res : List WriterCall → Bytes → Int × Option Error) (w : List WriterCall)
    (stdout : Bytes) (log : List LogEvent) (r : Request)
    (h207 : (h.localCapture next r).StatusCode = StatusMultiStatus ∨
      (h.remoteCapture next r).StatusCode = StatusMultiStatus) :
    (h.propfind next rt (Recorder res) w stdout log (localRequest next r)
        (localRequest next r) (remoteRequest next r)).w =
      w ++ ([WriterCall.Header
            (HeaderMut.Set "Content-Type".toList "text/xml; charset=utf-8".toList),
          WriterCall.Header (HeaderMut.Set "Content-Length".toList
            (Nat.repr ((merged (h.localCapture next r) (h.remoteCapture next r)).serialize
              rt.first).length).toList),
          WriterCall.WriteHeader 207] ++
        ([toBytes xmlHeader] ++
          (rt.second.visit (merged (h.localCapture next r) (h.remoteCapture next r)).items).map
            Prod.snd ++ [toBytes xmlFooter]).map WriterCall.Write) ∧
    (h.propfind next rt (Recorder res) w stdout log (localRequest next r)
        (localRequest next r) (remoteRequest next r)).invoked =
      [(Backend.Dav, localRequest next r), (Backend.proxy, remoteRequest next r)] := by
  have hcond : ¬ ((h.localCapture next r).StatusCode ≠ StatusMultiStatus ∧
      (h.remoteCapture next r).StatusCode ≠ StatusMultiStatus) := by
    rintro ⟨h1, h2⟩
    rcases h207 with h3 | h3
    · exact h1 h3
    · exact h2 h3
  unfold Handler.propfind
  simp only
  have e1 : (h.Dav (localRequest next r)).run CacheWriter.writer NewCacheWriter =
      h.localCapture next r := rfl
  have e2 : (h.proxy (remoteRequest next r)).run CacheWriter.writer NewCacheWriter =
      h.remoteCapture next r := rfl
  rw [e1, e2, if_neg hcond]
  constructor
  · show (Raw.Propfind.WriteTo (merged (h.localCapture next r) (h.remoteCapture next r))
      rt.second (Recorder res).toWriter _).1 = _
    rw [Raw.Propfind.WriteTo_Recorder_raw]
    simp [Recorder, StatusMultiStatus, Raw.Propfind.serialize]
    rfl
  · rfl

/-- The client's writer after the PROPFIND branch, when no capture has the status
207. -/
theorem Handler.propfind_both_fail (h : Handler) (next : URL) (rt : Runtime)
    (res : List WriterCall → Bytes → Int × Option Error) (w : List WriterCall)
    (stdout : Bytes) (log : List LogEvent) (r : Request)
    (hl : (h.localCapture next r).StatusCode ≠ StatusMultiStatus)
    (hr : (h.remoteCapture next r).StatusCode ≠ StatusMultiStatus) :
    (h.propfind next rt (Recorder res) w stdout log (localRequest next r)
        (localRequest next r) (remoteRequest next r)).w =
      w ++ ((rt.headers.visit (h.localCapture next r).H).map
          (fun kv => WriterCall.Header (HeaderMut.Assign kv.1 kv.2)) ++
        [WriterCall.WriteHeader (h.localCapture next r).StatusCode,
          WriterCall.Write (h.localCapture next r).B]) := by
  unfold Handler.propfind
  simp only
  have e1 : (h.Dav (localRequest next r)).run CacheWriter.writer NewCacheWriter =
      h.localCapture next r := rfl
  have e2 : (h.proxy (remoteRequest next r)).run CacheWriter.writer NewCacheWriter =
      h.remoteCapture next r := rfl
  rw [e1, e2, if_pos ⟨hl, hr⟩]
  have hfold : ∀ (l : List (Str × List Str)) (w0 : List WriterCall),
      l.foldl (fun w kv => (Recorder res).Header (HeaderMut.Assign kv.1 kv.2) w) w0 =
        w0 ++ l.map (fun kv => WriterCall.Header (HeaderMut.Assign kv.1 kv.2)) := by
    intro l
    induction l with
    | nil => intro w0; simp
    | cons e l ih => intro w0; rw [List.foldl_cons, ih]; simp [Recorder]
  simp only [hfold]
  simp [Recorder]


theorem Handler.ServeHTTP_propfind (h : Handler) (rt : Runtime) (B : ResponseWriter ω) (w : ω)
    (stdout : Bytes) (r : Request) (next : URL) (ha : h.Admits r) (hn : h.Next = some next)
    (hm : r.Method = "PROPFIND".toList) :
    h.ServeHTTP rt B w stdout r =
      h.propfind next rt B w stdout [LogEvent.handler r.Method r.URL r.Host]
        (localRequest next r) (localRequest next r) (remoteRequest next r) := by
  rw [Handler.ServeHTTP_of_admits h rt B w stdout r ha,
    Handler.dispatch_some h rt B w stdout _ r next hn, if_pos hm]

theorem merged_compiled (loc rem : CacheWriter) : (merged loc rem).Compiled := by
  unfold merged
  simp only
  split <;> split <;>
    first
      | exact Raw.NewPropfind_compiled_raw
      | exact Raw.Propfind.Append_compiled_raw Raw.NewPropfind_compiled_raw _
      | exact Raw.Propfind.Append_compiled_raw
          (Raw.Propfind.Append_compiled_raw Raw.NewPropfind_compiled_raw _) _

theorem merged_lookup_local (loc rem : CacheWriter) (k f : Bytes)
    (hl : loc.StatusCode = StatusMultiStatus)
    (hf : Raw.firstWithKey loc.B k = some f) :
    (merged loc rem).items.lookup k = some f := by
  have h1 : (Raw.NewPropfind.Append loc.B).items.lookup k = some f := by
    rw [Raw.NewPropfind_compiled_raw.lookup_Append_raw, hf]
    rfl
  unfold merged
  simp only [hl, if_true]
  split
  · rw [(Raw.Propfind.Append_compiled_raw Raw.NewPropfind_compiled_raw _).lookup_Append_raw, h1]
    rfl
  · exact h1

/-- A key of the merged document that no local fragment has, or any key when the
local status is not 207, is stored with the first remote fragment of that
key. -/
theorem merged_lookup_remote (loc rem : CacheWriter) (k : Bytes)
    (hl : loc.StatusCode = StatusMultiStatus → Raw.firstWithKey loc.B k = none) :
    (merged loc rem).items.lookup k =
      if rem.StatusCode = StatusMultiStatus then Raw.firstWithKey rem.B k else none := by
  unfold merged
  simp only
  by_cases h1 : loc.StatusCode = StatusMultiStatus
  · have e1 : (Raw.NewPropfind.Append loc.B).items.lookup k = none := by
      rw [Raw.NewPropfind_compiled_raw.lookup_Append_raw, hl h1]
      rfl
    rw [if_pos h1]
    split
    · rw [(Raw.Propfind.Append_compiled_raw Raw.NewPropfind_compiled_raw _).lookup_Append_raw,
        e1]
      rfl
    · exact e1
  · rw [if_neg h1]
    split
    · rw [Raw.NewPropfind_compiled_raw.lookup_Append_raw]
      rfl
    · rfl

theorem firstWithKey_mem_raw {d k f : Bytes} (h : Raw.firstWithKey d k = some f) :
    f ∈ Raw.fragments d :=
  List.mem_of_find?_eq_some h

/-- Every entry of the merged document holds a fragment of a captured body whose
status is 207, under the key of the fragment. -/
theorem merged_items_from_bodies (loc rem : CacheWriter) (e : Bytes × Bytes)
    (he : e ∈ (merged loc rem).items) :
    e.1 = Raw.hrefKey e.2 ∧
    ((loc.StatusCode = StatusMultiStatus ∧ e.2 ∈ Raw.fragments loc.B) ∨
      (rem.StatusCode = StatusMultiStatus ∧ e.2 ∈ Raw.fragments rem.B)) := by
  unfold merged at he
  simp only at he
  have h0 := Raw.NewPropfind_compiled_raw
  by_cases hl : loc.StatusCode = StatusMultiStatus
  · by_cases hr : rem.StatusCode = StatusMultiStatus
    · rw [if_pos hl, if_pos hr] at he
      rcases (Raw.Propfind.Append_compiled_raw h0 loc.B).mem_items_Append_raw rem.B e he with
        h1 | ⟨h1, h2⟩
      · rcases h0.mem_items_Append_raw loc.B e h1 with h3 | ⟨h3, h4⟩
        · cases h3
        · exact ⟨h4, Or.inl ⟨hl, h3⟩⟩
      · exact ⟨h2, Or.inr ⟨hr, h1⟩⟩
    · rw [if_pos hl, if_neg hr] at he
      rcases h0.mem_items_Append_raw loc.B e he with h3 | ⟨h3, h4⟩
      · cases h3
      · exact ⟨h4, Or.inl ⟨hl, h3⟩⟩
  · by_cases hr : rem.StatusCode = StatusMultiStatus
    · rw [if_neg hl, if_pos hr] at he
      rcases h0.mem_items_Append_raw rem.B e he with h3 | ⟨h3, h4⟩
      · cases h3
      · exact ⟨h4, Or.inr ⟨hr, h3⟩⟩
    · rw [if_neg hl, if_neg hr] at he
      cases he

/-- The serialization on the bytes, for the state of a merger on the texts visited in
the order of insertion, is the serialization of that state. -/
theorem Propfind.serialize_toRaw (p : Propfind) :
    p.toRaw.serialize (MapRange.inOrder _) = p.serialize (MapRange.inOrder _) := by
  rw [Raw.Propfind.serialize_eq_raw, Propfind.serialize_eq]
  simp only [MapRange.inOrder, id, toBytes_append, Propfind.toRaw, List.map_map]
  congr 2
  induction p.items with
  | nil => rfl
  | cons e l ih => simp [toBytes_append, ih]

/-- When the two backends write texts, the document that `ServeHTTP` merges is the one
that the merger on the texts makes of these texts. -/
theorem merged_of_texts (loc rem : CacheWriter) (ld rd : Str) (hl : loc.B = toBytes ld)
    (hr : rem.B = toBytes rd) :
    merged loc rem =
      (appendAll ((if loc.StatusCode = StatusMultiStatus then [ld] else []) ++
        (if rem.StatusCode = StatusMultiStatus then [rd] else []))).toRaw := by
  rw [← appendAll_toBytes]
  unfold merged
  simp only
  rw [hl, hr]
  by_cases h1 : loc.StatusCode = StatusMultiStatus <;>
    by_cases h2 : rem.StatusCode = StatusMultiStatus <;>
    simp [h1, h2]

/-- Claim C15 (the PROPFIND merge favours local). For every PROPFIND request that
passes the authentication, with a next hop, where at least one of the two
captured responses has the status 207, whatever bytes the two backends wrote:
both backends are invoked once, the local engine first; the client's writer
receives the header `Content-Type: text/xml; charset=utf-8`, a `Content-Length`,
the status 207 and then the writes of `WriteTo` for the merged document, so that
the body is the serialization of a fresh `Propfind` to which the local body was
appended first (only if local reported 207) and the remote body second (only if
remote reported 207). A key that a local fragment has is stored with the first
local fragment of that key, whatever the remote body holds, and that fragment is
among the fragments written; a key that no local fragment has is stored with the
first remote fragment of that key; every fragment written is a fragment of a
captured body with the status 207, filed under its own key; and when the two
backends wrote texts, the merged document holds the bytes of what the merger on
the texts stores for the local text followed by the remote text. -/
theorem propfind_merge_favours_local (h : Handler) (rt : Runtime)
    (res : List WriterCall → Bytes → Int × Option Error) (w : List WriterCall)
    (stdout : Bytes) (r : Request) (next : URL) (ha : h.Admits r) (hn : h.Next = some next)
    (hm : r.Method = "PROPFIND".toList)
    (h207 : (h.localCapture next r).StatusCode = StatusMultiStatus ∨
      (h.remoteCapture next r).StatusCode = StatusMultiStatus) :
    (∃ sent : List WriterCall,
      (h.ServeHTTP rt (Recorder res) w stdout r).w = w ++ sent ∧
      sentStatus sent = some 207 ∧
      WriterCall.Header (HeaderMut.Set "Content-Type".toList "text/xml; charset=utf-8".toList)
        ∈ sent ∧
      receivedBody sent =
        (merged (h.localCapture next r) (h.remoteCapture next r)).serialize rt.second) ∧
    (h.ServeHTTP rt (Recorder res) w stdout r).invoked =
      [(Backend.Dav, localRequest next r), (Backend.proxy, remoteRequest next r)] ∧
    (∀ k f : Bytes, (h.localCapture next r).StatusCode = StatusMultiStatus →
      Raw.firstWithKey (h.localCapture next r).B k = some f →
      (merged (h.localCapture next r) (h.remoteCapture next r)).items.lookup k = some f ∧
      ∃ written : List Bytes,
        (merged (h.localCapture next r) (h.remoteCapture next r)).serialize rt.second =
          toBytes xmlHeader ++ written.flatten ++ toBytes xmlFooter ∧
        written.Perm
          ((merged (h.localCapture next r) (h.remoteCapture next r)).items.map Prod.snd) ∧
        f ∈ written) ∧
    (∀ k : Bytes,
      ((h.localCapture next r).StatusCode = StatusMultiStatus →
        Raw.firstWithKey (h.localCapture next r).B k = none) →
      (merged (h.localCapture next r) (h.remoteCapture next r)).items.lookup k =
        if (h.remoteCapture next r).StatusCode = StatusMultiStatus then
          Raw.firstWithKey (h.remoteCapture next r).B k
        else none) ∧
    (∀ e ∈ (merged (h.localCapture next r) (h.remoteCapture next r)).items,
      e.1 = Raw.hrefKey e.2 ∧
      (((h.localCapture next r).StatusCode = StatusMultiStatus ∧
          e.2 ∈ Raw.fragments (h.localCapture next r).B) ∨
        ((h.remoteCapture next r).StatusCode = StatusMultiStatus ∧
          e.2 ∈ Raw.fragments (h.remoteCapture next r).B))) ∧
    (∀ ld rd : Str, (h.localCapture next r).B = toBytes ld →
      (h.remoteCapture next r).B = toBytes rd →
      merged (h.localCapture next r) (h.remoteCapture next r) =
        (appendAll
          ((if (h.localCapture next r).StatusCode = StatusMultiStatus then [ld] else []) ++
            (if (h.remoteCapture next r).StatusCode = StatusMultiStatus then [rd]
              else []))).toRaw) := by
  have e := Handler.ServeHTTP_propfind h rt (Recorder res) w stdout r next ha hn hm
  have hp := Handler.propfind_merge h next rt res w stdout
    [LogEvent.handler r.Method r.URL r.Host] r h207
  refine ⟨⟨_, by rw [e]; exact hp.1, ?_, ?_, ?_⟩, by rw [e]; exact hp.2, ?_, ?_, ?_,
    fun ld rd hl hr => merged_of_texts _ _ ld rd hl hr⟩
  · simp [sentStatus]
  · simp
  · rw [receivedBody_append, Raw.Propfind.receivedBody_WriteTo_raw]
    simp [receivedBody]
  · intro k f hl hf
    have hlook := merged_lookup_local (h.localCapture next r) (h.remoteCapture next r) k f
      hl hf
    exact ⟨hlook, Raw.written_of_lookup_raw hlook rt.second⟩
  · intro k hk
    exact merged_lookup_remote _ _ k hk
  · intro e1 he1
    exact merged_items_from_bodies _ _ e1 he1

set_option maxRecDepth 100000 in
/-- Witness of `propfind_merge_favours_local`, the example of the specification: the
local engine answers 207 with one fragment for `/a`, the next hop answers 207
with another fragment for `/a` and one for `/b`. Two fragments are stored, `/a`
from local and `/b` from remote, and the body that the client gets holds these
two (here the run-time visits the later one first). -/
theorem propfind_merge_favours_local_witness :
    (merged
        ((sampleHandler (some sampleNext)
          [HandlerCall.WriteHeader 207, HandlerCall.Write (toBytes docLocal)]
          [HandlerCall.WriteHeader 207, HandlerCall.Write (toBytes docRemote)]).localCapture
            sampleNext (sampleRequest "PROPFIND".toList))
        ((sampleHandler (some sampleNext)
          [HandlerCall.WriteHeader 207, HandlerCall.Write (toBytes docLocal)]
          [HandlerCall.WriteHeader 207, HandlerCall.Write (toBytes docRemote)]).remoteCapture
            sampleNext (sampleRequest "PROPFIND".toList))).items =
      [(toBytes "/a".toList, toBytes fragLocalA), (toBytes "/b".toList, toBytes fragRemoteB)] ∧
    ∃ sent : List WriterCall,
      ((sampleHandler (some sampleNext)
          [HandlerCall.WriteHeader 207, HandlerCall.Write (toBytes docLocal)]
          [HandlerCall.WriteHeader 207, HandlerCall.Write (toBytes docRemote)]).ServeHTTP
        sampleRuntime (Recorder okWrites) [] [] (sampleRequest "PROPFIND".toList)).w =
        [] ++ sent ∧
      sentStatus sent = some 207 ∧
      receivedBody sent = toBytes (xmlHeader ++ fragRemoteB ++ fragLocalA ++ xmlFooter) :=
  have h := propfind_merge_favours_local
    (sampleHandler (some sampleNext)
      [HandlerCall.WriteHeader 207, HandlerCall.Write (toBytes docLocal)]
      [HandlerCall.WriteHeader 207, HandlerCall.Write (toBytes docRemote)])
    sampleRuntime okWrites [] [] (sampleRequest "PROPFIND".toList) sampleNext
    (Or.inl rfl) rfl (by decide) (Or.inl (by decide))
  ⟨by decide,
    h.1.elim fun sent hs => ⟨sent, hs.1, hs.2.1, hs.2.2.2.trans (by decide)⟩⟩


theorem sentStatus_headers_append (l : List (Str × List Str)) (rest : List WriterCall) :
    sentStatus (l.map (fun kv => WriterCall.Header (HeaderMut.Assign kv.1 kv.2)) ++ rest) =
      sentStatus rest := by
  induction l with
  | nil => rfl
  | cons e l ih => simpa [sentStatus] using ih

theorem receivedBody_headers (l : List (Str × List Str)) :
    receivedBody (l.map (fun kv => WriterCall.Header (HeaderMut.Assign kv.1 kv.2))) = [] := by
  induction l with
  | nil => rfl
  | cons e l ih => simpa [receivedBody] using ih

/-- Claim C16 (both-fail passthrough). For every PROPFIND request that passes the
authentication, with a next hop, where neither captured response has the status
207: the client's writer receives the assignment `Header()[k] = v` for every
entry of the header map of the local capture, each entry once with its values as
they are, then the status code of the local capture and one `Write` of its body
bytes, and nothing else; what it receives does not depend on what the reverse
proxy did. -/
theorem both_fail_passthrough (h : Handler) (rt : Runtime)
    (res : List WriterCall → Bytes → Int × Option Error) (w : List WriterCall)
    (stdout : Bytes) (r : Request) (next : URL) (ha : h.Admits r) (hn : h.Next = some next)
    (hm : r.Method = "PROPFIND".toList)
    (hl : (h.localCapture next r).StatusCode ≠ StatusMultiStatus)
    (hr : (h.remoteCapture next r).StatusCode ≠ StatusMultiStatus) :
    ((rt.headers.visit (h.localCapture next r).H).Perm (h.localCapture next r).H ∧
      (h.ServeHTTP rt (Recorder res) w stdout r).w =
        w ++ ((rt.headers.visit (h.localCapture next r).H).map
            (fun kv => WriterCall.Header (HeaderMut.Assign kv.1 kv.2)) ++
          [WriterCall.WriteHeader (h.localCapture next r).StatusCode,
            WriterCall.Write (h.localCapture next r).B]) ∧
      sentStatus ((rt.headers.visit (h.localCapture next r).H).map
            (fun kv => WriterCall.Header (HeaderMut.Assign kv.1 kv.2)) ++
          [WriterCall.WriteHeader (h.localCapture next r).StatusCode,
            WriterCall.Write (h.localCapture next r).B]) =
        some (h.localCapture next r).StatusCode ∧
      receivedBody ((rt.headers.visit (h.localCapture next r).H).map
            (fun kv => WriterCall.Header (HeaderMut.Assign kv.1 kv.2)) ++
          [WriterCall.WriteHeader (h.localCapture next r).StatusCode,
            WriterCall.Write (h.localCapture next r).B]) =
        (h.localCapture next r).B) ∧
    (∀ proxy2 : Request → Script,
      (({ h with proxy := proxy2 } : Handler).remoteCapture next r).StatusCode ≠
        StatusMultiStatus →
      (({ h with proxy := proxy2 } : Handler).ServeHTTP rt (Recorder res) w stdout r).w =
        (h.ServeHTTP rt (Recorder res) w stdout r).w) := by
  have e := Handler.ServeHTTP_propfind h rt (Recorder res) w stdout r next ha hn hm
  have hp := Handler.propfind_both_fail h next rt res w stdout
    [LogEvent.handler r.Method r.URL r.Host] r hl hr
  refine ⟨⟨rt.headers.perm _, by rw [e]; exact hp, ?_, ?_⟩, ?_⟩
  · rw [sentStatus_headers_append]; rfl
  · rw [receivedBody_append, receivedBody_headers]
    simp [receivedBody]
  · intro proxy2 hr2
    have e2 := Handler.ServeHTTP_propfind ({ h with proxy := proxy2 } : Handler) rt
      (Recorder res) w stdout r next ha hn hm
    have hp2 := Handler.propfind_both_fail ({ h with proxy := proxy2 } : Handler) next rt res w
      stdout [LogEvent.handler r.Method r.URL r.Host] r hl hr2
    rw [e, e2, hp, hp2]
    rfl

set_option maxRecDepth 100000 in
/-- Witness of `both_fail_passthrough`: the local engine answers 403 with a header and
a body, the next hop answers 500; the client gets the local header, status and
body. -/
theorem both_fail_passthrough_witness :
    ((sampleHandler (some sampleNext)
        [HandlerCall.Header (HeaderMut.Set "X-Local".toList "1".toList),
          HandlerCall.WriteHeader 403, HandlerCall.Write (toBytes "Forbidden".toList)]
        [HandlerCall.WriteHeader 500, HandlerCall.Write (toBytes "oops".toList)]).ServeHTTP
      sampleRuntime (Recorder okWrites) [] [] (sampleRequest "PROPFIND".toList)).w =
      [WriterCall.Header (HeaderMut.Assign "X-Local".toList ["1".toList]),
        WriterCall.WriteHeader 403, WriterCall.Write (toBytes "Forbidden".toList)] :=
  have h := both_fail_passthrough
    (sampleHandler (some sampleNext)
      [HandlerCall.Header (HeaderMut.Set "X-Local".toList "1".toList),
        HandlerCall.WriteHeader 403, HandlerCall.Write (toBytes "Forbidden".toList)]
      [HandlerCall.WriteHeader 500, HandlerCall.Write (toBytes "oops".toList)])
    sampleRuntime okWrites [] [] (sampleRequest "PROPFIND".toList) sampleNext
    (Or.inl rfl) rfl (by decide) (by decide) (by decide)
  h.1.2.1.trans (by decide)

/-- Claim C17 (correct content length on merge). For every PROPFIND request that
passes the authentication, with a next hop, where at least one captured response
has the status 207, whatever bytes the two backends wrote: the value of the
header `Content-Length` that the client's writer receives is the decimal form of
the length of the first serialization, the one into the scratch buffer, and this
length is the exact number of bytes of the writes that follow, the second
serialization, whatever the orders in which the two serializations visit the
stored fragments; these writes are the header of the document, the stored
fragments in the order of the second visit, and the footer; for every state the
length of the serialization is the same for all visiting orders. -/
theorem content_length_on_merge (h : Handler) (rt : Runtime)
    (res : List WriterCall → Bytes → Int × Option Error) (w : List WriterCall)
    (stdout : Bytes) (r : Request) (next : URL) (ha : h.Admits r) (hn : h.Next = some next)
    (hm : r.Method = "PROPFIND".toList)
    (h207 : (h.localCapture next r).StatusCode = StatusMultiStatus ∨
      (h.remoteCapture next r).StatusCode = StatusMultiStatus) :
    (∃ (n : Nat) (body : List WriterCall),
      (h.ServeHTTP rt (Recorder res) w stdout r).w =
        w ++ ([WriterCall.Header
              (HeaderMut.Set "Content-Type".toList "text/xml; charset=utf-8".toList),
            WriterCall.Header (HeaderMut.Set "Content-Length".toList (Nat.repr n).toList),
            WriterCall.WriteHeader 207] ++ body) ∧
      n = ((merged (h.localCapture next r) (h.remoteCapture next r)).serialize rt.first).length ∧
      receivedBody body =
        (merged (h.localCapture next r) (h.remoteCapture next r)).serialize rt.second ∧
      (receivedBody body).length = n ∧
      ∃ fs : List Bytes,
        body = ([toBytes xmlHeader] ++ fs ++ [toBytes xmlFooter]).map WriterCall.Write ∧
        fs.Perm ((merged (h.localCapture next r) (h.remoteCapture next r)).items.map
          Prod.snd)) ∧
    (∀ (p : Raw.Propfind) (r1 r2 : MapRange (Bytes × Bytes)),
      (p.serialize r1).length = (p.serialize r2).length) ∧
    (∀ (p : Propfind) (r1 r2 : MapRange (Str × Str)),
      (p.serialize r1).length = (p.serialize r2).length) := by
  have e := Handler.ServeHTTP_propfind h rt (Recorder res) w stdout r next ha hn hm
  have hp := Handler.propfind_merge h next rt res w stdout
    [LogEvent.handler r.Method r.URL r.Host] r h207
  refine ⟨⟨_, _, by rw [e]; exact hp.1, rfl, Raw.Propfind.receivedBody_WriteTo_raw _ _, ?_,
    _, rfl, (rt.second.perm _).map Prod.snd⟩, Raw.Propfind.serialize_length_raw,
    Propfind.serialize_length⟩
  rw [Raw.Propfind.receivedBody_WriteTo_raw]
  exact Raw.Propfind.serialize_length_raw _ _ _

set_option maxRecDepth 100000 in
/-- Witness of `content_length_on_merge` on the example of the specification: the
first serialization visits `/a` then `/b`, the second `/b` then `/a`, and both
have 174 bytes. -/
theorem content_length_on_merge_witness :
    ∃ body : List WriterCall,
      ((sampleHandler (some sampleNext)
          [HandlerCall.WriteHeader 207, HandlerCall.Write (toBytes docLocal)]
          [HandlerCall.WriteHeader 207, HandlerCall.Write (toBytes docRemote)]).ServeHTTP
        sampleRuntime (Recorder okWrites) [] [] (sampleRequest "PROPFIND".toList)).w =
        [] ++ ([WriterCall.Header
              (HeaderMut.Set "Content-Type".toList "text/xml; charset=utf-8".toList),
            WriterCall.Header (HeaderMut.Set "Content-Length".toList "174".toList),
            WriterCall.WriteHeader 207] ++ body) ∧
      (receivedBody body).length = 174 := by
  have h := content_length_on_merge
    (sampleHandler (some sampleNext)
      [HandlerCall.WriteHeader 207, HandlerCall.Write (toBytes docLocal)]
      [HandlerCall.WriteHeader 207, HandlerCall.Write (toBytes docRemote)])
    sampleRuntime okWrites [] [] (sampleRequest "PROPFIND".toList) sampleNext
    (Or.inl rfl) rfl (by decide) (Or.inl (by decide))
  obtain ⟨n, body, h1, h2, -, h4, -⟩ := h.1
  have hn174 : n = 174 := h2.trans (by decide)
  subst hn174
  exact ⟨body, h1, h4⟩


set_option maxRecDepth 100000 in
/-- Bodies that are not UTF-8 are merged byte for byte: the local engine answers 207
with a fragment whose href is `/` and the byte E9, the next hop answers 207 with
a fragment whose href is `/` and the byte E8. Both fragments are stored, under
keys that differ, and the client gets a `Content-Length` of 172 and a body of
172 bytes that holds both fragments as they were written. -/
theorem merge_of_bodies_that_are_not_text :
    (merged
        ((sampleHandler (some sampleNext)
          [HandlerCall.WriteHeader 207, HandlerCall.Write fragE9]
          [HandlerCall.WriteHeader 207, HandlerCall.Write fragE8]).localCapture
            sampleNext (sampleRequest "PROPFIND".toList))
        ((sampleHandler (some sampleNext)
          [HandlerCall.WriteHeader 207, HandlerCall.Write fragE9]
          [HandlerCall.WriteHeader 207, HandlerCall.Write fragE8]).remoteCapture
            sampleNext (sampleRequest "PROPFIND".toList))).items =
      [([0x2F, 0xE9], fragE9), ([0x2F, 0xE8], fragE8)] ∧
    ((sampleHandler (some sampleNext)
        [HandlerCall.WriteHeader 207, HandlerCall.Write fragE9]
        [HandlerCall.WriteHeader 207, HandlerCall.Write fragE8]).ServeHTTP
      sampleRuntime (Recorder okWrites) [] [] (sampleRequest "PROPFIND".toList)).w =
      [WriterCall.Header (HeaderMut.Set "Content-Type".toList "text/xml; charset=utf-8".toList),
        WriterCall.Header (HeaderMut.Set "Content-Length".toList "172".toList),
        WriterCall.WriteHeader 207,
        WriterCall.Write (toBytes xmlHeader), WriterCall.Write fragE8, WriterCall.Write fragE9,
        WriterCall.Write (toBytes xmlFooter)] ∧
    (toBytes xmlHeader ++ fragE8 ++ fragE9 ++ toBytes xmlFooter).length = 172 := by
  decide


/-! ## The fallthrough branch -/

theorem Handler.ServeHTTP_fallthrough (h : Handler) (rt : Runtime) (B : ResponseWriter ω) (w : ω)
    (stdout : Bytes) (r : Request) (next : URL) (ha : h.Admits r) (hn : h.Next = some next)
    (hm : r.Method ≠ "PROPFIND".toList) :
    h.ServeHTTP rt B w stdout r =
      h.fallthrough next B w stdout [LogEvent.handler r.Method r.URL r.Host]
        (localRequest next r) (localRequest next r) (remoteRequest next r) := by
  rw [Handler.ServeHTTP_of_admits h rt B w stdout r ha,
    Handler.dispatch_some h rt B w stdout _ r next hn, if_neg hm]

theorem Handler.sink_after_local (h : Handler) (next : URL)
    (res : List WriterCall → Bytes → Int × Option Error) (w : List WriterCall) (stdout : Bytes)
    (r : Request) :
    ((h.Dav (localRequest next r)).run (InterceptWriter.writer (Recorder res))
        (InterceptWriter.new w stdout)).Base =
      w ++ forwardedByLatestStatus 0 (h.localCalls next res w stdout r) ∧
    ((h.Dav (localRequest next r)).run (InterceptWriter.writer (Recorder res))
        (InterceptWriter.new w stdout)).StatusCode =
      lastStatus 0 (h.localCalls next res w stdout r) := by
  rw [Script.run_eq_calls, ← InterceptWriter.run_eq_writer_run]
  exact InterceptWriter.run_latest_status res _ (InterceptWriter.new w stdout)

theorem Handler.fallthrough_outcome (h : Handler) (next : URL)
    (res : List WriterCall → Bytes → Int × Option Error) (w : List WriterCall) (stdout : Bytes)
    (log : List LogEvent) (r : Request) :
    (lastStatus 0 (h.localCalls next res w stdout r) = StatusNotFound →
      (h.fallthrough next (Recorder res) w stdout log (localRequest next r)
          (localRequest next r) (remoteRequest next r)).invoked =
        [(Backend.Dav, localRequest next r), (Backend.proxy, remoteRequest next r)] ∧
      (h.fallthrough next (Recorder res) w stdout log (localRequest next r)
          (localRequest next r) (remoteRequest next r)).w =
        w ++ forwardedByLatestStatus 0 (h.localCalls next res w stdout r) ++
          (h.remoteCalls next res
            (w ++ forwardedByLatestStatus 0 (h.localCalls next res w stdout r)) r).map
            HandlerCall.toWriterCall) ∧
    (lastStatus 0 (h.localCalls next res w stdout r) ≠ StatusNotFound →
      (h.fallthrough next (Recorder res) w stdout log (localRequest next r)
          (localRequest next r) (remoteRequest next r)).invoked =
        [(Backend.Dav, localRequest next r)] ∧
      (h.fallthrough next (Recorder res) w stdout log (localRequest next r)
          (localRequest next r) (remoteRequest next r)).w =
        w ++ forwardedByLatestStatus 0 (h.localCalls next res w stdout r)) := by
  have hs := Handler.sink_after_local h next res w stdout r
  constructor
  · intro h404
    unfold Handler.fallthrough
    simp only
    rw [if_neg (by rw [hs.2, h404]; simp)]
    refine ⟨rfl, ?_⟩
    show (h.proxy (remoteRequest next r)).run (Recorder res) _ = _
    rw [hs.1, Script.run_eq_calls, Recorder.run_eq]
    rfl
  · intro hne
    unfold Handler.fallthrough
    simp only
    rw [if_pos (by rw [hs.2]; exact hne)]
    exact ⟨rfl, hs.1⟩

theorem lastStatus_suppressed (calls : List HandlerCall)
    (h : ∀ c ∈ calls, ∀ code, c = HandlerCall.WriteHeader code → code = StatusNotFound) :
    lastStatus StatusNotFound calls = StatusNotFound := by
  induction calls with
  | nil => rfl
  | cons c calls ih =>
    have ih2 := ih (fun c2 hc2 => h c2 (List.mem_cons_of_mem _ hc2))
    cases c with
    | Header m => simpa [lastStatus] using ih2
    | WriteHeader code =>
      have := h _ (List.mem_cons_self _ _) code rfl
      subst this
      simpa [lastStatus] using ih2
    | Write b => simpa [lastStatus] using ih2

theorem lastStatus_of_no_notFound (calls : List HandlerCall) (status : Int)
    (hs : status ≠ StatusNotFound)
    (h : ∀ c ∈ calls, c ≠ HandlerCall.WriteHeader StatusNotFound) :
    lastStatus status calls ≠ StatusNotFound := by
  induction calls generalizing status with
  | nil => exact hs
  | cons c calls ih =>
    have h2 : ∀ c2 ∈ calls, c2 ≠ HandlerCall.WriteHeader StatusNotFound :=
      fun c2 hc2 => h c2 (List.mem_cons_of_mem _ hc2)
    cases c with
    | Header m => exact ih status hs h2
    | WriteHeader code =>
      have hc : code ≠ StatusNotFound := by
        intro hc
        exact h _ (List.mem_cons_self _ _) (by rw [hc])
      exact ih code hc h2
    | Write b => exact ih status hs h2

theorem headers_only (hs : List HandlerCall) (hh : ∀ c ∈ hs, c.IsHeader) (status : Int) :
    lastStatus status hs = status ∧
    (∀ c ∈ hs, c ≠ HandlerCall.WriteHeader StatusNotFound) ∧
    (∀ rest : List WriterCall,
      sentStatus (hs.map HandlerCall.toWriterCall ++ rest) = sentStatus rest ∧
      receivedBody (hs.map HandlerCall.toWriterCall ++ rest) = receivedBody rest) := by
  induction hs with
  | nil =>
    refine ⟨rfl, ?_, fun rest => ⟨rfl, rfl⟩⟩
    intro c hc
    cases hc
  | cons c hs ih =>
    have ih2 := ih (fun c2 hc2 => hh c2 (List.mem_cons_of_mem _ hc2))
    have hc := hh c (List.mem_cons_self _ _)
    cases c with
    | Header m =>
      refine ⟨ih2.1, ?_, ?_⟩
      · intro c2 hc2
        rcases List.mem_cons.mp hc2 with e | e
        · rw [e]; intro h; cases h
        · exact ih2.2.1 c2 e
      · intro rest
        exact ih2.2.2 rest
    | WriteHeader code => exact absurd hc (by simp [HandlerCall.IsHeader])
    | Write b => exact absurd hc (by simp [HandlerCall.IsHeader])


/-- Claim C18, amended (fallback correctness). For every request of another method
than PROPFIND that passes the authentication, with a next hop: the local engine
is invoked once, on the fallthrough sink, and the reverse proxy is invoked if
and only if the sink ends with the status 404, the code of the last
`WriteHeader` of the local engine, and then once, after the local engine and
directly on the client's writer, which has received by then what the sink
forwarded of the calls of the local engine. When the local engine reports 404
before it writes anything and reports no other status, the client's writer
receives, apart from header mutations made before the 404, exactly the calls of
the reverse proxy, so the status and the body that the client sees are those the
next hop produced. When the local engine never reports 404, the reverse proxy is
not invoked and the client's writer receives exactly the calls of the local
engine. When the sink ends with another status than 404, or none, the reverse
proxy is not invoked and the client's writer has received what the sink
forwarded. -/
theorem fallback_correctness (h : Handler) (rt : Runtime)
    (res : List WriterCall → Bytes → Int × Option Error) (w : List WriterCall)
    (stdout : Bytes) (r : Request) (next : URL) (ha : h.Admits r) (hn : h.Next = some next)
    (hm : r.Method ≠ "PROPFIND".toList) :
    ((Backend.proxy, remoteRequest next r) ∈ (h.ServeHTTP rt (Recorder res) w stdout r).invoked ↔
      lastStatus 0 (h.localCalls next res w stdout r) = StatusNotFound) ∧
    ((h.ServeHTTP rt (Recorder res) w stdout r).invoked = [(Backend.Dav, localRequest next r)] ∨
      (h.ServeHTTP rt (Recorder res) w stdout r).invoked =
        [(Backend.Dav, localRequest next r), (Backend.proxy, remoteRequest next r)]) ∧
    (lastStatus 0 (h.localCalls next res w stdout r) = StatusNotFound →
      (h.ServeHTTP rt (Recorder res) w stdout r).w =
        w ++ forwardedByLatestStatus 0 (h.localCalls next res w stdout r) ++
          (h.remoteCalls next res
            (w ++ forwardedByLatestStatus 0 (h.localCalls next res w stdout r)) r).map
            HandlerCall.toWriterCall) ∧
    (∀ hs rest : List HandlerCall,
      h.localCalls next res w stdout r = hs ++ HandlerCall.WriteHeader StatusNotFound :: rest →
      (∀ c ∈ hs, c.IsHeader) →
      (∀ c ∈ rest, ∀ code, c = HandlerCall.WriteHeader code → code = StatusNotFound) →
      (h.ServeHTTP rt (Recorder res) w stdout r).invoked =
        [(Backend.Dav, localRequest next r), (Backend.proxy, remoteRequest next r)] ∧
      (h.ServeHTTP rt (Recorder res) w stdout r).w =
        w ++ (hs.map HandlerCall.toWriterCall ++
          (h.remoteCalls next res (w ++ hs.map HandlerCall.toWriterCall) r).map
            HandlerCall.toWriterCall) ∧
      sentStatus (hs.map HandlerCall.toWriterCall ++
          (h.remoteCalls next res (w ++ hs.map HandlerCall.toWriterCall) r).map
            HandlerCall.toWriterCall) =
        sentStatus ((h.remoteCalls next res (w ++ hs.map HandlerCall.toWriterCall) r).map
          HandlerCall.toWriterCall) ∧
      receivedBody (hs.map HandlerCall.toWriterCall ++
          (h.remoteCalls next res (w ++ hs.map HandlerCall.toWriterCall) r).map
            HandlerCall.toWriterCall) =
        receivedBody ((h.remoteCalls next res (w ++ hs.map HandlerCall.toWriterCall) r).map
          HandlerCall.toWriterCall)) ∧
    ((∀ c ∈ h.localCalls next res w stdout r, c ≠ HandlerCall.WriteHeader StatusNotFound) →
      (h.ServeHTTP rt (Recorder res) w stdout r).invoked = [(Backend.Dav, localRequest next r)] ∧
      (h.ServeHTTP rt (Recorder res) w stdout r).w =
        w ++ (h.localCalls next res w stdout r).map HandlerCall.toWriterCall) ∧
    (lastStatus 0 (h.localCalls next res w stdout r) ≠ StatusNotFound →
      (h.ServeHTTP rt (Recorder res) w stdout r).invoked = [(Backend.Dav, localRequest next r)] ∧
      (h.ServeHTTP rt (Recorder res) w stdout r).w =
        w ++ forwardedByLatestStatus 0 (h.localCalls next res w stdout r)) := by
  have e := Handler.ServeHTTP_fallthrough h rt (Recorder res) w stdout r next ha hn hm
  have ho := Handler.fallthrough_outcome h next res w stdout
    [LogEvent.handler r.Method r.URL r.Host] r
  rw [e]
  refine ⟨?_, ?_, fun h404 => (ho.1 h404).2, ?_, ?_, ho.2⟩
  · by_cases h404 : lastStatus 0 (h.localCalls next res w stdout r) = StatusNotFound
    · rw [(ho.1 h404).1]
      simp [h404]
    · rw [(ho.2 h404).1]
      simp [h404]
  · by_cases h404 : lastStatus 0 (h.localCalls next res w stdout r) = StatusNotFound
    · exact Or.inr (ho.1 h404).1
    · exact Or.inl (ho.2 h404).1
  · intro hs rest hcalls hhs hrest
    have hh := headers_only hs hhs 0
    have h404 : lastStatus 0 (h.localCalls next res w stdout r) = StatusNotFound := by
      rw [hcalls, lastStatus_append, hh.1]
      exact lastStatus_suppressed rest hrest
    have hfw : forwardedByLatestStatus 0 (h.localCalls next res w stdout r) =
        hs.map HandlerCall.toWriterCall := by
      rw [hcalls, forwardedByLatestStatus_append, hh.1,
        forwardedByLatestStatus_transparent hs 0 (by simp [StatusNotFound]) hh.2.1]
      have : forwardedByLatestStatus 0 (HandlerCall.WriteHeader StatusNotFound :: rest) = [] := by
        simp [forwardedByLatestStatus, forwardedByLatestStatus_suppressed rest hrest]
      rw [this, List.append_nil]
    have hw := (ho.1 h404).2
    rw [hfw] at hw
    refine ⟨(ho.1 h404).1, ?_, (hh.2.2 _).1, (hh.2.2 _).2⟩
    rw [hw, List.append_assoc]
  · intro hno
    have hne := lastStatus_of_no_notFound _ 0 (by simp [StatusNotFound]) hno
    refine ⟨(ho.2 hne).1, ?_⟩
    rw [(ho.2 hne).2,
      forwardedByLatestStatus_transparent _ 0 (by simp [StatusNotFound]) hno]

/-- Witness of `fallback_correctness`: the local engine answers 404 with a body, the
next hop answers 200; both are invoked and the client's writer receives the
response of the next hop alone. -/
theorem fallback_correctness_witness :
    ((sampleHandler (some sampleNext)
        [HandlerCall.WriteHeader 404, HandlerCall.Write (toBytes "Not Found".toList)]
        [HandlerCall.WriteHeader 200, HandlerCall.Write (toBytes "remote".toList)]).ServeHTTP
      sampleRuntime (Recorder okWrites) [] [] (sampleRequest "GET".toList)).w =
      [WriterCall.WriteHeader 200, WriterCall.Write (toBytes "remote".toList)] ∧
    ((sampleHandler (some sampleNext)
        [HandlerCall.WriteHeader 404, HandlerCall.Write (toBytes "Not Found".toList)]
        [HandlerCall.WriteHeader 200, HandlerCall.Write (toBytes "remote".toList)]).ServeHTTP
      sampleRuntime (Recorder okWrites) [] [] (sampleRequest "GET".toList)).invoked =
      [(Backend.Dav, sampleRequest "GET".toList),
        (Backend.proxy, remoteRequest sampleNext (sampleRequest "GET".toList))] :=
  have h := fallback_correctness
    (sampleHandler (some sampleNext)
      [HandlerCall.WriteHeader 404, HandlerCall.Write (toBytes "Not Found".toList)]
      [HandlerCall.WriteHeader 200, HandlerCall.Write (toBytes "remote".toList)])
    sampleRuntime okWrites [] [] (sampleRequest "GET".toList) sampleNext
    (Or.inl rfl) rfl (by decide)
  have h4 := h.2.2.2.1 [] [HandlerCall.Write (toBytes "Not Found".toList)] rfl
    (fun c hc => by cases hc)
    (by
      intro c hc code hcode
      rw [List.mem_singleton] at hc
      rw [hc] at hcode
      cases hcode)
  ⟨h4.2.1.trans (by rfl), h4.1.trans (by rfl)⟩

set_option maxRecDepth 100000 in
/-- Counterexample to claim C18 as stated: the local engine answers a GET with the
status 200 and the body `local` and then reports 404. The sink ends with the
status 404, so the reverse proxy is invoked, once and on the client's writer;
but the sink had forwarded the status 200 and the body before, so the client
sees the status 200 and the body `localremote`, where the next hop produced the
status 201 and the body `remote`. -/
theorem fallback_after_forwarded_response_fails :
    lastStatus 0
        ((sampleHandler (some sampleNext)
          [HandlerCall.WriteHeader 200, HandlerCall.Write (toBytes "local".toList),
            HandlerCall.WriteHeader 404]
          [HandlerCall.WriteHeader 201, HandlerCall.Write (toBytes "remote".toList)]).localCalls
          sampleNext okWrites [] [] (sampleRequest "GET".toList)) = StatusNotFound ∧
    ((sampleHandler (some sampleNext)
        [HandlerCall.WriteHeader 200, HandlerCall.Write (toBytes "local".toList),
          HandlerCall.WriteHeader 404]
        [HandlerCall.WriteHeader 201, HandlerCall.Write (toBytes "remote".toList)]).ServeHTTP
      sampleRuntime (Recorder okWrites) [] [] (sampleRequest "GET".toList)).invoked =
      [(Backend.Dav, sampleRequest "GET".toList),
        (Backend.proxy, remoteRequest sampleNext (sampleRequest "GET".toList))] ∧
    ((sampleHandler (some sampleNext)
        [HandlerCall.WriteHeader 200, HandlerCall.Write (toBytes "local".toList),
          HandlerCall.WriteHeader 404]
        [HandlerCall.WriteHeader 201, HandlerCall.Write (toBytes "remote".toList)]).ServeHTTP
      sampleRuntime (Recorder okWrites) [] [] (sampleRequest "GET".toList)).w =
      [WriterCall.WriteHeader 200, WriterCall.Write (toBytes "local".toList),
        WriterCall.WriteHeader 201, WriterCall.Write (toBytes "remote".toList)] ∧
    sentStatus
        ((sampleHandler (some sampleNext)
          [HandlerCall.WriteHeader 200, HandlerCall.Write (toBytes "local".toList),
            HandlerCall.WriteHeader 404]
          [HandlerCall.WriteHeader 201, HandlerCall.Write (toBytes "remote".toList)]).ServeHTTP
        sampleRuntime (Recorder okWrites) [] [] (sampleRequest "GET".toList)).w = some 200 ∧
    receivedBody
        ((sampleHandler (some sampleNext)
          [HandlerCall.WriteHeader 200, HandlerCall.Write (toBytes "local".toList),
            HandlerCall.WriteHeader 404]
          [HandlerCall.WriteHeader 201, HandlerCall.Write (toBytes "remote".toList)]).ServeHTTP
        sampleRuntime (Recorder okWrites) [] [] (sampleRequest "GET".toList)).w =
      toBytes "localremote".toList ∧
    sentStatus
        (((sampleHandler (some sampleNext)
          [HandlerCall.WriteHeader 200, HandlerCall.Write (toBytes "local".toList),
            HandlerCall.WriteHeader 404]
          [HandlerCall.WriteHeader 201, HandlerCall.Write (toBytes "remote".toList)]).remoteCalls
          sampleNext okWrites
          [WriterCall.WriteHeader 200, WriterCall.Write (toBytes "local".toList)]
          (sampleRequest "GET".toList)).map HandlerCall.toWriterCall) = some 201 ∧
    receivedBody
        (((sampleHandler (some sampleNext)
          [HandlerCall.WriteHeader 200, HandlerCall.Write (toBytes "local".toList),
            HandlerCall.WriteHeader 404]
          [HandlerCall.WriteHeader 201, HandlerCall.Write (toBytes "remote".toList)]).remoteCalls
          sampleNext okWrites
          [WriterCall.WriteHeader 200, WriterCall.Write (toBytes "local".toList)]
          (sampleRequest "GET".toList)).map HandlerCall.toWriterCall) =
      toBytes "remote".toList := by
  decide


/-! ## Stored fragments are whole fragments -/

theorem split_of_append_of_not_mem {c : Char} {l tail ys rs b : Str} (hc : c ∉ l)
    (h : l ++ tail = ys ++ (c :: rs) ++ b) : ∃ z, tail = z ++ (c :: rs) ++ b ∧ ys = l ++ z := by
  rw [List.append_assoc] at h
  rcases List.append_eq_append_iff.mp h with ⟨x, hx1, hx2⟩ | ⟨x, hx1, hx2⟩
  · exact ⟨x, by rw [hx2]; simp, hx1⟩
  · cases x with
    | nil => exact ⟨[], by simpa using hx2.symm, by simpa using hx1.symm⟩
    | cons x0 xs =>
      exfalso
      apply hc
      simp only [List.cons_append, List.cons.injEq] at hx2
      rw [hx1, hx2.1]
      simp

/-- A whole fragment has one occurrence of `</D:response>` only, at its end. -/
theorem IsFragment.close_only_at_end {f : Str} (hf : IsFragment f) (a b : Str)
    (h : f = a ++ responseClose ++ b) : b = [] := by
  obtain ⟨body, hfb, hfirst⟩ := hf
  have hO : responseOpen = '<' :: responseOpen.tail := by decide
  have hR : responseClose = '<' :: responseClose.tail := by decide
  have hcL : '<' ∉ responseOpen.tail := by decide
  have hbody : ∃ z, body ++ responseClose = z ++ responseClose ++ b := by
    cases a with
    | nil =>
      exfalso
      rw [hfb, hO, hR] at h
      simp only [List.nil_append, List.cons_append, List.cons.injEq, true_and] at h
      have e : (responseOpen.tail ++ (body ++ responseClose.tail.cons '<')).head? =
          (responseClose.tail ++ b).head? := by
        have h2 : responseOpen.tail ++ (body ++ '<' :: responseClose.tail) =
            responseClose.tail ++ b := by simpa using h
        exact congrArg List.head? h2
      have e1 : (responseOpen.tail ++ (body ++ responseClose.tail.cons '<')).head? =
          some 'D' := rfl
      have e2 : (responseClose.tail ++ b).head? = some '/' := rfl
      rw [e1, e2] at e
      exact absurd e (by decide)
    | cons a0 as =>
      rw [hfb, hO] at h
      simp only [List.cons_append, List.cons.injEq] at h
      have h2 : responseOpen.tail ++ (body ++ responseClose) =
          as ++ ('<' :: responseClose.tail) ++ b := by
        rw [← hR]; simpa using h.2
      obtain ⟨z, hz, -⟩ := split_of_append_of_not_mem hcL h2
      exact ⟨z, by rw [hz, ← hR]⟩
  obtain ⟨z, hz⟩ := hbody
  have hle := hfirst.2 z b hz
  have hlen := congrArg List.length hz
  simp only [List.length_append] at hlen
  exact List.length_eq_zero.mp (by omega)

theorem fragments_taken_left_to_right : ∀ (n : Nat) (d : Str), d.length ≤ n →
    TakenLeftToRight (fragments d) d := by
  intro n
  induction n with
  | zero =>
    intro d hd
    have hd0 : d = [] := List.length_eq_zero.mp (by omega)
    subst hd0
    rw [fragments_nil]
    exact (no_fragment_iff []).mpr (by decide)
  | succ n ih =>
    intro d hd
    cases hf : NewPropfind.response.find d with
    | none =>
      have : fragments d = [] := Regexp.FindAllString_of_find_none hf
      rw [this]
      exact (no_fragment_iff d).mpr hf
    | some r =>
      obtain ⟨gap, f, rest⟩ := r
      have hl := Regexp.find_length hf
      obtain ⟨body, hm, hs, h1, h2⟩ := Regexp.find_eq_some hf
      have hfr : fragments d = f :: fragments rest := by
        unfold fragments
        rw [Regexp.FindAllString_eq (by decide), hf]
      have hlen : rest.length ≤ n := by
        have : 0 < f.length := by
          have := hl.2
          have h25 : 0 < NewPropfind.response.left.length + NewPropfind.response.right.length := by
            decide
          omega
        omega
      rw [hfr]
      refine ⟨gap, rest, hs, ?_, ?_, ih rest hlen⟩
      · refine ⟨body, hm, by simp, ?_⟩
        intro b2 a2 hocc
        exact splitAtFirst_first h2 b2 (a2 ++ rest) (by
          show body ++ responseClose ++ rest = b2 ++ responseClose ++ (a2 ++ rest)
          rw [hocc]; simp)
      · have hdrop : f.drop responseOpen.length = body ++ responseClose := by
          rw [hm]
          show (responseOpen ++ body ++ responseClose).drop responseOpen.length = _
          rw [List.append_assoc, List.drop_left]
        rw [hdrop]
        exact FirstOccurrence.of_splitAtFirst h1

/-- Claim C19 (stored fragments are whole fragments). After every sequence of
`Append` calls on a fresh `Propfind`, every stored entry holds a fragment taken
from one of the appended documents: it is a substring of that document, it
starts with `<D:response>`, ends with `</D:response>` and has no other
occurrence of `</D:response>`, and it is filed under its own key. The fragments
taken from a document do not overlap and are taken left to right, each starting
at the earliest `<D:response>` after the end of the fragment before it. -/
theorem stored_fragments_are_whole (docs : List Str) :
    (∀ e ∈ (appendAll docs).items, ∃ d ∈ docs,
      e.2 ∈ fragments d ∧ e.2 <:+: d ∧ e.1 = hrefKey e.2 ∧
      (∃ body, e.2 = responseOpen ++ body ++ responseClose) ∧
      (∀ a b : Str, e.2 = a ++ responseClose ++ b → b = [])) ∧
    (∀ d : Str, TakenLeftToRight (fragments d) d) := by
  constructor
  · intro e he
    rcases mem_items_foldl_Append docs NewPropfind NewPropfind_compiled e he with h | h
    · cases h
    · obtain ⟨d, hd, hfr, hk⟩ := h
      have hfrag := isFragment_of_mem_fragments hfr
      obtain ⟨body, hb, -⟩ := hfrag
      exact ⟨d, hd, hfr, mem_fragments_infix hfr, hk, ⟨body, hb⟩,
        (isFragment_of_mem_fragments hfr).close_only_at_end⟩
  · intro d
    exact fragments_taken_left_to_right d.length d (Nat.le_refl _)

/-! ## The result of `WriteTo` -/

/-- Claim C20 (the result of `WriteTo` does not report what was written). For every
state, every visiting order and every writer, `WriteTo` returns `n = 0` and
`err = nil`: also for a writer whose `Write` always fails, and also after it has
written the whole document, which is never empty, into a `bytes.Buffer`. -/
theorem writeTo_result_reports_nothing (p : Propfind) (r : MapRange (Str × Str)) :
    (∀ (ω : Type) (W : Writer ω) (w : ω), (p.WriteTo r W w).2 = (0, none)) ∧
    (p.WriteTo r failingWriter ()).2 = (0, none) ∧
    (∀ buf : Bytes, (p.WriteTo r Buffer buf).2 = (0, none) ∧
      (p.WriteTo r Buffer buf).1 = buf ++ p.serialize r ∧ 0 < (p.serialize r).length) := by
  refine ⟨fun _ _ _ => rfl, rfl, fun buf => ⟨rfl, ?_, ?_⟩⟩
  · rw [Propfind.WriteTo_Buffer, Propfind.serialize_eq]
  · rw [Propfind.serialize_eq, toBytes_append, toBytes_append]
    have : 0 < (toBytes xmlHeader).length := by decide
    simp only [List.length_append]
    omega

end Davnext
